import Mathlib

/-!
# Keyed-archive codec of `ns/keyed_archiver.go`

A shallow embedding of the encoder (`Marshal`, `idAny`, `idArray`,
`idDictionary`, `id`, `flushToStruct`, `clear`) and of the decoder
(`Unmarshal`, `convertValue`) of the package `ns`, followed by theorems about
them.

Conventions of the embedding.

* Go's `interface{}` is the type `Val`: one constructor per dynamic type the
  package handles.  A Go map is an association list; the order of the list is
  the order in which `reflect.Value.MapKeys` hands out the keys, so a theorem
  quantified over all lists covers every iteration order.
* A run-time panic is a result `Except.error (Stop.panic p)`.  The decoder
  recurses on data, so it takes a recursion budget; `Except.error Stop.fuel`
  says the budget was used up, it is not a behaviour of the Go code.
* `plist.Marshal`/`plist.Unmarshal` are outside the package.  `plistValue` and
  `plistTransport` describe what a faithful transport hands back for the
  archive root that `Marshal` built.
-/

namespace NS

/-! ## Data model -/

/-- The constant `NSNull`. -/
def NSNull : String := "$null"

/-- The struct `ArchiverRoot`. -/
structure ArchiverRoot where
  Root : Nat
deriving DecidableEq, Repr

/-- The struct `ArchiverClasses`: a class name and its ancestor chain. -/
structure ArchiverClasses where
  Classes : List String
  ClassName : String
deriving DecidableEq, Repr

def NSMutableDictionaryClass : ArchiverClasses :=
  { Classes := ["NSMutableDictionary", "NSDictionary", "NSObject"], ClassName := "NSMutableDictionary" }

def NSDictionaryClass : ArchiverClasses :=
  { Classes := ["NSDictionary", "NSObject"], ClassName := "NSDictionary" }

def NSMutableArrayClass : ArchiverClasses :=
  { Classes := ["NSMutableArray", "NSArray", "NSObject"], ClassName := "NSMutableArray" }

def NSArrayClass : ArchiverClasses :=
  { Classes := ["NSArray", "NSObject"], ClassName := "NSArray" }

def NSMutableDataClass : ArchiverClasses :=
  { Classes := ["NSMutableArray", "NSArray", "NSObject"], ClassName := "NSMutableArray" }

def NSDataClass : ArchiverClasses :=
  { Classes := ["NSData", "NSObject"], ClassName := "NSData" }

def NSDateClass : ArchiverClasses :=
  { Classes := ["NSDate", "NSObject"], ClassName := "NSDate" }

def NSErrorClass : ArchiverClasses :=
  { Classes := ["NSError", "NSObject"], ClassName := "NSError" }

def NSSetClass : ArchiverClasses :=
  { Classes := ["NSSet", "NSObject"], ClassName := "NSSet" }

def NSMutableSetClass : ArchiverClasses :=
  { Classes := ["NSMutableSet", "NSSet", "NSObject"], ClassName := "NSMutableSet" }

def DTTapMessageClass : ArchiverClasses :=
  { Classes := ["DTTapMessage", "NSObject"], ClassName := "DTTapMessage" }

def DTSysmonTapMessageClass : ArchiverClasses :=
  { Classes := ["DTSysmonTapMessage", "DTTapMessage", "NSObject"], ClassName := "DTSysmonTapMessage" }

/-- The twelve package-level variables of type `*ArchiverClasses`.  Two of these
pointers are equal exactly when they are the same variable, whatever the
records they point to hold. -/
inductive ClassPtr where
  | NSMutableDictionary | NSDictionary | NSMutableArray | NSArray
  | NSMutableData | NSData | NSDate | NSError | NSSet | NSMutableSet
  | DTTapMessage | DTSysmonTapMessage
deriving DecidableEq, Repr

/-- The record a registry pointer points to. -/
def ClassPtr.deref : ClassPtr → ArchiverClasses
  | .NSMutableDictionary => NSMutableDictionaryClass
  | .NSDictionary => NSDictionaryClass
  | .NSMutableArray => NSMutableArrayClass
  | .NSArray => NSArrayClass
  | .NSMutableData => NSMutableDataClass
  | .NSData => NSDataClass
  | .NSDate => NSDateClass
  | .NSError => NSErrorClass
  | .NSSet => NSSetClass
  | .NSMutableSet => NSMutableSetClass
  | .DTTapMessage => DTTapMessageClass
  | .DTSysmonTapMessage => DTSysmonTapMessageClass

/-- The registry: every class descriptor variable of the package. -/
def registry : List ClassPtr :=
  [.NSMutableDictionary, .NSDictionary, .NSMutableArray, .NSArray, .NSMutableData, .NSData,
   .NSDate, .NSError, .NSSet, .NSMutableSet, .DTTapMessage, .DTSysmonTapMessage]

/-- The expression `X.Classes[0]` of the decoder's `case` lists. -/
def ArchiverClasses.Classes0 (c : ArchiverClasses) : String := c.Classes.headD ""

/-- The integer kinds `idAny` accepts (`reflect.Int` ... `reflect.Uintptr`). -/
inductive IntKind where
  | int | int8 | int16 | int32 | int64
  | uint | uint8 | uint16 | uint32 | uint64 | uintptr
deriving DecidableEq, Repr

/-- A `float64`, kept exact: a finite value is `m * 2 ^ e`. -/
inductive F64 where
  | finite (m : Int) (e : Int)
  | nan
  | inf (negative : Bool)
deriving DecidableEq, Repr

/-- The structs `NSData`, `NSArray` and `NSDictionary`, each with the `Class`
field of the embedded `NSObject`. -/
inductive Node where
  | NSData (Class : Nat) (Data : List (Fin 256))
  | NSArray (Class : Nat) (Values : List Nat)
  | NSDictionary (Class : Nat) (Values : List Nat) (Keys : List Nat)
deriving DecidableEq, Repr

/-- A Go value of type `interface{}`. -/
inductive Val where
  /-- the nil interface -/
  | nil
  | str (s : String)
  | int (k : IntKind) (n : Int)
  | bool (b : Bool)
  | float64 (x : F64)
  /-- a `plist.UID` -/
  | uid (n : Nat)
  /-- a slice or array whose element kind is `Uint8` -/
  | bytes (bs : List (Fin 256))
  /-- any other slice or array, `[]interface{}` among them -/
  | slice (xs : List Val)
  /-- a map with string keys, `map[string]interface{}` among them -/
  | dict (kvs : List (String × Val))
  /-- a map with any other key type; `map[any]struct{}` pairs every key with `struct{}{}` -/
  | anyMap (kvs : List (Val × Val))
  /-- a `time.Time` in UTC, as nanoseconds since 1970-01-01T00:00:00 -/
  | time (unixNano : Int)
  /-- a struct value of some other type, `struct{}{}` among them -/
  | struct (name : String)
  /-- one of the registry pointers -/
  | classPtr (p : ClassPtr)
  /-- a pointer to a node the encoder has just allocated -/
  | nodePtr (n : Node)
  /-- an `ArchiverClasses` struct value -/
  | classes (c : ArchiverClasses)
  /-- an `NSData`, `NSArray` or `NSDictionary` struct value -/
  | node (n : Node)
  /-- a `*GoNSError` -/
  | goNSError (NSCode : Int) (NSDomain : String) (NSUserInfo : Val)
  /-- a `*DTTapMessage` -/
  | tapMessage (Message : List (String × Val))

/-- The struct `KeyedArchiver`, the archive root. -/
structure KeyedArchiver where
  Archiver : String
  Objects : List Val
  Top : ArchiverRoot
  Version : Int

/-- The function `NewKeyedArchiver`. -/
def NewKeyedArchiver : KeyedArchiver :=
  { Archiver := "NSKeyedArchiver", Objects := [], Top := { Root := 0 }, Version := 100000 }

/-- The struct `NSKeyedArchiver`: the value list and the value-to-reference map. -/
structure NSKeyedArchiver where
  objRefVal : List Val
  objRef : List (Val × Nat)

/-- The function `NewNSKeyedArchiver`. -/
def NewNSKeyedArchiver : NSKeyedArchiver := { objRefVal := [], objRef := [] }

/-- The run-time panics of the package. -/
inductive Panic where
  /-- `reflect: call of reflect.Value.Type on zero Value` -/
  | zeroValueType
  /-- `reflect: call of reflect.Value.Interface on zero Value` -/
  | zeroValueInterface
  /-- a failed type assertion `x.(T)` -/
  | typeAssertion
  /-- `index out of range` -/
  | indexOutOfRange
  /-- `hash of unhashable type` -/
  | unhashable
deriving DecidableEq, Repr

/-- Why a run gave no result: the Go code panicked, or the recursion budget of
the embedding was used up. -/
inductive Stop where
  | panic (p : Panic)
  | fuel
deriving DecidableEq, Repr

/-! ## Equality of interface values -/

/-- Go's `==` on two `float64`. -/
def F64.eq : F64 → F64 → Bool
  | .finite m e, .finite m' e' =>
      let k := min e e'
      decide (m * 2 ^ (e - k).toNat = m' * 2 ^ (e' - k).toNat)
  | .inf a, .inf b => a == b
  | _, _ => false

/-- Go's `==` on the interface values used as map keys: equal dynamic type and
equal value.  A pointer the caller has just allocated (`nodePtr`, `goNSError`,
`tapMessage`) differs from every key already stored. -/
def goEq : Val → Val → Bool
  | .nil, .nil => true
  | .str a, .str b => a == b
  | .int k a, .int k' b => k == k' && a == b
  | .bool a, .bool b => a == b
  | .float64 a, .float64 b => F64.eq a b
  | .uid a, .uid b => a == b
  | .time a, .time b => a == b
  | .struct a, .struct b => a == b
  | .classPtr a, .classPtr b => a == b
  | _, _ => false

/-- Whether a value is a `float64` NaN: the key of a Go map that differs from
itself, so that no lookup finds its entry. -/
def isNaN : Val → Bool
  | .float64 .nan => true
  | _ => false

/-- Whether a value can be a map key: slices and maps cannot. -/
def hashable : Val → Bool
  | .bytes _ => false
  | .slice _ => false
  | .dict _ => false
  | .anyMap _ => false
  | .classes _ => false
  | .node _ => false
  | _ => true

/-! ## Encoder -/

/-- The method `id`: the reference of `v`, interning it when the map does not
hold it yet.  The lookup `this.objRef[v]` is a search with Go's `==`; the new
reference is `len(this.objRef)`.  Every value the package passes to `id` can be
hashed: a string, an integer, a boolean, a pointer, or a key of a Go map. -/
def NSKeyedArchiver.id (this : NSKeyedArchiver) (v : Val) : Nat × NSKeyedArchiver :=
  match this.objRef.find? (fun e => goEq e.1 v) with
  | none =>
      let ref := this.objRef.length
      (ref, { objRefVal := this.objRefVal ++ [v], objRef := this.objRef ++ [(v, ref)] })
  | some e => (e.2, this)

/-- The body of the loop of `flushToStruct`: a pointer is replaced by the struct
it points to.  The fields of a `GoNSError` or `DTTapMessage` struct value are
not tracked. -/
def flushValue : Val → Val
  | .classPtr p => .classes p.deref
  | .nodePtr n => .node n
  | .goNSError _ _ _ => .struct "GoNSError"
  | .tapMessage _ => .struct "DTTapMessage"
  | v => v

/-- The method `flushToStruct`. -/
def NSKeyedArchiver.flushToStruct (this : NSKeyedArchiver) (root : KeyedArchiver) : KeyedArchiver :=
  { root with Objects := this.objRefVal.foldl (fun objs val => objs ++ [flushValue val]) root.Objects }

/-- The method `clear`. -/
def NSKeyedArchiver.clear (_this : NSKeyedArchiver) : NSKeyedArchiver :=
  { objRefVal := [], objRef := [] }

/-- The byte loop of `idArray`: `w = append(w, uint8(v.Index(i).Uint()))`. -/
def copyBytes (bs : List (Fin 256)) : List (Fin 256) :=
  bs.foldl (fun w b => w ++ [Fin.ofNat b.val]) []

mutual
/-- The method `idAny`.  `reflect.ValueOf(nil).Type()` panics; a kind that no
`case` lists leaves `uid` at its zero value.  The bodies of `idArray` and
`idDictionary` stand at their call, their loops are `idArrayValues` and
`idDictionaryEntries` / `idAnyMapEntries`. -/
def idAny (this : NSKeyedArchiver) : Val → Except Stop (Nat × NSKeyedArchiver)
  | .nil => .error (.panic .zeroValueType)
  | .dict kvs =>
      -- idDictionary
      match idDictionaryEntries (this.id (.classPtr .NSDictionary)).2 kvs with
      | .error e => .error e
      | .ok (keys, values, s) =>
          .ok (s.id (.nodePtr (.NSDictionary (this.id (.classPtr .NSDictionary)).1 values keys)))
  | .anyMap kvs =>
      -- idDictionary
      match idAnyMapEntries (this.id (.classPtr .NSDictionary)).2 kvs with
      | .error e => .error e
      | .ok (keys, values, s) =>
          .ok (s.id (.nodePtr (.NSDictionary (this.id (.classPtr .NSDictionary)).1 values keys)))
  | .bytes bs =>
      -- idArray, element kind Uint8
      .ok ((this.id (.classPtr .NSData)).2.id
        (.nodePtr (.NSData (this.id (.classPtr .NSData)).1 (copyBytes bs))))
  | .slice xs =>
      -- idArray
      match idArrayValues (this.id (.classPtr .NSArray)).2 xs with
      | .error e => .error e
      | .ok (values, s) =>
          .ok (s.id (.nodePtr (.NSArray (this.id (.classPtr .NSArray)).1 values)))
  | .str s => .ok (this.id (.str s))
  | .int k n => .ok (this.id (.int k n))
  | .bool b => .ok (this.id (.bool b))
  | .uid n => .ok (this.id (.uid n))
  | .float64 _ => .ok (0, this)
  | .time _ => .ok (0, this)
  | .struct _ => .ok (0, this)
  | .classPtr _ => .ok (0, this)
  | .nodePtr _ => .ok (0, this)
  | .classes _ => .ok (0, this)
  | .node _ => .ok (0, this)
  | .goNSError _ _ _ => .ok (0, this)
  | .tapMessage _ => .ok (0, this)
/-- The loop of `idArray`: `a.Values = append(a.Values, this.idAny(...))`. -/
def idArrayValues (this : NSKeyedArchiver) : List Val → Except Stop (List Nat × NSKeyedArchiver)
  | [] => .ok ([], this)
  | x :: xs =>
      match idAny this x with
      | .error e => .error e
      | .ok (r, s) =>
          match idArrayValues s xs with
          | .error e => .error e
          | .ok (rs, s') => .ok (r :: rs, s')
/-- The loop of `idDictionary` over a map with string keys: the key goes
through `id`, the value through `idAny`. -/
def idDictionaryEntries (this : NSKeyedArchiver) :
    List (String × Val) → Except Stop (List Nat × List Nat × NSKeyedArchiver)
  | [] => .ok ([], [], this)
  | (k, v) :: kvs =>
      match idAny (this.id (.str k)).2 v with
      | .error e => .error e
      | .ok (r, s) =>
          match idDictionaryEntries s kvs with
          | .error e => .error e
          | .ok (ks, rs, s') => .ok ((this.id (.str k)).1 :: ks, r :: rs, s')
/-- The loop of `idDictionary` over a map with keys of another type.  For a
NaN key `v.MapIndex(k)` finds no entry and returns the zero Value, on which
`Interface()` panics. -/
def idAnyMapEntries (this : NSKeyedArchiver) :
    List (Val × Val) → Except Stop (List Nat × List Nat × NSKeyedArchiver)
  | [] => .ok ([], [], this)
  | (k, v) :: kvs =>
      if isNaN k then .error (.panic .zeroValueInterface)
      else
        match idAny (this.id k).2 v with
        | .error e => .error e
        | .ok (r, s) =>
            match idAnyMapEntries s kvs with
            | .error e => .error e
            | .ok (ks, rs, s') => .ok ((this.id k).1 :: ks, r :: rs, s')
end

/-- The method `Marshal`, up to the call of `plist.Marshal`: the archive root
handed to the leaf codec and the state the instance is left in. -/
def Marshal (this : NSKeyedArchiver) (obj : Val) : Except Stop (KeyedArchiver × NSKeyedArchiver) :=
  match idAny (this.id (.str NSNull)).2 obj with
  | .error e => .error e
  | .ok (uid, s) =>
      .ok (s.flushToStruct { NewKeyedArchiver with Top := { Root := uid } }, s.clear)

/-! ## Leaf codec -/

/-- Modelled from the spec: the external property-list leaf codec
(`plist.Marshal` then `plist.Unmarshal`), which is not part of the package.
A struct value comes back as a `map[string]interface{}` under the wire keys of
the archive format, which are the `plist` tags of the struct fields (`$class`,
`$classes`, `$classname`, `NS.data`, `NS.objects`, `NS.keys`), a reference as a
`plist.UID`, a scalar as itself, with its dynamic type. -/
def plistValue : Val → Val
  | .classes c => .dict [("$classes", .slice (c.Classes.map .str)), ("$classname", .str c.ClassName)]
  | .node (.NSData cls data) => .dict [("$class", .uid cls), ("NS.data", .bytes data)]
  | .node (.NSArray cls values) => .dict [("$class", .uid cls), ("NS.objects", .slice (values.map .uid))]
  | .node (.NSDictionary cls values keys) =>
      .dict [("$class", .uid cls), ("NS.objects", .slice (values.map .uid)),
             ("NS.keys", .slice (keys.map .uid))]
  | v => v

/-- Modelled from the spec: the archive root as the external leaf codec hands
it back after a faithful transport. -/
def plistTransport (root : KeyedArchiver) : KeyedArchiver :=
  { root with Objects := root.Objects.map plistValue }

/-! ## Decoder -/

/-- The type assertion `v.(plist.UID)`. -/
def asUID : Val → Except Stop Nat
  | .uid n => .ok n
  | _ => .error (.panic .typeAssertion)

/-- The type assertion `v.(map[string]interface{})`. -/
def asDict : Val → Except Stop (List (String × Val))
  | .dict m => .ok m
  | _ => .error (.panic .typeAssertion)

/-- The type assertion `v.([]interface{})`. -/
def asSlice : Val → Except Stop (List Val)
  | .slice xs => .ok xs
  | _ => .error (.panic .typeAssertion)

/-- The type assertion `v.(string)`. -/
def asString : Val → Except Stop String
  | .str s => .ok s
  | _ => .error (.panic .typeAssertion)

/-- The type assertion `v.([]byte)`. -/
def asBytes : Val → Except Stop (List (Fin 256))
  | .bytes bs => .ok bs
  | _ => .error (.panic .typeAssertion)

/-- The type assertion `v.(float64)`. -/
def asFloat64 : Val → Except Stop F64
  | .float64 x => .ok x
  | _ => .error (.panic .typeAssertion)

/-- The type assertion `v.(uint64)`. -/
def asUint64 : Val → Except Stop Int
  | .int .uint64 n => .ok n
  | _ => .error (.panic .typeAssertion)

/-- The index expression `l[i]` on a slice. -/
def index (l : List Val) (i : Nat) : Except Stop Val :=
  match l[i]? with
  | some v => .ok v
  | none => .error (.panic .indexOutOfRange)

/-- The index expression `m[k]` on a `map[string]interface{}`: nil when the key
is absent. -/
def mapIndex (m : List (String × Val)) (k : String) : Val :=
  (m.lookup k).getD .nil

/-- The assignment `ret[key] = val` on a `map[string]interface{}`. -/
def dictSet (ret : List (String × Val)) (key : String) (val : Val) : List (String × Val) :=
  if ret.any (fun e => e.1 == key) then
    ret.map (fun e => if e.1 == key then (key, val) else e)
  else ret ++ [(key, val)]

/-- The assignment `ret[val] = struct{}{}` on a `map[any]struct{}`; it panics
when `val` cannot be hashed. -/
def setInsert (ret : List (Val × Val)) (val : Val) : Except Stop (List (Val × Val)) :=
  if hashable val then
    if ret.any (fun e => goEq e.1 val) then .ok ret else .ok (ret ++ [(val, .struct "struct {}")])
  else .error (.panic .unhashable)

/-- Wrap-around of `int64` arithmetic. -/
def wrapInt64 (x : Int) : Int := (x + 2 ^ 63) % 2 ^ 64 - 2 ^ 63

/-- The value of a finite `float64` with its fraction cut off. -/
def truncFinite (m e : Int) : Int :=
  if 0 ≤ e then m * 2 ^ e.toNat else Int.tdiv m (2 ^ (-e).toNat)

/-- The conversion `time.Duration(x)` of a `float64` to `int64`: the fraction is
cut off.  For a value outside `int64`, a NaN or an infinity the language leaves
the result to the implementation; it is taken to be the least `int64`, as on
amd64. -/
def durationOfFloat64 : F64 → Int
  | .finite m e =>
      if -(2 ^ 63) ≤ truncFinite m e ∧ truncFinite m e < 2 ^ 63 then truncFinite m e else -(2 ^ 63)
  | _ => -(2 ^ 63)

/-- The constant `time.Second`, in nanoseconds. -/
def Second : Int := 1000000000

/-- The value `time.Date(2001, 1, 1, 0, 0, 0, 0, time.UTC)` in nanoseconds
since 1970-01-01T00:00:00 UTC: 11323 days of 86400 seconds. -/
def referenceDate : Int := 11323 * 86400 * 1000000000

/-- The conversion `int(x)` of a `uint64`. -/
def intOfUint64 (x : Int) : Int := wrapInt64 x

/-- The loop of the dictionary case of `convertValue`, from index `i` on:
`key := objRefVal[keys[i].(plist.UID)].(string)`,
`val := convertValue(objRefVal[values[i].(plist.UID)])`, `ret[key] = val`. -/
def dictLoop (objRefVal : List Val) (conv : Val → Except Stop Val) (values : List Val) :
    List Val → Nat → List (String × Val) → Except Stop (List (String × Val))
  | [], _, ret => .ok ret
  | k :: keys, i, ret => do
      let keyRef ← asUID k
      let keyObj ← index objRefVal keyRef
      let key ← asString keyObj
      let v ← index values i
      let valRef ← asUID v
      let valObj ← index objRefVal valRef
      let val ← conv valObj
      dictLoop objRefVal conv values keys (i + 1) (dictSet ret key val)

/-- The loop of the set case of `convertValue`. -/
def setLoop (objRefVal : List Val) (conv : Val → Except Stop Val) :
    List Val → List (Val × Val) → Except Stop (List (Val × Val))
  | [], ret => .ok ret
  | v :: values, ret => do
      let valRef ← asUID v
      let valObj ← index objRefVal valRef
      let val ← conv valObj
      let ret' ← setInsert ret val
      setLoop objRefVal conv values ret'

/-- The loop of the array case of `convertValue`:
`ret = append(ret, convertValue(values[i]))`. -/
def arrayLoop (conv : Val → Except Stop Val) : List Val → List Val → Except Stop (List Val)
  | [], ret => .ok ret
  | v :: values, ret => do
      let val ← conv v
      arrayLoop conv values (ret ++ [val])

/-- Whether the `switch` of `convertValue` takes the case that lists the names
`a.Classes[0], b.Classes[0]`. -/
def caseOf (className : Val) (a b : ArchiverClasses) : Bool :=
  goEq className (.str a.Classes0) || goEq className (.str b.Classes0)

/-- The method `convertValue` over the object table `objRefVal`, with a
recursion budget. -/
def convertValue (objRefVal : List Val) : Nat → Val → Except Stop Val
  | 0, _ => .error .fuel
  | fuel + 1, .dict m => do
      let classRef ← asUID (mapIndex m "$class")
      let classObj ← index objRefVal classRef
      let classMap ← asDict classObj
      let className := mapIndex classMap "$classname"
      if caseOf className NSMutableDictionaryClass NSDictionaryClass then do
        let keys ← asSlice (mapIndex m "NS.keys")
        let values ← asSlice (mapIndex m "NS.objects")
        let ret ← dictLoop objRefVal (convertValue objRefVal fuel) values keys 0 []
        pure (.dict ret)
      else if caseOf className NSMutableSetClass NSSetClass then do
        let values ← asSlice (mapIndex m "NS.objects")
        let ret ← setLoop objRefVal (convertValue objRefVal fuel) values []
        pure (.anyMap ret)
      else if caseOf className NSMutableArrayClass NSArrayClass then do
        let values ← asSlice (mapIndex m "NS.objects")
        let ret ← arrayLoop (convertValue objRefVal fuel) values []
        pure (.slice ret)
      else if caseOf className NSMutableDataClass NSDataClass then do
        let data ← asBytes (mapIndex m "NS.data")
        pure (.bytes data)
      else if goEq className (.str NSDateClass.Classes0) then do
        let t ← asFloat64 (mapIndex m "NS.time")
        pure (.time (referenceDate + wrapInt64 (durationOfFloat64 t * Second)))
      else if goEq className (.str NSErrorClass.Classes0) then do
        let code ← asUint64 (mapIndex m "NSCode")
        let domainRef ← asUID (mapIndex m "NSDomain")
        let domainObj ← index objRefVal domainRef
        let domain ← asString domainObj
        let infoRef ← asUID (mapIndex m "NSUserInfo")
        let infoObj ← index objRefVal infoRef
        let info ← convertValue objRefVal fuel infoObj
        pure (.goNSError (intOfUint64 code) domain info)
      else if caseOf className DTTapMessageClass DTSysmonTapMessageClass then do
        let payload ← convertValue objRefVal fuel (mapIndex m "DTTapMessagePlist")
        let message ← asDict payload
        pure (.tapMessage message)
      else pure (.dict m)
  | fuel + 1, .uid uid => do
      let obj ← index objRefVal uid
      convertValue objRefVal fuel obj
  | _ + 1, v => pure v

/-- The method `Unmarshal`, from the result of `plist.Unmarshal` on: the value
returned (or the codec's error) and the state the instance is left in. -/
def Unmarshal (fuel : Nat) (this : NSKeyedArchiver) (parsed : Except String KeyedArchiver) :
    Except Stop (Except String Val × NSKeyedArchiver) :=
  match parsed with
  | .error err => .ok (.error err, this)
  | .ok archiver =>
      match index (archiver.Objects.foldl (fun l v => l ++ [v]) this.objRefVal) archiver.Top.Root with
      | .error e => .error e
      | .ok top =>
          match convertValue (archiver.Objects.foldl (fun l v => l ++ [v]) this.objRefVal) fuel top with
          | .error e => .error e
          | .ok ret => .ok (.ok ret, this.clear)

/-! ## Predicates used by the statements -/

/-- The interner invariant: entry `i` of the map is the value at index `i` of
the list, paired with the reference `i`. -/
def Inv (st : NSKeyedArchiver) : Prop :=
  ∀ i : Nat, st.objRef[i]? = (st.objRefVal[i]?).map (fun v => (v, i))

/-- The scalar leaves: strings, integers and booleans. -/
def isScalar : Val → Bool
  | .str _ => true
  | .int _ _ => true
  | .bool _ => true
  | _ => false

/-- The kinds for which no `case` of `idAny` is taken, the nil interface apart. -/
def unsupportedKind : Val → Bool
  | .float64 _ => true
  | .time _ => true
  | .struct _ => true
  | .classPtr _ => true
  | .nodePtr _ => true
  | .classes _ => true
  | .node _ => true
  | .goNSError _ _ _ => true
  | .tapMessage _ => true
  | _ => false

/-- The values of the round trip: strings, integers, booleans, sequences of such
values and string-keyed mappings of such values.  A Go map holds a key once, so
the association list that stands for it has no duplicate keys. -/
inductive Encodable : Val → Prop where
  | str (s : String) : Encodable (.str s)
  | int (k : IntKind) (n : Int) : Encodable (.int k n)
  | bool (b : Bool) : Encodable (.bool b)
  | slice (xs : List Val) : (∀ x ∈ xs, Encodable x) → Encodable (.slice xs)
  | dict (kvs : List (String × Val)) :
      (kvs.map Prod.fst).Nodup → (∀ e ∈ kvs, Encodable e.2) → Encodable (.dict kvs)

/-- The object table the decoder works on after a faithful transport of the
values the encoder interned. -/
def wireTable (objRefVal : List Val) : List Val :=
  objRefVal.map (fun v => plistValue (flushValue v))

/-- The interner invariant together with: no scalar leaf occurs twice. -/
def ScalarsOnce (st : NSKeyedArchiver) : Prop :=
  Inv st ∧ (st.objRefVal.filter isScalar).Nodup

/-- The states an instance can be in between two calls: the state of a fresh
one, and the state that a call of `Marshal` or `Unmarshal` which returned has
left behind.  A call that panics does not return. -/
inductive Reachable : NSKeyedArchiver → Prop where
  | fresh : Reachable NewNSKeyedArchiver
  | marshal (s s' : NSKeyedArchiver) (v : Val) (root : KeyedArchiver) :
      Reachable s → Marshal s v = .ok (root, s') → Reachable s'
  | unmarshal (s s' : NSKeyedArchiver) (fuel : Nat) (parsed : Except String KeyedArchiver)
      (res : Except String Val) :
      Reachable s → Unmarshal fuel s parsed = .ok (res, s') → Reachable s'

/-- The class names the `switch` of `convertValue` has a case for: the
`ClassName` of the registry entries. -/
def registryNames : List String := registry.map (fun p => p.deref.ClassName)

/-- An archive with a class unknown to the registry: node 2 is of class `Foo`. -/
def unknownClassArchive : KeyedArchiver :=
  { Archiver := "NSKeyedArchiver",
    Objects := [.str "$null",
      .dict [("$classes", .slice [.str "Foo", .str "NSObject"]), ("$classname", .str "Foo")],
      .dict [("$class", .uid 1), ("NS.objects", .slice [])]],
    Top := { Root := 2 }, Version := 100000 }

/-- An archive with a cycle: the array at index 2 lists the array at index 3,
which lists the array at index 2. -/
def cyclicArchive : KeyedArchiver :=
  { Archiver := "NSKeyedArchiver",
    Objects := [.str "$null",
      .dict [("$classes", .slice [.str "NSArray", .str "NSObject"]), ("$classname", .str "NSArray")],
      .dict [("$class", .uid 1), ("NS.objects", .slice [.uid 3])],
      .dict [("$class", .uid 1), ("NS.objects", .slice [.uid 2])]],
    Top := { Root := 2 }, Version := 100000 }

/-- Whether a class descriptor node carries one of the two array names. -/
def isArrayClass (classMap : List (String × Val)) : Prop :=
  mapIndex classMap "$classname" = .str "NSArray" ∨
    mapIndex classMap "$classname" = .str "NSMutableArray"

/-- Whether a class descriptor node carries one of the two dictionary names. -/
def isDictionaryClass (classMap : List (String × Val)) : Prop :=
  mapIndex classMap "$classname" = .str "NSDictionary" ∨
    mapIndex classMap "$classname" = .str "NSMutableDictionary"

/-- An archive whose dictionary node (index 6) has two keys and one value. -/
def moreKeysArchive : KeyedArchiver :=
  { Archiver := "NSKeyedArchiver",
    Objects := [.str "$null",
      .dict [("$classes", .slice [.str "NSDictionary", .str "NSObject"]),
             ("$classname", .str "NSDictionary")],
      .str "a", .str "b", .int .uint64 1, .int .uint64 2,
      .dict [("$class", .uid 1), ("NS.keys", .slice [.uid 2, .uid 3]),
             ("NS.objects", .slice [.uid 4])]],
    Top := { Root := 6 }, Version := 100000 }

/-- An archive whose dictionary node (index 6) has one key and two values. -/
def moreValuesArchive : KeyedArchiver :=
  { Archiver := "NSKeyedArchiver",
    Objects := [.str "$null",
      .dict [("$classes", .slice [.str "NSDictionary", .str "NSObject"]),
             ("$classname", .str "NSDictionary")],
      .str "a", .str "b", .int .uint64 1, .int .uint64 2,
      .dict [("$class", .uid 1), ("NS.keys", .slice [.uid 2]),
             ("NS.objects", .slice [.uid 4, .uid 5])]],
    Top := { Root := 6 }, Version := 100000 }

/-- The `float64` `x` is the whole number `n`. -/
def F64.isInt : F64 → Int → Prop
  | .finite m e, n => if 0 ≤ e then m * 2 ^ e.toNat = n else m = n * 2 ^ (-e).toNat
  | _, _ => False

/-- Every entry of the table `T` is an entry of `T'`, at the same index. -/
def SubTable (T T' : List Val) : Prop :=
  ∀ (i : Nat) (w : Val), T[i]? = some w → T'[i]? = some w

/-- Reference `r` of the table `T` is decoded to `v` within the budget `fuel`. -/
def DecodesTo (T : List Val) (fuel : Nat) (r : Nat) (v : Val) : Prop :=
  ∃ w, T[r]? = some w ∧ convertValue T fuel w = .ok v

/-- The key references `ks` point at the keys, and the value references `rs`
are decoded to the values, of the entries `kvs`, one by one. -/
inductive DictRel (T : List Val) (fuel : Nat) :
    List Nat → List Nat → List (String × Val) → Prop where
  | nil : DictRel T fuel [] [] []
  | cons (k r : Nat) (key : String) (v : Val) (ks rs : List Nat) (kvs : List (String × Val)) :
      T[k]? = some (.str key) → DecodesTo T fuel r v → DictRel T fuel ks rs kvs →
      DictRel T fuel (k :: ks) (r :: rs) ((key, v) :: kvs)

/-- The archive root of a byte sequence: the null sentinel, the `NSData`
descriptor and an `NSData` node of class reference 1. -/
def bytesArchive (b : List (Fin 256)) : KeyedArchiver :=
  { Archiver := "NSKeyedArchiver",
    Objects := [.str "$null", .classes NSDataClass, .node (.NSData 1 b)],
    Top := { Root := 2 }, Version := 100000 }

/-- The interner invariant together with: the null sentinel is at index 0. -/
def HasNull (st : NSKeyedArchiver) : Prop :=
  Inv st ∧ st.objRefVal[0]? = some (.str "$null")

/-- An archive whose byte-buffer node (index 2) is written in the mutable form:
its class descriptor is named `NSMutableData`. -/
def mutableDataArchive : KeyedArchiver :=
  { Archiver := "NSKeyedArchiver",
    Objects := [.str "$null",
      .dict [("$classes", .slice [.str "NSMutableData", .str "NSData", .str "NSObject"]),
             ("$classname", .str "NSMutableData")],
      .dict [("$class", .uid 1), ("NS.data", .bytes [1, 2, 3])]],
    Top := { Root := 2 }, Version := 100000 }

/-- The same archive with the byte-buffer node in the immutable form `NSData`. -/
def immutableDataArchive : KeyedArchiver :=
  { Archiver := "NSKeyedArchiver",
    Objects := [.str "$null",
      .dict [("$classes", .slice [.str "NSData", .str "NSObject"]), ("$classname", .str "NSData")],
      .dict [("$class", .uid 1), ("NS.data", .bytes [1, 2, 3])]],
    Top := { Root := 2 }, Version := 100000 }

/-- An archive whose date node (index 2) has `NS.time = 63113904000.0`, the
offset of 4001-01-01T00:00:00 UTC. -/
def distantFutureArchive : KeyedArchiver :=
  { Archiver := "NSKeyedArchiver",
    Objects := [.str "$null",
      .dict [("$classes", .slice [.str "NSDate", .str "NSObject"]), ("$classname", .str "NSDate")],
      .dict [("$class", .uid 1), ("NS.time", .float64 (.finite 63113904000 0))]],
    Top := { Root := 2 }, Version := 100000 }

/-- The whole number `n` is the `float64` `x` rounded toward zero: `n` and `x`
have no opposite signs and `|n| ≤ |x| < |n| + 1`. -/
def F64.truncatesTo : F64 → Int → Prop
  | .finite m e, n =>
      if 0 ≤ e then n = m * 2 ^ e.toNat
      else if 0 ≤ m then n * 2 ^ (-e).toNat ≤ m ∧ m < (n + 1) * 2 ^ (-e).toNat
      else (n - 1) * 2 ^ (-e).toNat < m ∧ m ≤ n * 2 ^ (-e).toNat
  | _, _ => False

/-- The `float64` `x` lies strictly between -1 and 1. -/
def F64.absLtOne : F64 → Prop
  | .finite m e => if 0 ≤ e then m = 0 else -(2 ^ (-e).toNat) < m ∧ m < 2 ^ (-e).toNat
  | _ => False

/-- Whether a class descriptor node carries one of the two set names. -/
def isSetClass (classMap : List (String × Val)) : Prop :=
  mapIndex classMap "$classname" = .str "NSSet" ∨
    mapIndex classMap "$classname" = .str "NSMutableSet"

/-- The tables `T` and `T'` differ at index `c` only, where both hold a class
descriptor: a mapping without a `$class` reference of its own.  The two
descriptors agree on every key but `$classes`. -/
structure DiffersInClasses (T T' : List Val) (c : Nat) (cm cm' : List (String × Val)) : Prop where
  same : ∀ i : Nat, i ≠ c → T'[i]? = T[i]?
  left : T[c]? = some (.dict cm)
  right : T'[c]? = some (.dict cm')
  agree : ∀ k : String, k ≠ "$classes" → mapIndex cm' k = mapIndex cm k
  descriptor : ∀ r : Nat, mapIndex cm "$class" ≠ .uid r

/-- Two archives that differ in the `$classname` of the class descriptor at
index 1, with the same `$classes`: `NSArray` and `Foo`. -/
def arrayNamedArchive (name : String) : KeyedArchiver :=
  { Archiver := "NSKeyedArchiver",
    Objects := [.str "$null",
      .dict [("$classes", .slice [.str "NSArray", .str "NSObject"]), ("$classname", .str name)],
      .dict [("$class", .uid 1), ("NS.objects", .slice [])]],
    Top := { Root := 2 }, Version := 100000 }

/-- The references a node stores: its class reference, then the entries of
`NS.keys` and the entries of `NS.objects`. -/
def Node.refs : Node → List Nat
  | .NSData cls _ => [cls]
  | .NSArray cls values => cls :: values
  | .NSDictionary cls values keys => cls :: (keys ++ values)

/-- The field `Class` of a node. -/
def Node.classRef : Node → Nat
  | .NSData cls _ => cls
  | .NSArray cls _ => cls
  | .NSDictionary cls _ _ => cls

/-- The registry pointer `idArray` and `idDictionary` intern for a node of this
type: `NSDataClass`, `NSArrayClass`, `NSDictionaryClass`. -/
def Node.registryPtr : Node → ClassPtr
  | .NSData _ _ => .NSData
  | .NSArray _ _ => .NSArray
  | .NSDictionary _ _ _ => .NSDictionary

/-- A pointer to a node struct. -/
def isNodePtr : Val → Bool
  | .nodePtr _ => true
  | _ => false

/-- A node struct value. -/
def isNode : Val → Bool
  | .node _ => true
  | _ => false

/-- A class descriptor struct value. -/
def isClasses : Val → Bool
  | .classes _ => true
  | _ => false

/-- A registry pointer. -/
def isClassPtr : Val → Bool
  | .classPtr _ => true
  | _ => false

/-- The composite values: byte buffers, sequences and mappings. -/
def isComposite : Val → Bool
  | .bytes _ => true
  | .slice _ => true
  | .dict _ => true
  | .anyMap _ => true
  | _ => false

mutual
/-- The number of composite values in a value, itself included, each counted
as often as it occurs.  The keys of a map are not looked into: the encoder
interns them as they are. -/
def compositeCount : Val → Nat
  | .bytes _ => 1
  | .slice xs => 1 + compositeCountValues xs
  | .dict kvs => 1 + compositeCountEntries kvs
  | .anyMap kvs => 1 + compositeCountAnyMap kvs
  | .nil => 0
  | .str _ => 0
  | .int _ _ => 0
  | .bool _ => 0
  | .float64 _ => 0
  | .uid _ => 0
  | .time _ => 0
  | .struct _ => 0
  | .classPtr _ => 0
  | .nodePtr _ => 0
  | .classes _ => 0
  | .node _ => 0
  | .goNSError _ _ _ => 0
  | .tapMessage _ => 0
/-- The composite values in the elements of a sequence. -/
def compositeCountValues : List Val → Nat
  | [] => 0
  | x :: xs => compositeCount x + compositeCountValues xs
/-- The composite values in the values of a string-keyed map. -/
def compositeCountEntries : List (String × Val) → Nat
  | [] => 0
  | (_, v) :: kvs => compositeCount v + compositeCountEntries kvs
/-- The composite values in the values of a map with other keys. -/
def compositeCountAnyMap : List (Val × Val) → Nat
  | [] => 0
  | (_, v) :: kvs => compositeCount v + compositeCountAnyMap kvs
end

mutual
/-- Every value the encoder hands to `id` as a leaf or as a map key while it
encodes the value satisfies `okv`. -/
def internedOk (okv : Val → Bool) : Val → Bool
  | .str s => okv (.str s)
  | .int k n => okv (.int k n)
  | .bool b => okv (.bool b)
  | .uid n => okv (.uid n)
  | .slice xs => internedOkValues okv xs
  | .dict kvs => internedOkEntries okv kvs
  | .anyMap kvs => internedOkAnyMap okv kvs
  | .nil => true
  | .bytes _ => true
  | .float64 _ => true
  | .time _ => true
  | .struct _ => true
  | .classPtr _ => true
  | .nodePtr _ => true
  | .classes _ => true
  | .node _ => true
  | .goNSError _ _ _ => true
  | .tapMessage _ => true
/-- The same for the elements of a sequence. -/
def internedOkValues (okv : Val → Bool) : List Val → Bool
  | [] => true
  | x :: xs => internedOk okv x && internedOkValues okv xs
/-- The same for the entries of a string-keyed map. -/
def internedOkEntries (okv : Val → Bool) : List (String × Val) → Bool
  | [] => true
  | (k, v) :: kvs => okv (.str k) && internedOk okv v && internedOkEntries okv kvs
/-- The same for the entries of a map with other keys. -/
def internedOkAnyMap (okv : Val → Bool) : List (Val × Val) → Bool
  | [] => true
  | (k, v) :: kvs => okv k && internedOk okv v && internedOkAnyMap okv kvs
end

/-- A value that is not one of the package's node structs, nor a pointer to
one.  Strings, integers, booleans and `plist.UID`s all are such values, so
`internedOk notNode v` says: no key of a map in `v` is an archive node. -/
def notNode : Val → Bool
  | .nodePtr _ => false
  | .node _ => false
  | _ => true

/-- A value that is neither an archive node, nor a `plist.UID`, nor a
string-keyed map.  A Go map cannot be the key of a map, so `internedOk
plainLeaf v` says: `v` holds no `plist.UID`, and no key of a map in `v` is an
archive node. -/
def plainLeaf : Val → Bool
  | .nodePtr _ => false
  | .node _ => false
  | .uid _ => false
  | .dict _ => false
  | _ => true

/-- A value that is none of the package's own struct values or pointers: not a
node, not a class descriptor. -/
def foreignLeaf : Val → Bool
  | .nodePtr _ => false
  | .node _ => false
  | .classPtr _ => false
  | .classes _ => false
  | _ => true

/-- The shape of the value list of the encoder.  An entry that is a pointer to
a node stores references below its own index only, and its class reference
points at the registry pointer of its type; every other entry satisfies `G`. -/
def Tbl (G : Val → Prop) (l : List Val) : Prop :=
  ∀ (i : Nat) (w : Val), l[i]? = some w →
    (∀ n, w = .nodePtr n →
      (∀ r ∈ n.refs, r < i) ∧ l[n.classRef]? = some (.classPtr n.registryPtr)) ∧
    (isNodePtr w = false → G w)

/-- What ties the condition `okv` on the interned leaves and keys to the
property `G` of the entries of the value list: a value that satisfies `okv` is
no pointer to a node and satisfies `G`, as do the three registry pointers the
encoder interns. -/
structure LeafPolicy (G : Val → Prop) (okv : Val → Bool) : Prop where
  leaf : ∀ v, okv v = true → G v ∧ isNodePtr v = false
  classes : ∀ p : ClassPtr, p = .NSDictionary ∨ p = .NSArray ∨ p = .NSData → G (.classPtr p)

/-- The number of pointers to nodes in the value list. -/
def nodeCount (l : List Val) : Nat := (l.filter isNodePtr).length

/-- The states the encoder works in: the interner invariant holds, the value
list is not empty and has the shape `Tbl G`. -/
def Shaped (G : Val → Prop) (st : NSKeyedArchiver) : Prop :=
  Inv st ∧ 0 < st.objRefVal.length ∧ Tbl G st.objRefVal

/-- The interner after the calls `id(v)` for the values of `vs`, in turn, on an
empty interner. -/
def idCalls (vs : List Val) : NSKeyedArchiver :=
  vs.foldl (fun st v => (st.id v).2) NewNSKeyedArchiver

/-- The Go value `map[interface{}]interface{}{&NSArray{NSObject{7}, []plist.UID{99}}: 1}`:
a map whose one key is a pointer to an array node. -/
def nodeKeyMap : Val :=
  .anyMap [(.nodePtr (.NSArray 7 [99]), .int .int 1)]

/-- The entries of the value list when the leaves and keys are none of the
package's own values: such a leaf or key, or one of the three registry pointers
the encoder interns. -/
def archiveEntry (w : Val) : Prop :=
  foreignLeaf w = true ∨ w = .classPtr .NSDictionary ∨ w = .classPtr .NSArray ∨
    w = .classPtr .NSData

/-- The interner invariant together with: no registry pointer occurs twice. -/
def ClassPtrsOnce (st : NSKeyedArchiver) : Prop :=
  Inv st ∧ (st.objRefVal.filter isClassPtr).Nodup

/-- A value that is no NaN.  `internedOk notNaN v` says: no key of a map in `v`
is a NaN. -/
def notNaN (v : Val) : Bool := !isNaN v

mutual
/-- Reference `r` of the object table `T` stands for the value: a string,
integer, boolean or `plist.UID` is the entry at `r`; a byte buffer, sequence or
mapping has its node at `r`, the class reference of which points at the
descriptor of its type and the references of which stand, position by
position, for the elements, the keys and the values; a value of a kind `idAny`
has no case for is reference 0. -/
def Represents (T : List Val) : Val → Nat → Prop
  | .str s, r => T[r]? = some (.str s)
  | .int k n, r => T[r]? = some (.int k n)
  | .bool b, r => T[r]? = some (.bool b)
  | .uid n, r => T[r]? = some (.uid n)
  | .bytes bs, r =>
      ∃ cls, T[r]? = some (.node (.NSData cls bs)) ∧ T[cls]? = some (.classes NSDataClass)
  | .slice xs, r =>
      ∃ cls values, T[r]? = some (.node (.NSArray cls values)) ∧
        T[cls]? = some (.classes NSArrayClass) ∧ RepresentsValues T xs values
  | .dict kvs, r =>
      ∃ cls values keys, T[r]? = some (.node (.NSDictionary cls values keys)) ∧
        T[cls]? = some (.classes NSDictionaryClass) ∧ RepresentsEntries T kvs keys values
  | .anyMap kvs, r =>
      ∃ cls values keys, T[r]? = some (.node (.NSDictionary cls values keys)) ∧
        T[cls]? = some (.classes NSDictionaryClass) ∧ RepresentsAnyMap T kvs keys values
  | .nil, _ => False
  | .float64 _, r => r = 0
  | .time _, r => r = 0
  | .struct _, r => r = 0
  | .classPtr _, r => r = 0
  | .nodePtr _, r => r = 0
  | .classes _, r => r = 0
  | .node _, r => r = 0
  | .goNSError _ _ _, r => r = 0
  | .tapMessage _, r => r = 0
/-- The references `rs` stand, position by position, for the elements. -/
def RepresentsValues (T : List Val) : List Val → List Nat → Prop
  | [], rs => rs = []
  | x :: xs, rs => ∃ r rest, rs = r :: rest ∧ Represents T x r ∧ RepresentsValues T xs rest
/-- The references `ks` and `rs` stand, position by position, for the keys and
the values of a string-keyed map. -/
def RepresentsEntries (T : List Val) : List (String × Val) → List Nat → List Nat → Prop
  | [], ks, rs => ks = [] ∧ rs = []
  | (k, v) :: kvs, ks, rs =>
      ∃ kr krest r rest, ks = kr :: krest ∧ rs = r :: rest ∧ T[kr]? = some (.str k) ∧
        Represents T v r ∧ RepresentsEntries T kvs krest rest
/-- The same for a map with other keys: the entry at the reference of a key is
the key as `flushToStruct` writes it, or a value already in the table that Go's
`==` equates with the key. -/
def RepresentsAnyMap (T : List Val) : List (Val × Val) → List Nat → List Nat → Prop
  | [], ks, rs => ks = [] ∧ rs = []
  | (k, v) :: kvs, ks, rs =>
      ∃ kr krest r rest, ks = kr :: krest ∧ rs = r :: rest ∧
        (∃ w, T[kr]? = some (flushValue w) ∧ (w = k ∨ goEq w k = true)) ∧
        Represents T v r ∧ RepresentsAnyMap T kvs krest rest
end

/-- The state `Unmarshal` leaves the instance in when the lookup of the root or
`convertValue` panics: the loop before them has appended the objects of the
archive to `objRefVal`, and `clear` is not reached, as it is not deferred. -/
def abortedUnmarshal (this : NSKeyedArchiver) (archiver : KeyedArchiver) : NSKeyedArchiver :=
  { this with objRefVal := archiver.Objects.foldl (fun l v => l ++ [v]) this.objRefVal }

/-- An archive whose root reference points past its one object. -/
def danglingRootArchive : KeyedArchiver :=
  { Archiver := "NSKeyedArchiver", Objects := [.str "x"], Top := { Root := 1 }, Version := 100000 }

/-! ## The interner -/

theorem goEq_nodePtr (w : Val) (n : Node) : goEq w (.nodePtr n) = false := by
  cases w <;> rfl

theorem goEq_exact_str (w : Val) (s : String) (h : goEq w (.str s) = true) : w = .str s := by
  cases w <;> simp_all [goEq]

theorem goEq_exact_int (w : Val) (k : IntKind) (n : Int) (h : goEq w (.int k n) = true) :
    w = .int k n := by
  cases w <;> simp_all [goEq]

theorem goEq_exact_bool (w : Val) (b : Bool) (h : goEq w (.bool b) = true) : w = .bool b := by
  cases w <;> simp_all [goEq]

theorem goEq_exact_classPtr (w : Val) (p : ClassPtr) (h : goEq w (.classPtr p) = true) :
    w = .classPtr p := by
  cases w <;> simp_all [goEq]

theorem goEq_refl_scalar (v : Val) (h : isScalar v = true) : goEq v v = true := by
  cases v <;> simp_all [goEq, isScalar]

theorem Inv_length (st : NSKeyedArchiver) (h : Inv st) : st.objRef.length = st.objRefVal.length := by
  apply Nat.le_antisymm
  · by_contra hlt
    have h1 := h st.objRefVal.length
    rw [List.getElem?_eq_none (Nat.le_refl _)] at h1
    simp only [Option.map_none'] at h1
    rw [List.getElem?_eq_none_iff] at h1
    omega
  · by_contra hlt
    have h1 := h st.objRef.length
    rw [List.getElem?_eq_none (Nat.le_refl _)] at h1
    have h2 : st.objRef.length < st.objRefVal.length := by omega
    rw [List.getElem?_eq_getElem h2] at h1
    simp at h1

theorem Inv_new : Inv NewNSKeyedArchiver := by
  intro i
  simp [NewNSKeyedArchiver]

theorem id_eq_of_notFound (st : NSKeyedArchiver) (v : Val)
    (h : st.objRef.find? (fun e => goEq e.1 v) = none) :
    st.id v = (st.objRef.length,
      { objRefVal := st.objRefVal ++ [v], objRef := st.objRef ++ [(v, st.objRef.length)] }) := by
  simp [NSKeyedArchiver.id, h]

theorem id_eq_of_found (st : NSKeyedArchiver) (v : Val) (e : Val × Nat)
    (h : st.objRef.find? (fun e => goEq e.1 v) = some e) : st.id v = (e.2, st) := by
  simp [NSKeyedArchiver.id, h]

theorem id_nodePtr (st : NSKeyedArchiver) (n : Node) :
    st.id (.nodePtr n) = (st.objRef.length,
      { objRefVal := st.objRefVal ++ [.nodePtr n],
        objRef := st.objRef ++ [(.nodePtr n, st.objRef.length)] }) := by
  apply id_eq_of_notFound
  rw [List.find?_eq_none]
  intro x _
  simp [goEq_nodePtr]

theorem id_extends (st : NSKeyedArchiver) (v : Val) :
    ∃ ext, (st.id v).2.objRefVal = st.objRefVal ++ ext := by
  cases h : st.objRef.find? (fun e => goEq e.1 v) with
  | none => exact ⟨[v], by rw [id_eq_of_notFound st v h]⟩
  | some e => exact ⟨[], by rw [id_eq_of_found st v e h]; simp⟩

theorem id_Inv (st : NSKeyedArchiver) (v : Val) (hinv : Inv st) : Inv (st.id v).2 := by
  cases h : st.objRef.find? (fun e => goEq e.1 v) with
  | some e => rw [id_eq_of_found st v e h]; exact hinv
  | none =>
    rw [id_eq_of_notFound st v h]
    have hlen := Inv_length st hinv
    intro i
    simp only
    rcases Nat.lt_trichotomy i st.objRef.length with hi | hi | hi
    · rw [List.getElem?_append_left hi, List.getElem?_append_left (by omega)]
      exact hinv i
    · subst hi
      rw [List.getElem?_append_right (Nat.le_refl _), List.getElem?_append_right (by omega)]
      simp [hlen]
    · rw [List.getElem?_append_right (by omega), List.getElem?_append_right (by omega)]
      have h1 : i - st.objRef.length = (i - st.objRef.length - 1) + 1 := by omega
      have h2 : i - st.objRefVal.length = (i - st.objRefVal.length - 1) + 1 := by omega
      rw [h1, h2]
      simp

/-- After `id`, the returned reference points at a value that Go's `==` equates
with the argument, or at the argument itself. -/
theorem id_get (st : NSKeyedArchiver) (v : Val) (hinv : Inv st)
    (hex : ∀ w, goEq w v = true → w = v) :
    (st.id v).2.objRefVal[(st.id v).1]? = some v := by
  cases h : st.objRef.find? (fun e => goEq e.1 v) with
  | some e =>
    rw [id_eq_of_found st v e h]
    have hp := List.find?_some h
    have hmem := List.mem_of_find?_eq_some h
    obtain ⟨i, hi⟩ := List.getElem?_of_mem hmem
    have h1 := hinv i
    rw [hi] at h1
    cases hv : st.objRefVal[i]? with
    | none => rw [hv] at h1; simp at h1
    | some w =>
      rw [hv] at h1
      simp only [Option.map_some', Option.some.injEq] at h1
      subst h1
      simp only at hp ⊢
      rw [hv, hex w hp]
  | none =>
    rw [id_eq_of_notFound st v h]
    simp only
    rw [Inv_length st hinv, List.getElem?_append_right (Nat.le_refl _)]
    simp

/-- The loop of `idDictionary` panics at a NaN key. -/
theorem idAnyMapEntries_nan (st : NSKeyedArchiver) (k v : Val) (kvs : List (Val × Val))
    (hk : isNaN k = true) :
    idAnyMapEntries st ((k, v) :: kvs) = .error (.panic .zeroValueInterface) := by
  rw [idAnyMapEntries, if_pos hk]

/-- One turn of the loop of `idDictionary` at a key that is no NaN. -/
theorem idAnyMapEntries_cons (st : NSKeyedArchiver) (k v : Val) (kvs : List (Val × Val))
    (hk : isNaN k = false) :
    idAnyMapEntries st ((k, v) :: kvs) =
      match idAny (st.id k).2 v with
      | .error e => .error e
      | .ok (r, s) =>
          match idAnyMapEntries s kvs with
          | .error e => .error e
          | .ok (ks, rs, s') => .ok ((st.id k).1 :: ks, r :: rs, s') := by
  rw [idAnyMapEntries, if_neg (by simp [hk])]

theorem idAnyMapEntries_ok_notNaN (st : NSKeyedArchiver) (k v : Val) (kvs : List (Val × Val))
    (res : List Nat × List Nat × NSKeyedArchiver)
    (h : idAnyMapEntries st ((k, v) :: kvs) = .ok res) : isNaN k = false := by
  cases hk : isNaN k with
  | false => rfl
  | true => rw [idAnyMapEntries_nan st k v kvs hk] at h; simp at h

/-! ## What every step of the encoder preserves -/

theorem id_step (Q : NSKeyedArchiver → Prop) (hid : ∀ st v, Q st → Q (st.id v).2)
    {st st' : NSKeyedArchiver} {v : Val} {r : Nat} (h : st.id v = (r, st')) (hq : Q st) : Q st' := by
  have h2 := hid st v hq
  rw [h] at h2
  exact h2

mutual
/-- A property of the interner that `id` preserves is preserved by `idAny`. -/
theorem idAny_preserves (Q : NSKeyedArchiver → Prop) (hid : ∀ st v, Q st → Q (st.id v).2) :
    ∀ (v : Val) (st : NSKeyedArchiver) (r : Nat) (st' : NSKeyedArchiver),
      idAny st v = .ok (r, st') → Q st → Q st'
  | .nil, st, r, st', h, _ => by simp [idAny] at h
  | .dict kvs, st, r, st', h, hq => by
      rw [idAny] at h
      cases hl : idDictionaryEntries (st.id (.classPtr .NSDictionary)).2 kvs with
      | error e => rw [hl] at h; simp at h
      | ok res =>
        obtain ⟨keys, values, s⟩ := res
        rw [hl] at h
        simp only [Except.ok.injEq] at h
        have hs := idDictionaryEntries_preserves Q hid kvs _ keys values s hl (hid _ _ hq)
        have h2 := congrArg Prod.snd h
        simp only at h2
        subst h2
        exact hid _ _ hs
  | .anyMap kvs, st, r, st', h, hq => by
      rw [idAny] at h
      cases hl : idAnyMapEntries (st.id (.classPtr .NSDictionary)).2 kvs with
      | error e => rw [hl] at h; simp at h
      | ok res =>
        obtain ⟨keys, values, s⟩ := res
        rw [hl] at h
        simp only [Except.ok.injEq] at h
        have hs := idAnyMapEntries_preserves Q hid kvs _ keys values s hl (hid _ _ hq)
        have h2 := congrArg Prod.snd h
        simp only at h2
        subst h2
        exact hid _ _ hs
  | .bytes bs, st, r, st', h, hq => by
      rw [idAny] at h
      simp only [Except.ok.injEq] at h
      have h2 := congrArg Prod.snd h
      simp only at h2
      subst h2
      exact hid _ _ (hid _ _ hq)
  | .slice xs, st, r, st', h, hq => by
      rw [idAny] at h
      cases hl : idArrayValues (st.id (.classPtr .NSArray)).2 xs with
      | error e => rw [hl] at h; simp at h
      | ok res =>
        obtain ⟨values, s⟩ := res
        rw [hl] at h
        simp only [Except.ok.injEq] at h
        have hs := idArrayValues_preserves Q hid xs _ values s hl (hid _ _ hq)
        have h2 := congrArg Prod.snd h
        simp only at h2
        subst h2
        exact hid _ _ hs
  | .str s, st, r, st', h, hq => by
      rw [idAny] at h; simp only [Except.ok.injEq] at h; exact id_step Q hid h hq
  | .int k n, st, r, st', h, hq => by
      rw [idAny] at h; simp only [Except.ok.injEq] at h; exact id_step Q hid h hq
  | .bool b, st, r, st', h, hq => by
      rw [idAny] at h; simp only [Except.ok.injEq] at h; exact id_step Q hid h hq
  | .uid n, st, r, st', h, hq => by
      rw [idAny] at h; simp only [Except.ok.injEq] at h; exact id_step Q hid h hq
  | .float64 _, st, r, st', h, hq => by
      rw [idAny] at h; simp only [Except.ok.injEq, Prod.mk.injEq] at h; rw [← h.2]; exact hq
  | .time _, st, r, st', h, hq => by
      rw [idAny] at h; simp only [Except.ok.injEq, Prod.mk.injEq] at h; rw [← h.2]; exact hq
  | .struct _, st, r, st', h, hq => by
      rw [idAny] at h; simp only [Except.ok.injEq, Prod.mk.injEq] at h; rw [← h.2]; exact hq
  | .classPtr _, st, r, st', h, hq => by
      rw [idAny] at h; simp only [Except.ok.injEq, Prod.mk.injEq] at h; rw [← h.2]; exact hq
  | .nodePtr _, st, r, st', h, hq => by
      rw [idAny] at h; simp only [Except.ok.injEq, Prod.mk.injEq] at h; rw [← h.2]; exact hq
  | .classes _, st, r, st', h, hq => by
      rw [idAny] at h; simp only [Except.ok.injEq, Prod.mk.injEq] at h; rw [← h.2]; exact hq
  | .node _, st, r, st', h, hq => by
      rw [idAny] at h; simp only [Except.ok.injEq, Prod.mk.injEq] at h; rw [← h.2]; exact hq
  | .goNSError _ _ _, st, r, st', h, hq => by
      rw [idAny] at h; simp only [Except.ok.injEq, Prod.mk.injEq] at h; rw [← h.2]; exact hq
  | .tapMessage _, st, r, st', h, hq => by
      rw [idAny] at h; simp only [Except.ok.injEq, Prod.mk.injEq] at h; rw [← h.2]; exact hq
theorem idArrayValues_preserves (Q : NSKeyedArchiver → Prop) (hid : ∀ st v, Q st → Q (st.id v).2) :
    ∀ (xs : List Val) (st : NSKeyedArchiver) (rs : List Nat) (st' : NSKeyedArchiver),
      idArrayValues st xs = .ok (rs, st') → Q st → Q st'
  | [], st, rs, st', h, hq => by
      rw [idArrayValues] at h; simp only [Except.ok.injEq, Prod.mk.injEq] at h; rw [← h.2]; exact hq
  | x :: xs, st, rs, st', h, hq => by
      rw [idArrayValues] at h
      cases hx : idAny st x with
      | error e => rw [hx] at h; simp at h
      | ok res =>
        obtain ⟨r, s⟩ := res
        rw [hx] at h
        simp only at h
        cases hl : idArrayValues s xs with
        | error e => rw [hl] at h; simp at h
        | ok res2 =>
          obtain ⟨rs2, s2⟩ := res2
          rw [hl] at h
          simp only [Except.ok.injEq, Prod.mk.injEq] at h
          rw [← h.2]
          exact idArrayValues_preserves Q hid xs s rs2 s2 hl (idAny_preserves Q hid x st r s hx hq)
theorem idDictionaryEntries_preserves (Q : NSKeyedArchiver → Prop)
    (hid : ∀ st v, Q st → Q (st.id v).2) :
    ∀ (kvs : List (String × Val)) (st : NSKeyedArchiver) (ks rs : List Nat) (st' : NSKeyedArchiver),
      idDictionaryEntries st kvs = .ok (ks, rs, st') → Q st → Q st'
  | [], st, ks, rs, st', h, hq => by
      rw [idDictionaryEntries] at h
      simp only [Except.ok.injEq, Prod.mk.injEq] at h; rw [← h.2.2]; exact hq
  | (k, v) :: kvs, st, ks, rs, st', h, hq => by
      rw [idDictionaryEntries] at h
      cases hx : idAny (st.id (.str k)).2 v with
      | error e => rw [hx] at h; simp at h
      | ok res =>
        obtain ⟨r, s⟩ := res
        rw [hx] at h
        simp only at h
        cases hl : idDictionaryEntries s kvs with
        | error e => rw [hl] at h; simp at h
        | ok res2 =>
          obtain ⟨ks2, rs2, s2⟩ := res2
          rw [hl] at h
          simp only [Except.ok.injEq, Prod.mk.injEq] at h
          rw [← h.2.2]
          exact idDictionaryEntries_preserves Q hid kvs s ks2 rs2 s2 hl
            (idAny_preserves Q hid v _ r s hx (hid _ _ hq))
theorem idAnyMapEntries_preserves (Q : NSKeyedArchiver → Prop)
    (hid : ∀ st v, Q st → Q (st.id v).2) :
    ∀ (kvs : List (Val × Val)) (st : NSKeyedArchiver) (ks rs : List Nat) (st' : NSKeyedArchiver),
      idAnyMapEntries st kvs = .ok (ks, rs, st') → Q st → Q st'
  | [], st, ks, rs, st', h, hq => by
      rw [idAnyMapEntries] at h
      simp only [Except.ok.injEq, Prod.mk.injEq] at h; rw [← h.2.2]; exact hq
  | (k, v) :: kvs, st, ks, rs, st', h, hq => by
      rw [idAnyMapEntries_cons _ _ _ _ (idAnyMapEntries_ok_notNaN _ _ _ _ _ h)] at h
      cases hx : idAny (st.id k).2 v with
      | error e => rw [hx] at h; simp at h
      | ok res =>
        obtain ⟨r, s⟩ := res
        rw [hx] at h
        simp only at h
        cases hl : idAnyMapEntries s kvs with
        | error e => rw [hl] at h; simp at h
        | ok res2 =>
          obtain ⟨ks2, rs2, s2⟩ := res2
          rw [hl] at h
          simp only [Except.ok.injEq, Prod.mk.injEq] at h
          rw [← h.2.2]
          exact idAnyMapEntries_preserves Q hid kvs s ks2 rs2 s2 hl
            (idAny_preserves Q hid v _ r s hx (hid _ _ hq))
end

theorem idAny_Inv (v : Val) (st : NSKeyedArchiver) (r : Nat) (st' : NSKeyedArchiver)
    (h : idAny st v = .ok (r, st')) (hinv : Inv st) : Inv st' :=
  idAny_preserves Inv (fun st v hq => id_Inv st v hq) v st r st' h hinv

theorem extends_id (base : List Val) (st : NSKeyedArchiver) (v : Val)
    (hq : ∃ ext, st.objRefVal = base ++ ext) : ∃ ext, (st.id v).2.objRefVal = base ++ ext := by
  obtain ⟨e1, h1⟩ := hq
  obtain ⟨e2, h2⟩ := id_extends st v
  exact ⟨e1 ++ e2, by rw [h2, h1, List.append_assoc]⟩

/-- The encoder only appends to the value list. -/
theorem idAny_extends (v : Val) (st : NSKeyedArchiver) (r : Nat) (st' : NSKeyedArchiver)
    (h : idAny st v = .ok (r, st')) : ∃ ext, st'.objRefVal = st.objRefVal ++ ext :=
  idAny_preserves (fun s => ∃ ext, s.objRefVal = st.objRefVal ++ ext)
    (fun s w hq => extends_id st.objRefVal s w hq) v st r st' h ⟨[], by simp⟩

theorem idArrayValues_extends (xs : List Val) (st : NSKeyedArchiver) (rs : List Nat)
    (st' : NSKeyedArchiver) (h : idArrayValues st xs = .ok (rs, st')) :
    ∃ ext, st'.objRefVal = st.objRefVal ++ ext :=
  idArrayValues_preserves (fun s => ∃ ext, s.objRefVal = st.objRefVal ++ ext)
    (fun s w hq => extends_id st.objRefVal s w hq) xs st rs st' h ⟨[], by simp⟩

theorem idDictionaryEntries_extends (kvs : List (String × Val)) (st : NSKeyedArchiver)
    (ks rs : List Nat) (st' : NSKeyedArchiver)
    (h : idDictionaryEntries st kvs = .ok (ks, rs, st')) :
    ∃ ext, st'.objRefVal = st.objRefVal ++ ext :=
  idDictionaryEntries_preserves (fun s => ∃ ext, s.objRefVal = st.objRefVal ++ ext)
    (fun s w hq => extends_id st.objRefVal s w hq) kvs st ks rs st' h ⟨[], by simp⟩

theorem foldl_snoc {α β : Type} (f : α → β) (l : List α) (acc : List β) :
    l.foldl (fun objs val => objs ++ [f val]) acc = acc ++ l.map f := by
  induction l generalizing acc with
  | nil => simp
  | cons a l ih => simp [ih]

theorem flushToStruct_Objects (st : NSKeyedArchiver) (root : KeyedArchiver) :
    (st.flushToStruct root).Objects = root.Objects ++ st.objRefVal.map flushValue := by
  simp [NSKeyedArchiver.flushToStruct, foldl_snoc]

/-- What `Marshal` returns, in terms of the state `idAny` ends in. -/
theorem Marshal_ok (this : NSKeyedArchiver) (v : Val) (root : KeyedArchiver)
    (st : NSKeyedArchiver) (h : Marshal this v = .ok (root, st)) :
    ∃ uid s, idAny (this.id (.str NSNull)).2 v = .ok (uid, s) ∧
      root.Objects = s.objRefVal.map flushValue ∧ root.Top.Root = uid ∧
      st = { objRefVal := [], objRef := [] } := by
  unfold Marshal at h
  cases hx : idAny (this.id (.str NSNull)).2 v with
  | error e => rw [hx] at h; simp at h
  | ok res =>
    obtain ⟨uid, s⟩ := res
    rw [hx] at h
    simp only [Except.ok.injEq, Prod.mk.injEq] at h
    refine ⟨uid, s, rfl, ?_, ?_, ?_⟩
    · rw [← h.1, flushToStruct_Objects]; simp [NewKeyedArchiver]
    · rw [← h.1]; rfl
    · rw [← h.2]; rfl

theorem Inv_mem (st : NSKeyedArchiver) (hinv : Inv st) (w : Val) (hw : w ∈ st.objRefVal) :
    ∃ e ∈ st.objRef, e.1 = w := by
  obtain ⟨i, hi⟩ := List.getElem?_of_mem hw
  have h1 := hinv i
  rw [hi] at h1
  exact ⟨(w, i), List.getElem?_mem h1, rfl⟩

theorem flushValue_scalar (v : Val) : isScalar (flushValue v) = isScalar v := by
  cases v <;> rfl

theorem flushValue_of_scalar (v : Val) (h : isScalar v = true) : flushValue v = v := by
  cases v <;> simp_all [isScalar, flushValue]

theorem id_ScalarsOnce (st : NSKeyedArchiver) (v : Val) (hq : ScalarsOnce st) :
    ScalarsOnce (st.id v).2 := by
  refine ⟨id_Inv st v hq.1, ?_⟩
  cases h : st.objRef.find? (fun e => goEq e.1 v) with
  | some e => rw [id_eq_of_found st v e h]; exact hq.2
  | none =>
    rw [id_eq_of_notFound st v h]
    simp only [List.filter_append]
    cases hs : isScalar v with
    | false => simpa [List.filter_cons, hs] using hq.2
    | true =>
      have hnot : v ∉ st.objRefVal := by
        intro hmem
        obtain ⟨e, he, hev⟩ := Inv_mem st hq.1 v hmem
        rw [List.find?_eq_none] at h
        have := h e he
        rw [hev, goEq_refl_scalar v hs] at this
        simp at this
      simp only [List.filter_cons, hs, List.filter_nil, if_true]
      rw [List.nodup_append]
      refine ⟨hq.2, List.nodup_singleton v, ?_⟩
      intro a ha hb
      simp only [List.mem_singleton] at hb
      subst hb
      exact hnot (List.mem_of_mem_filter ha)

/-! ## C4: scalar leaves are interned once -/

theorem getElem?_append_some {α : Type} (l e : List α) (i : Nat) (x : α) (h : l[i]? = some x) :
    (l ++ e)[i]? = some x := by
  have hi : i < l.length := by
    by_contra hc
    rw [List.getElem?_eq_none (by omega)] at h
    simp at h
  rw [List.getElem?_append_left hi, h]

theorem goEq_exact_scalar (w v : Val) (hs : isScalar v = true) (h : goEq w v = true) : w = v := by
  cases v <;> simp [isScalar] at hs
  · exact goEq_exact_str w _ h
  · exact goEq_exact_int w _ _ h
  · exact goEq_exact_bool w _ h

theorem idAny_scalar (st : NSKeyedArchiver) (x : Val) (hs : isScalar x = true) :
    idAny st x = .ok (st.id x) := by
  cases x <;> simp [isScalar] at hs <;> simp [idAny]

/-- The references the loop of `idArray` stores for scalar elements point at
those elements. -/
theorem idArrayValues_scalar_refs :
    ∀ (xs : List Val) (st : NSKeyedArchiver) (rs : List Nat) (st' : NSKeyedArchiver),
      idArrayValues st xs = .ok (rs, st') → Inv st →
      rs.length = xs.length ∧
      ∀ (i : Nat) (x : Val), xs[i]? = some x → isScalar x = true →
        ∃ r, rs[i]? = some r ∧ st'.objRefVal[r]? = some x
  | [], st, rs, st', h, _ => by
      rw [idArrayValues] at h
      simp only [Except.ok.injEq, Prod.mk.injEq] at h
      rw [← h.1]
      simp
  | x :: xs, st, rs, st', h, hinv => by
      rw [idArrayValues] at h
      cases hx : idAny st x with
      | error e => rw [hx] at h; simp at h
      | ok res =>
        obtain ⟨r, s⟩ := res
        rw [hx] at h
        simp only at h
        cases hl : idArrayValues s xs with
        | error e => rw [hl] at h; simp at h
        | ok res2 =>
          obtain ⟨rs2, s2⟩ := res2
          rw [hl] at h
          simp only [Except.ok.injEq, Prod.mk.injEq] at h
          obtain ⟨h1, h2⟩ := h
          subst h1 h2
          have hinvs := idAny_Inv x st r s hx hinv
          obtain ⟨ihlen, ih⟩ := idArrayValues_scalar_refs xs s rs2 s2 hl hinvs
          refine ⟨by simp [ihlen], ?_⟩
          intro i y hy hsy
          cases i with
          | zero =>
            simp only [List.getElem?_cons_zero, Option.some.injEq] at hy
            subst hy
            rw [idAny_scalar st x hsy] at hx
            simp only [Except.ok.injEq] at hx
            have hg := id_get st x hinv (fun w hw => goEq_exact_scalar w x hsy hw)
            rw [hx] at hg
            simp only at hg
            obtain ⟨ext, hext⟩ := idArrayValues_extends xs s rs2 s2 hl
            exact ⟨r, by simp, by rw [hext]; exact getElem?_append_some _ _ _ _ hg⟩
          | succ j =>
            simp only [List.getElem?_cons_succ] at hy ⊢
            exact ih j y hy hsy

theorem filter_nodup_index_unique {α : Type} (p : α → Bool) :
    ∀ (l : List α) (a b : Nat) (x : α), (l.filter p).Nodup → l[a]? = some x → l[b]? = some x →
      p x = true → a = b
  | [], a, b, x, _, ha, _, _ => by simp at ha
  | y :: l, a, b, x, hn, ha, hb, hp => by
      have hn' : (l.filter p).Nodup := by
        by_cases hy : p y = true
        · rw [List.filter_cons_of_pos hy] at hn
          exact (List.nodup_cons.mp hn).2
        · rw [List.filter_cons_of_neg hy] at hn
          exact hn
      have hnot : ∀ c : Nat, l[c]? = some x → y = x → False := by
        intro c hc hyx
        subst hyx
        rw [List.filter_cons_of_pos hp] at hn
        exact (List.nodup_cons.mp hn).1 (List.mem_filter.mpr ⟨List.getElem?_mem hc, hp⟩)
      cases a with
      | zero =>
        cases b with
        | zero => rfl
        | succ b =>
          simp only [List.getElem?_cons_zero, Option.some.injEq, List.getElem?_cons_succ] at ha hb
          exact (hnot b hb ha).elim
      | succ a =>
        cases b with
        | zero =>
          simp only [List.getElem?_cons_zero, Option.some.injEq, List.getElem?_cons_succ] at ha hb
          exact (hnot a ha hb).elim
        | succ b =>
          simp only [List.getElem?_cons_succ] at ha hb
          rw [filter_nodup_index_unique p l a b x hn' ha hb hp]

theorem map_flushValue_scalars (l : List Val) :
    (l.map flushValue).filter isScalar = l.filter isScalar := by
  induction l with
  | nil => rfl
  | cons a l ih =>
    simp only [List.map_cons, List.filter_cons, flushValue_scalar, ih]
    cases h : isScalar a with
    | false => simp
    | true => simp [flushValue_of_scalar a h]

/-! ## C5: the null sentinel -/

/-- Between calls the interner is empty. -/
theorem Reachable_empty (st : NSKeyedArchiver) (h : Reachable st) :
    st = { objRefVal := [], objRef := [] } := by
  induction h with
  | fresh => rfl
  | marshal s s' v root _ hm _ =>
    obtain ⟨_, _, _, _, _, hst⟩ := Marshal_ok s v root s' hm
    exact hst
  | unmarshal s s' fuel parsed res _ hu ih =>
    unfold Unmarshal at hu
    cases parsed with
    | error err =>
      simp only [Except.ok.injEq, Prod.mk.injEq] at hu
      rw [← hu.2]
      exact ih
    | ok archiver =>
      simp only at hu
      split at hu
      · simp at hu
      · split at hu
        · simp at hu
        · simp only [Except.ok.injEq, Prod.mk.injEq] at hu
          rw [← hu.2]
          rfl

/-- C5, amended.  For an instance that is fresh or has been used before
through calls of `Marshal` and `Unmarshal` that all returned, none having been
cut short by a panic, and for every input value, the object table of the
archive root that `Marshal` builds is not empty and holds the string `$null` at
index 0. -/
theorem null_sentinel_at_zero (this : NSKeyedArchiver) (hr : Reachable this) (v : Val)
    (root : KeyedArchiver) (st : NSKeyedArchiver) (h : Marshal this v = .ok (root, st)) :
    root.Objects ≠ [] ∧ root.Objects[0]? = some (.str "$null") := by
  obtain ⟨uid, s, hid, hobj, _, _⟩ := Marshal_ok this v root st h
  have hthis := Reachable_empty this hr
  subst hthis
  obtain ⟨ext, hext⟩ := idAny_extends v _ uid s hid
  have h0 : (NSKeyedArchiver.id { objRefVal := [], objRef := [] } (.str NSNull)).2.objRefVal
      = [.str "$null"] := rfl
  rw [h0] at hext
  rw [hobj, hext]
  simp [flushValue]

/-- Witness of the amended C5: a second `Marshal` on an instance that has
already encoded a sequence. -/
theorem null_sentinel_at_zero_witness :
    Reachable { objRefVal := [], objRef := [] } ∧
    Marshal { objRefVal := [], objRef := [] } (.bool true) =
      .ok ({ Archiver := "NSKeyedArchiver", Objects := [.str "$null", .bool true],
             Top := { Root := 1 }, Version := 100000 }, { objRefVal := [], objRef := [] }) ∧
    ([Val.str "$null", .bool true] ≠ [] ∧
      [Val.str "$null", .bool true][0]? = some (.str "$null")) :=
  have hr : Reachable { objRefVal := [], objRef := [] } :=
    Reachable.marshal NewNSKeyedArchiver _ (.slice [.int .int 7]) _ Reachable.fresh rfl
  ⟨hr, rfl, null_sentinel_at_zero _ hr (.bool true) _ _ rfl⟩

/-! ## C6: values of a kind `idAny` has no case for -/

theorem idAny_unsupported (this : NSKeyedArchiver) (v : Val) (hv : unsupportedKind v = true) :
    idAny this v = .ok (0, this) := by
  cases v <;> simp [unsupportedKind] at hv <;> simp [idAny]

theorem idArrayValues_unsupported :
    ∀ (xs : List Val) (st : NSKeyedArchiver) (rs : List Nat) (st' : NSKeyedArchiver),
      idArrayValues st xs = .ok (rs, st') →
      ∀ (i : Nat) (x : Val), xs[i]? = some x → unsupportedKind x = true → rs[i]? = some 0
  | [], st, rs, st', _, i, x, hx, _ => by simp at hx
  | y :: xs, st, rs, st', h, i, x, hx, hu => by
      rw [idArrayValues] at h
      cases hy : idAny st y with
      | error e => rw [hy] at h; simp at h
      | ok res =>
        obtain ⟨r, s⟩ := res
        rw [hy] at h
        simp only at h
        cases hl : idArrayValues s xs with
        | error e => rw [hl] at h; simp at h
        | ok res2 =>
          obtain ⟨rs2, s2⟩ := res2
          rw [hl] at h
          simp only [Except.ok.injEq, Prod.mk.injEq] at h
          rw [← h.1]
          cases i with
          | zero =>
            simp only [List.getElem?_cons_zero, Option.some.injEq] at hx ⊢
            subst hx
            rw [idAny_unsupported st y hu] at hy
            simp only [Except.ok.injEq, Prod.mk.injEq] at hy
            exact hy.1.symm
          | succ j =>
            simp only [List.getElem?_cons_succ] at hx ⊢
            exact idArrayValues_unsupported xs s rs2 s2 hl j x hx hu

theorem idDictionaryEntries_unsupported :
    ∀ (kvs : List (String × Val)) (st : NSKeyedArchiver) (ks rs : List Nat) (st' : NSKeyedArchiver),
      idDictionaryEntries st kvs = .ok (ks, rs, st') →
      ∀ (i : Nat) (e : String × Val), kvs[i]? = some e → unsupportedKind e.2 = true →
        rs[i]? = some 0
  | [], st, ks, rs, st', _, i, x, hx, _ => by simp at hx
  | (k, y) :: kvs, st, ks, rs, st', h, i, x, hx, hu => by
      rw [idDictionaryEntries] at h
      cases hy : idAny (st.id (.str k)).2 y with
      | error e => rw [hy] at h; simp at h
      | ok res =>
        obtain ⟨r, s⟩ := res
        rw [hy] at h
        simp only at h
        cases hl : idDictionaryEntries s kvs with
        | error e => rw [hl] at h; simp at h
        | ok res2 =>
          obtain ⟨ks2, rs2, s2⟩ := res2
          rw [hl] at h
          simp only [Except.ok.injEq, Prod.mk.injEq] at h
          rw [← h.2.1]
          cases i with
          | zero =>
            simp only [List.getElem?_cons_zero, Option.some.injEq] at hx ⊢
            subst hx
            rw [idAny_unsupported _ y hu] at hy
            simp only [Except.ok.injEq, Prod.mk.injEq] at hy
            exact hy.1.symm
          | succ j =>
            simp only [List.getElem?_cons_succ] at hx ⊢
            exact idDictionaryEntries_unsupported kvs s ks2 rs2 s2 hl j x hx hu

mutual
/-- The panics of the encoder: the one `reflect` raises on a nil interface, and
the one it raises on the missing entry of a NaN key. -/
theorem idAny_error :
    ∀ (v : Val) (st : NSKeyedArchiver) (e : Stop), idAny st v = .error e →
      e = .panic .zeroValueType ∨
        (e = .panic .zeroValueInterface ∧ internedOk notNaN v = false)
  | .nil, st, e, h => by
      rw [idAny] at h; simp only [Except.error.injEq] at h; exact Or.inl h.symm
  | .dict kvs, st, e, h => by
      rw [idAny] at h
      cases hl : idDictionaryEntries (st.id (.classPtr .NSDictionary)).2 kvs with
      | error e' =>
        rw [hl] at h; simp only [Except.error.injEq] at h
        rw [← h, internedOk]; exact idDictionaryEntries_error kvs _ e' hl
      | ok res => rw [hl] at h; simp at h
  | .anyMap kvs, st, e, h => by
      rw [idAny] at h
      cases hl : idAnyMapEntries (st.id (.classPtr .NSDictionary)).2 kvs with
      | error e' =>
        rw [hl] at h; simp only [Except.error.injEq] at h
        rw [← h, internedOk]; exact idAnyMapEntries_error kvs _ e' hl
      | ok res => rw [hl] at h; simp at h
  | .slice xs, st, e, h => by
      rw [idAny] at h
      cases hl : idArrayValues (st.id (.classPtr .NSArray)).2 xs with
      | error e' =>
        rw [hl] at h; simp only [Except.error.injEq] at h
        rw [← h, internedOk]; exact idArrayValues_error xs _ e' hl
      | ok res => rw [hl] at h; simp at h
  | .bytes _, st, e, h => by simp [idAny] at h
  | .str _, st, e, h => by simp [idAny] at h
  | .int _ _, st, e, h => by simp [idAny] at h
  | .bool _, st, e, h => by simp [idAny] at h
  | .uid _, st, e, h => by simp [idAny] at h
  | .float64 _, st, e, h => by simp [idAny] at h
  | .time _, st, e, h => by simp [idAny] at h
  | .struct _, st, e, h => by simp [idAny] at h
  | .classPtr _, st, e, h => by simp [idAny] at h
  | .nodePtr _, st, e, h => by simp [idAny] at h
  | .classes _, st, e, h => by simp [idAny] at h
  | .node _, st, e, h => by simp [idAny] at h
  | .goNSError _ _ _, st, e, h => by simp [idAny] at h
  | .tapMessage _, st, e, h => by simp [idAny] at h
theorem idArrayValues_error :
    ∀ (xs : List Val) (st : NSKeyedArchiver) (e : Stop),
      idArrayValues st xs = .error e →
      e = .panic .zeroValueType ∨
        (e = .panic .zeroValueInterface ∧ internedOkValues notNaN xs = false)
  | [], st, e, h => by simp [idArrayValues] at h
  | x :: xs, st, e, h => by
      rw [idArrayValues] at h
      cases hx : idAny st x with
      | error e' =>
        rw [hx] at h; simp only [Except.error.injEq] at h
        rw [← h]
        rcases idAny_error x st e' hx with h1 | ⟨h1, h2⟩
        · exact Or.inl h1
        · exact Or.inr ⟨h1, by simp [internedOkValues, h2]⟩
      | ok res =>
        obtain ⟨r, s⟩ := res
        rw [hx] at h
        simp only at h
        cases hl : idArrayValues s xs with
        | error e' =>
          rw [hl] at h; simp only [Except.error.injEq] at h
          rw [← h]
          rcases idArrayValues_error xs s e' hl with h1 | ⟨h1, h2⟩
          · exact Or.inl h1
          · exact Or.inr ⟨h1, by simp [internedOkValues, h2]⟩
        | ok res2 => rw [hl] at h; simp at h
theorem idDictionaryEntries_error :
    ∀ (kvs : List (String × Val)) (st : NSKeyedArchiver) (e : Stop),
      idDictionaryEntries st kvs = .error e →
      e = .panic .zeroValueType ∨
        (e = .panic .zeroValueInterface ∧ internedOkEntries notNaN kvs = false)
  | [], st, e, h => by simp [idDictionaryEntries] at h
  | (k, v) :: kvs, st, e, h => by
      rw [idDictionaryEntries] at h
      cases hx : idAny (st.id (.str k)).2 v with
      | error e' =>
        rw [hx] at h; simp only [Except.error.injEq] at h
        rw [← h]
        rcases idAny_error v _ e' hx with h1 | ⟨h1, h2⟩
        · exact Or.inl h1
        · exact Or.inr ⟨h1, by simp [internedOkEntries, h2]⟩
      | ok res =>
        obtain ⟨r, s⟩ := res
        rw [hx] at h
        simp only at h
        cases hl : idDictionaryEntries s kvs with
        | error e' =>
          rw [hl] at h; simp only [Except.error.injEq] at h
          rw [← h]
          rcases idDictionaryEntries_error kvs s e' hl with h1 | ⟨h1, h2⟩
          · exact Or.inl h1
          · exact Or.inr ⟨h1, by simp [internedOkEntries, h2]⟩
        | ok res2 => rw [hl] at h; simp at h
theorem idAnyMapEntries_error :
    ∀ (kvs : List (Val × Val)) (st : NSKeyedArchiver) (e : Stop),
      idAnyMapEntries st kvs = .error e →
      e = .panic .zeroValueType ∨
        (e = .panic .zeroValueInterface ∧ internedOkAnyMap notNaN kvs = false)
  | [], st, e, h => by simp [idAnyMapEntries] at h
  | (k, v) :: kvs, st, e, h => by
      cases hk : isNaN k with
      | true =>
        rw [idAnyMapEntries_nan st k v kvs hk] at h
        simp only [Except.error.injEq] at h
        exact Or.inr ⟨h.symm, by simp [internedOkAnyMap, notNaN, hk]⟩
      | false =>
        rw [idAnyMapEntries_cons st k v kvs hk] at h
        cases hx : idAny (st.id k).2 v with
        | error e' =>
          rw [hx] at h; simp only [Except.error.injEq] at h
          rw [← h]
          rcases idAny_error v _ e' hx with h1 | ⟨h1, h2⟩
          · exact Or.inl h1
          · exact Or.inr ⟨h1, by simp [internedOkAnyMap, h2]⟩
        | ok res =>
          obtain ⟨r, s⟩ := res
          rw [hx] at h
          simp only at h
          cases hl : idAnyMapEntries s kvs with
          | error e' =>
            rw [hl] at h; simp only [Except.error.injEq] at h
            rw [← h]
            rcases idAnyMapEntries_error kvs s e' hl with h1 | ⟨h1, h2⟩
            · exact Or.inl h1
            · exact Or.inr ⟨h1, by simp [internedOkAnyMap, h2]⟩
          | ok res2 => rw [hl] at h; simp at h
end

/-- A nil element keeps the loop of `idArray` from returning. -/
theorem idArrayValues_nil :
    ∀ (xs : List Val) (st : NSKeyedArchiver), Val.nil ∈ xs →
      ∀ res, idArrayValues st xs ≠ .ok res
  | [], _, h => by simp at h
  | y :: xs, st, h => by
      intro res hres
      rw [idArrayValues] at hres
      cases hy : idAny st y with
      | error e => rw [hy] at hres; simp at hres
      | ok r1 =>
        obtain ⟨r, s⟩ := r1
        rw [hy] at hres
        simp only at hres
        have hmem : Val.nil ∈ xs := by
          rcases List.mem_cons.mp h with h1 | h1
          · subst h1; simp [idAny] at hy
          · exact h1
        cases hl : idArrayValues s xs with
        | error e => rw [hl] at hres; simp at hres
        | ok res2 => exact idArrayValues_nil xs s hmem res2 hl

/-- A nil value keeps the loop of `idDictionary` from returning. -/
theorem idDictionaryEntries_nil :
    ∀ (kvs : List (String × Val)) (st : NSKeyedArchiver), Val.nil ∈ kvs.map Prod.snd →
      ∀ res, idDictionaryEntries st kvs ≠ .ok res
  | [], _, h => by simp at h
  | (k, y) :: kvs, st, h => by
      intro res hres
      rw [idDictionaryEntries] at hres
      cases hy : idAny (st.id (.str k)).2 y with
      | error e => rw [hy] at hres; simp at hres
      | ok r1 =>
        obtain ⟨r, s⟩ := r1
        rw [hy] at hres
        simp only at hres
        have hmem : Val.nil ∈ kvs.map Prod.snd := by
          simp only [List.map_cons, List.mem_cons] at h
          rcases h with h1 | h1
          · subst h1; simp [idAny] at hy
          · exact h1
        cases hl : idDictionaryEntries s kvs with
        | error e => rw [hl] at hres; simp at hres
        | ok res2 => exact idDictionaryEntries_nil kvs s hmem res2 hl

/-- A nil element makes the loop of `idArray` panic: with the panic `reflect`
raises on the nil interface, unless a map with a NaN key comes first. -/
theorem idArrayValues_nil_panics (xs : List Val) (st : NSKeyedArchiver) (h : Val.nil ∈ xs) :
    ∃ p, idArrayValues st xs = .error (.panic p) ∧
      (p = .zeroValueType ∨ (p = .zeroValueInterface ∧ internedOkValues notNaN xs = false)) := by
  cases hres : idArrayValues st xs with
  | ok res => exact absurd hres (idArrayValues_nil xs st h res)
  | error e =>
    rcases idArrayValues_error xs st e hres with h1 | ⟨h1, h2⟩
    · exact ⟨.zeroValueType, by rw [h1], Or.inl rfl⟩
    · exact ⟨.zeroValueInterface, by rw [h1], Or.inr ⟨rfl, h2⟩⟩

/-- A nil value makes the loop of `idDictionary` panic, in the same way. -/
theorem idDictionaryEntries_nil_panics (kvs : List (String × Val)) (st : NSKeyedArchiver)
    (h : Val.nil ∈ kvs.map Prod.snd) :
    ∃ p, idDictionaryEntries st kvs = .error (.panic p) ∧
      (p = .zeroValueType ∨ (p = .zeroValueInterface ∧ internedOkEntries notNaN kvs = false)) := by
  cases hres : idDictionaryEntries st kvs with
  | ok res => exact absurd hres (idDictionaryEntries_nil kvs st h res)
  | error e =>
    rcases idDictionaryEntries_error kvs st e hres with h1 | ⟨h1, h2⟩
    · exact ⟨.zeroValueType, by rw [h1], Or.inl rfl⟩
    · exact ⟨.zeroValueInterface, by rw [h1], Or.inr ⟨rfl, h2⟩⟩

/-- Counterexample to C6 as stated: a `float64` (1.5), at the top level and
inside a sequence, is encoded without any error; the archive root is built and
the value has become reference 0. -/
theorem unsupported_type_is_no_error :
    Marshal NewNSKeyedArchiver (.float64 (.finite 3 (-1))) =
      .ok ({ Archiver := "NSKeyedArchiver", Objects := [.str "$null"],
             Top := { Root := 0 }, Version := 100000 }, { objRefVal := [], objRef := [] }) ∧
    Marshal NewNSKeyedArchiver (.slice [.float64 (.finite 3 (-1))]) =
      .ok ({ Archiver := "NSKeyedArchiver",
             Objects := [.str "$null", .classes NSArrayClass, .node (.NSArray 1 [0])],
             Top := { Root := 2 }, Version := 100000 }, { objRefVal := [], objRef := [] }) :=
  ⟨rfl, rfl⟩

/-- C6, amended.  A value of a kind `idAny` has no case for, the nil interface
apart (a float, a struct, a pointer), raises no error: `idAny` interns nothing
and returns reference 0, so at the top level `Marshal` builds an archive root
whose `top.root` is 0, and inside a sequence or a mapping the value is stored
as reference 0.  A nil interface, at the top level or as an element of a
sequence or a value of a mapping, makes the call panic, and no archive root is
built.  The panic is the one `reflect` raises on the nil interface, unless a
map with a NaN key is met first: then it is the one `reflect` raises on the
missing entry of that key. -/
theorem unsupported_kind_becomes_reference_zero (v : Val) (hv : unsupportedKind v = true) :
    (∀ this : NSKeyedArchiver, idAny this v = .ok (0, this)) ∧
    (∀ this : NSKeyedArchiver, ∃ root st, Marshal this v = .ok (root, st) ∧ root.Top.Root = 0) ∧
    Marshal NewNSKeyedArchiver v =
      .ok ({ Archiver := "NSKeyedArchiver", Objects := [.str "$null"],
             Top := { Root := 0 }, Version := 100000 }, { objRefVal := [], objRef := [] }) ∧
    (∀ (xs : List Val) (st : NSKeyedArchiver) (rs : List Nat) (st' : NSKeyedArchiver) (i : Nat),
      idArrayValues st xs = .ok (rs, st') → xs[i]? = some v → rs[i]? = some 0) ∧
    (∀ (kvs : List (String × Val)) (st : NSKeyedArchiver) (ks rs : List Nat)
      (st' : NSKeyedArchiver) (i : Nat) (k : String),
      idDictionaryEntries st kvs = .ok (ks, rs, st') → kvs[i]? = some (k, v) → rs[i]? = some 0) ∧
    Marshal NewNSKeyedArchiver (.slice [v]) =
      .ok ({ Archiver := "NSKeyedArchiver",
             Objects := [.str "$null", .classes NSArrayClass, .node (.NSArray 1 [0])],
             Top := { Root := 2 }, Version := 100000 }, { objRefVal := [], objRef := [] }) ∧
    (∀ this : NSKeyedArchiver, Marshal this .nil = .error (.panic .zeroValueType)) ∧
    (∀ (this : NSKeyedArchiver) (xs : List Val), Val.nil ∈ xs →
      ∃ p, Marshal this (.slice xs) = .error (.panic p) ∧
        (p = .zeroValueType ∨ (p = .zeroValueInterface ∧ internedOkValues notNaN xs = false))) ∧
    (∀ (this : NSKeyedArchiver) (kvs : List (String × Val)), Val.nil ∈ kvs.map Prod.snd →
      ∃ p, Marshal this (.dict kvs) = .error (.panic p) ∧
        (p = .zeroValueType ∨ (p = .zeroValueInterface ∧ internedOkEntries notNaN kvs = false))) := by
  refine ⟨fun this => idAny_unsupported this v hv, ?_, ?_, ?_, ?_, ?_, ?_, ?_, ?_⟩
  · intro this
    simp only [Marshal, idAny_unsupported _ v hv]
    exact ⟨_, _, rfl, rfl⟩
  · simp only [Marshal, idAny_unsupported _ v hv]
    rfl
  · intro xs st rs st' i h hx
    exact idArrayValues_unsupported xs st rs st' h i v hx hv
  · intro kvs st ks rs st' i k h hx
    exact idDictionaryEntries_unsupported kvs st ks rs st' h i (k, v) hx hv
  · simp only [Marshal, idAny, idArrayValues, idAny_unsupported _ v hv]
    rfl
  · intro this
    simp [Marshal, idAny]
  · intro this xs hmem
    obtain ⟨p, hp, hc⟩ := idArrayValues_nil_panics xs
      ((this.id (.str NSNull)).2.id (.classPtr .NSArray)).2 hmem
    exact ⟨p, by simp [Marshal, idAny, hp], hc⟩
  · intro this kvs hmem
    obtain ⟨p, hp, hc⟩ := idDictionaryEntries_nil_panics kvs
      ((this.id (.str NSNull)).2.id (.classPtr .NSDictionary)).2 hmem
    exact ⟨p, by simp [Marshal, idAny, hp], hc⟩

/-- Witness of the amended C6 at the `float64` 1.5. -/
theorem unsupported_kind_becomes_reference_zero_witness :
    unsupportedKind (.float64 (.finite 3 (-1))) = true ∧
    idAny NewNSKeyedArchiver (.float64 (.finite 3 (-1))) = .ok (0, NewNSKeyedArchiver) :=
  ⟨rfl, (unsupported_kind_becomes_reference_zero (.float64 (.finite 3 (-1))) rfl).1 _⟩

/-! ## C7: a class name without a case -/

/-- Counterexample to C7 as stated: decoding the node of class `Foo` raises no
error, the node itself is returned. -/
theorem unknown_class_is_no_error :
    Unmarshal 3 NewNSKeyedArchiver (.ok unknownClassArchive) =
      .ok (.ok (.dict [("$class", .uid 1), ("NS.objects", .slice [])]),
           { objRefVal := [], objRef := [] }) := rfl

theorem goEq_str_false (c : Val) (s : String) (h : c ≠ .str s) : goEq c (.str s) = false := by
  cases c <;> simp_all [goEq]

/-- Every registry entry has its `ClassName` as `Classes[0]`, the name the
`switch` of `convertValue` compares with. -/
theorem registryNames_eq_Classes0 :
    registryNames = registry.map (fun p => p.deref.Classes0) := rfl

/-- C7, amended.  A composite node whose class descriptor carries a name that
is the name of no registry entry raises no error: `convertValue` returns the
node itself, unchanged. -/
theorem unknown_class_passes_through (objRefVal : List Val) (m classMap : List (String × Val))
    (classRef fuel : Nat)
    (hclass : mapIndex m "$class" = .uid classRef)
    (hobj : objRefVal[classRef]? = some (.dict classMap))
    (hname : ∀ name ∈ registryNames, mapIndex classMap "$classname" ≠ .str name) :
    convertValue objRefVal (fuel + 1) (.dict m) = .ok (.dict m) := by
  simp only [registryNames, registry, List.map_cons, List.map_nil, List.mem_cons,
    List.mem_singleton, List.not_mem_nil, or_false, forall_eq_or_imp, forall_eq,
    ClassPtr.deref] at hname
  obtain ⟨h1, h2, h3, h4, h5, h6, h7, h8, h9, h10, h11, h12⟩ := hname
  have e1 : goEq (mapIndex classMap "$classname") (.str NSMutableDictionaryClass.Classes0) = false :=
    goEq_str_false _ _ h1
  have e2 : goEq (mapIndex classMap "$classname") (.str NSDictionaryClass.Classes0) = false :=
    goEq_str_false _ _ h2
  have e3 : goEq (mapIndex classMap "$classname") (.str NSMutableArrayClass.Classes0) = false :=
    goEq_str_false _ _ h3
  have e4 : goEq (mapIndex classMap "$classname") (.str NSArrayClass.Classes0) = false :=
    goEq_str_false _ _ h4
  have e5 : goEq (mapIndex classMap "$classname") (.str NSMutableDataClass.Classes0) = false :=
    goEq_str_false _ _ h5
  have e6 : goEq (mapIndex classMap "$classname") (.str NSDataClass.Classes0) = false :=
    goEq_str_false _ _ h6
  have e7 : goEq (mapIndex classMap "$classname") (.str NSDateClass.Classes0) = false :=
    goEq_str_false _ _ h7
  have e8 : goEq (mapIndex classMap "$classname") (.str NSErrorClass.Classes0) = false :=
    goEq_str_false _ _ h8
  have e9 : goEq (mapIndex classMap "$classname") (.str NSSetClass.Classes0) = false :=
    goEq_str_false _ _ h9
  have e10 : goEq (mapIndex classMap "$classname") (.str NSMutableSetClass.Classes0) = false :=
    goEq_str_false _ _ h10
  have e11 : goEq (mapIndex classMap "$classname") (.str DTTapMessageClass.Classes0) = false :=
    goEq_str_false _ _ h11
  have e12 : goEq (mapIndex classMap "$classname") (.str DTSysmonTapMessageClass.Classes0) = false :=
    goEq_str_false _ _ h12
  rw [convertValue]
  simp only [hclass, asUID, index, hobj, asDict, bind, Except.bind, pure, Except.pure, caseOf,
    e1, e2, e3, e4, e5, e6, e7, e8, e9, e10, e11, e12]
  simp

/-- Witness of the amended C7: the node of class `Foo`. -/
theorem unknown_class_passes_through_witness :
    convertValue unknownClassArchive.Objects 1 (.dict [("$class", .uid 1), ("NS.objects", .slice [])])
      = .ok (.dict [("$class", .uid 1), ("NS.objects", .slice [])]) :=
  unknown_class_passes_through unknownClassArchive.Objects
    [("$class", .uid 1), ("NS.objects", .slice [])]
    [("$classes", .slice [.str "Foo", .str "NSObject"]), ("$classname", .str "Foo")] 1 0 rfl rfl
    (by
      intro name hn he
      have hfoo : mapIndex
          [("$classes", Val.slice [.str "Foo", .str "NSObject"]), ("$classname", Val.str "Foo")]
          "$classname" = .str "Foo" := rfl
      rw [hfoo] at he
      injection he with he
      subst he
      revert hn
      decide)

/-! ## The cases of `convertValue` -/

theorem convertValue_uid (T : List Val) (fuel r : Nat) (w : Val) (h : T[r]? = some w) :
    convertValue T (fuel + 1) (.uid r) = convertValue T fuel w := by
  rw [convertValue]
  simp [index, h, bind, Except.bind]

/-- The array case. -/
theorem convertValue_array (T : List Val) (m classMap : List (String × Val)) (classRef fuel : Nat)
    (values : List Val)
    (hclass : mapIndex m "$class" = .uid classRef) (hobj : T[classRef]? = some (.dict classMap))
    (hname : isArrayClass classMap) (hvals : mapIndex m "NS.objects" = .slice values) :
    convertValue T (fuel + 1) (.dict m) =
      match arrayLoop (convertValue T fuel) values [] with
      | .ok ret => .ok (.slice ret)
      | .error e => .error e := by
  rw [convertValue]
  rcases hname with hn | hn
  all_goals
    simp only [hclass, asUID, index, hobj, asDict, bind, Except.bind, pure, Except.pure,
      hn, hvals, asSlice]
    first
    | rw [show caseOf (.str "NSArray") NSMutableDictionaryClass NSDictionaryClass = false from rfl,
        show caseOf (.str "NSArray") NSMutableSetClass NSSetClass = false from rfl,
        show caseOf (.str "NSArray") NSMutableArrayClass NSArrayClass = true from rfl]
    | rw [show caseOf (.str "NSMutableArray") NSMutableDictionaryClass NSDictionaryClass = false
          from rfl,
        show caseOf (.str "NSMutableArray") NSMutableSetClass NSSetClass = false from rfl,
        show caseOf (.str "NSMutableArray") NSMutableArrayClass NSArrayClass = true from rfl]
    simp only [Bool.false_eq_true, if_false, if_true]
    cases arrayLoop (convertValue T fuel) values [] <;> rfl

/-- The dictionary case. -/
theorem convertValue_dictionary (T : List Val) (m classMap : List (String × Val))
    (classRef fuel : Nat) (keys values : List Val)
    (hclass : mapIndex m "$class" = .uid classRef) (hobj : T[classRef]? = some (.dict classMap))
    (hname : isDictionaryClass classMap) (hkeys : mapIndex m "NS.keys" = .slice keys)
    (hvals : mapIndex m "NS.objects" = .slice values) :
    convertValue T (fuel + 1) (.dict m) =
      match dictLoop T (convertValue T fuel) values keys 0 [] with
      | .ok ret => .ok (.dict ret)
      | .error e => .error e := by
  rw [convertValue]
  rcases hname with hn | hn
  all_goals
    simp only [hclass, asUID, index, hobj, asDict, bind, Except.bind, pure, Except.pure,
      hn, hvals, hkeys, asSlice]
    first
    | rw [show caseOf (.str "NSDictionary") NSMutableDictionaryClass NSDictionaryClass = true
          from rfl]
    | rw [show caseOf (.str "NSMutableDictionary") NSMutableDictionaryClass NSDictionaryClass = true
          from rfl]
    simp only [if_true]
    cases dictLoop T (convertValue T fuel) values keys 0 [] <;> rfl

/-- The byte-buffer case, for the name `NSData`. -/
theorem convertValue_data (T : List Val) (m classMap : List (String × Val))
    (classRef fuel : Nat) (data : List (Fin 256))
    (hclass : mapIndex m "$class" = .uid classRef) (hobj : T[classRef]? = some (.dict classMap))
    (hname : mapIndex classMap "$classname" = .str "NSData")
    (hdata : mapIndex m "NS.data" = .bytes data) :
    convertValue T (fuel + 1) (.dict m) = .ok (.bytes data) := by
  rw [convertValue]
  simp only [hclass, asUID, index, hobj, asDict, bind, Except.bind, pure, Except.pure,
    hname, hdata, asBytes]
  rw [show caseOf (.str "NSData") NSMutableDictionaryClass NSDictionaryClass = false from rfl,
    show caseOf (.str "NSData") NSMutableSetClass NSSetClass = false from rfl,
    show caseOf (.str "NSData") NSMutableArrayClass NSArrayClass = false from rfl,
    show caseOf (.str "NSData") NSMutableDataClass NSDataClass = true from rfl]
  simp

/-- The date case. -/
theorem convertValue_date (T : List Val) (m classMap : List (String × Val))
    (classRef fuel : Nat) (t : F64)
    (hclass : mapIndex m "$class" = .uid classRef) (hobj : T[classRef]? = some (.dict classMap))
    (hname : mapIndex classMap "$classname" = .str "NSDate")
    (htime : mapIndex m "NS.time" = .float64 t) :
    convertValue T (fuel + 1) (.dict m) =
      .ok (.time (referenceDate + wrapInt64 (durationOfFloat64 t * Second))) := by
  rw [convertValue]
  simp only [hclass, asUID, index, hobj, asDict, bind, Except.bind, pure, Except.pure,
    hname, htime, asFloat64]
  rw [show caseOf (.str "NSDate") NSMutableDictionaryClass NSDictionaryClass = false from rfl,
    show caseOf (.str "NSDate") NSMutableSetClass NSSetClass = false from rfl,
    show caseOf (.str "NSDate") NSMutableArrayClass NSArrayClass = false from rfl,
    show caseOf (.str "NSDate") NSMutableDataClass NSDataClass = false from rfl,
    show goEq (.str "NSDate") (.str NSDateClass.Classes0) = true from rfl]
  simp

theorem arrayLoop_ok_mem (conv : Val → Except Stop Val) :
    ∀ (values ret out : List Val), arrayLoop conv values ret = .ok out →
      ∀ v ∈ values, ∃ w, conv v = .ok w
  | [], _, _, _, v, hv => by simp at hv
  | x :: values, ret, out, h, v, hv => by
      rw [arrayLoop] at h
      cases hx : conv x with
      | error e => rw [hx] at h; simp [bind, Except.bind] at h
      | ok w =>
        rw [hx] at h
        simp only [bind, Except.bind] at h
        rcases List.mem_cons.mp hv with h1 | h1
        · subst h1; exact ⟨w, hx⟩
        · exact arrayLoop_ok_mem conv values _ out h v h1

/-! ## C8: a cycle of array nodes -/

/-- Two array nodes that list each other are never decoded to a value. -/
theorem cycle_no_value (T : List Val) (a b ca cb : Nat) (ma mb cma cmb : List (String × Val))
    (va vb : List Val)
    (hA : T[a]? = some (.dict ma)) (hB : T[b]? = some (.dict mb))
    (hAclass : mapIndex ma "$class" = .uid ca) (hAdesc : T[ca]? = some (.dict cma))
    (hAname : isArrayClass cma) (hAobjs : mapIndex ma "NS.objects" = .slice va)
    (hBclass : mapIndex mb "$class" = .uid cb) (hBdesc : T[cb]? = some (.dict cmb))
    (hBname : isArrayClass cmb) (hBobjs : mapIndex mb "NS.objects" = .slice vb)
    (hab : Val.uid b ∈ va) (hba : Val.uid a ∈ vb) :
    ∀ (fuel : Nat) (v : Val),
      convertValue T fuel (.dict ma) ≠ .ok v ∧ convertValue T fuel (.dict mb) ≠ .ok v ∧
      convertValue T fuel (.uid a) ≠ .ok v ∧ convertValue T fuel (.uid b) ≠ .ok v := by
  intro fuel
  induction fuel with
  | zero => intro v; simp [convertValue]
  | succ f ih =>
    intro v
    refine ⟨?_, ?_, ?_, ?_⟩
    · rw [convertValue_array T ma cma ca f va hAclass hAdesc hAname hAobjs]
      cases hl : arrayLoop (convertValue T f) va [] with
      | error e => simp
      | ok out =>
        obtain ⟨w, hw⟩ := arrayLoop_ok_mem _ va [] out hl _ hab
        exact absurd hw (ih w).2.2.2
    · rw [convertValue_array T mb cmb cb f vb hBclass hBdesc hBname hBobjs]
      cases hl : arrayLoop (convertValue T f) vb [] with
      | error e => simp
      | ok out =>
        obtain ⟨w, hw⟩ := arrayLoop_ok_mem _ vb [] out hl _ hba
        exact absurd hw (ih w).2.2.1
    · rw [convertValue_uid T f a _ hA]; exact (ih v).1
    · rw [convertValue_uid T f b _ hB]; exact (ih v).2.1

/-- Two array nodes that list each other first use up every recursion budget. -/
theorem cycle_exhausts (T : List Val) (a b ca cb : Nat) (ma mb cma cmb : List (String × Val))
    (ra rb : List Val)
    (hA : T[a]? = some (.dict ma)) (hB : T[b]? = some (.dict mb))
    (hAclass : mapIndex ma "$class" = .uid ca) (hAdesc : T[ca]? = some (.dict cma))
    (hAname : isArrayClass cma) (hAobjs : mapIndex ma "NS.objects" = .slice (.uid b :: ra))
    (hBclass : mapIndex mb "$class" = .uid cb) (hBdesc : T[cb]? = some (.dict cmb))
    (hBname : isArrayClass cmb) (hBobjs : mapIndex mb "NS.objects" = .slice (.uid a :: rb)) :
    ∀ fuel : Nat,
      convertValue T fuel (.dict ma) = .error .fuel ∧ convertValue T fuel (.dict mb) = .error .fuel ∧
      convertValue T fuel (.uid a) = .error .fuel ∧ convertValue T fuel (.uid b) = .error .fuel := by
  intro fuel
  induction fuel with
  | zero => simp [convertValue]
  | succ f ih =>
    refine ⟨?_, ?_, ?_, ?_⟩
    · rw [convertValue_array T ma cma ca f _ hAclass hAdesc hAname hAobjs, arrayLoop, ih.2.2.2]
      rfl
    · rw [convertValue_array T mb cmb cb f _ hBclass hBdesc hBname hBobjs, arrayLoop, ih.2.2.1]
      rfl
    · rw [convertValue_uid T f a _ hA]; exact ih.1
    · rw [convertValue_uid T f b _ hB]; exact ih.2.1

/-- Counterexample to C8 as stated: on the archive whose arrays 2 and 3 list
each other, no recursion budget lets `Unmarshal` come back, with an error or
with a value: the decoder recurses without bound. -/
theorem cyclic_archive_never_terminates :
    ¬ ∃ fuel : Nat, Unmarshal fuel NewNSKeyedArchiver (.ok cyclicArchive) ≠ .error .fuel := by
  rintro ⟨fuel, h⟩
  apply h
  have hc := (cycle_exhausts cyclicArchive.Objects 2 3 1 1
    [("$class", .uid 1), ("NS.objects", .slice [.uid 3])]
    [("$class", .uid 1), ("NS.objects", .slice [.uid 2])]
    [("$classes", .slice [.str "NSArray", .str "NSObject"]), ("$classname", .str "NSArray")]
    [("$classes", .slice [.str "NSArray", .str "NSObject"]), ("$classname", .str "NSArray")]
    [] [] rfl rfl rfl rfl (Or.inl rfl) rfl rfl rfl (Or.inl rfl) rfl fuel).1
  have hobj : List.foldl (fun l v => l ++ [v]) NewNSKeyedArchiver.objRefVal cyclicArchive.Objects
      = cyclicArchive.Objects := rfl
  unfold Unmarshal
  simp only [hobj]
  rw [show index cyclicArchive.Objects cyclicArchive.Top.Root
      = .ok (.dict [("$class", .uid 1), ("NS.objects", .slice [.uid 3])]) from rfl]
  simp only [hc]

/-- C8, amended.  The decoder keeps no record of the nodes it is resolving and
has no cyclic-reference error.  When array node A lists B in `NS.objects` and
array node B lists A, decoding A or B never returns a value; when each lists
the other first, decoding does not come back at all: whatever recursion budget
is allowed, it is used up. -/
theorem cyclic_arrays_recurse_without_bound (T : List Val) (a b ca cb : Nat)
    (ma mb cma cmb : List (String × Val)) (va vb : List Val)
    (hA : T[a]? = some (.dict ma)) (hB : T[b]? = some (.dict mb))
    (hAclass : mapIndex ma "$class" = .uid ca) (hAdesc : T[ca]? = some (.dict cma))
    (hAname : isArrayClass cma) (hAobjs : mapIndex ma "NS.objects" = .slice va)
    (hBclass : mapIndex mb "$class" = .uid cb) (hBdesc : T[cb]? = some (.dict cmb))
    (hBname : isArrayClass cmb) (hBobjs : mapIndex mb "NS.objects" = .slice vb)
    (hab : Val.uid b ∈ va) (hba : Val.uid a ∈ vb) :
    (∀ (fuel : Nat) (v : Val),
      convertValue T fuel (.dict ma) ≠ .ok v ∧ convertValue T fuel (.uid a) ≠ .ok v) ∧
    (va.head? = some (.uid b) → vb.head? = some (.uid a) →
      ∀ fuel : Nat,
        convertValue T fuel (.dict ma) = .error .fuel ∧ convertValue T fuel (.uid a) = .error .fuel) := by
  refine ⟨fun fuel v => ?_, fun ha hb fuel => ?_⟩
  · have h := cycle_no_value T a b ca cb ma mb cma cmb va vb hA hB hAclass hAdesc hAname hAobjs
      hBclass hBdesc hBname hBobjs hab hba fuel v
    exact ⟨h.1, h.2.2.1⟩
  · cases va with
    | nil => simp at ha
    | cons x ra =>
      cases vb with
      | nil => simp at hb
      | cons y rb =>
        simp only [List.head?_cons, Option.some.injEq] at ha hb
        subst ha hb
        have h := cycle_exhausts T a b ca cb ma mb cma cmb ra rb hA hB hAclass hAdesc hAname
          hAobjs hBclass hBdesc hBname hBobjs fuel
        exact ⟨h.1, h.2.2.1⟩

/-- Witness of the amended C8: the arrays 2 and 3 of the cyclic archive. -/
theorem cyclic_arrays_recurse_without_bound_witness :
    convertValue cyclicArchive.Objects 1000 (.uid 2) = .error .fuel :=
  ((cyclic_arrays_recurse_without_bound cyclicArchive.Objects 2 3 1 1
    [("$class", .uid 1), ("NS.objects", .slice [.uid 3])]
    [("$class", .uid 1), ("NS.objects", .slice [.uid 2])]
    [("$classes", .slice [.str "NSArray", .str "NSObject"]), ("$classname", .str "NSArray")]
    [("$classes", .slice [.str "NSArray", .str "NSObject"]), ("$classname", .str "NSArray")]
    [.uid 3] [.uid 2] rfl rfl rfl rfl (Or.inl rfl) rfl rfl rfl (Or.inl rfl) rfl
    (by simp) (by simp)).2 rfl rfl 1000).2

/-! ## C9: `NS.keys` and `NS.objects` of different lengths -/

/-- Counterexample to C9 as stated: with two keys and one value, decoding
aborts on an index out of range; with one key and two values, decoding returns
the mapping of the first pair.  Neither is a type-mismatch error. -/
theorem length_mismatch_is_no_type_mismatch :
    Unmarshal 3 NewNSKeyedArchiver (.ok moreKeysArchive) = .error (.panic .indexOutOfRange) ∧
    Unmarshal 3 NewNSKeyedArchiver (.ok moreValuesArchive) =
      .ok (.ok (.dict [("a", .int .uint64 1)]), { objRefVal := [], objRef := [] }) :=
  ⟨rfl, rfl⟩

theorem index_take (values : List Val) (n i : Nat) (h : i < n) :
    index (values.take n) i = index values i := by
  unfold index
  rw [List.getElem?_take]
  simp [h]

/-- The loop of the dictionary case reads `values` below `i + len(keys)` only. -/
theorem dictLoop_take (T : List Val) (conv : Val → Except Stop Val) (values : List Val) (n : Nat) :
    ∀ (keys : List Val) (i : Nat) (ret : List (String × Val)), i + keys.length ≤ n →
      dictLoop T conv (values.take n) keys i ret = dictLoop T conv values keys i ret
  | [], _, _, _ => by simp [dictLoop]
  | k :: keys, i, ret, h => by
      simp only [List.length_cons] at h
      rw [dictLoop, dictLoop, index_take values n i (by omega)]
      have ih := fun r => dictLoop_take T conv values n keys (i + 1) r (by omega)
      simp only [ih]

/-- The loop of the dictionary case returns a mapping only when there is a
value for every key. -/
theorem dictLoop_ok_length (T : List Val) (conv : Val → Except Stop Val) (values : List Val) :
    ∀ (keys : List Val) (i : Nat) (ret out : List (String × Val)),
      i ≤ values.length → dictLoop T conv values keys i ret = .ok out →
        i + keys.length ≤ values.length
  | [], _, _, _, hi, _ => by simpa using hi
  | k :: keys, i, ret, out, _, h => by
      rw [dictLoop] at h
      simp only [bind, Except.bind] at h
      split at h
      · simp at h
      · split at h
        · simp at h
        · split at h
          · simp at h
          · cases hv : index values i with
            | error e => rw [hv] at h; simp at h
            | ok v =>
              have hi : i < values.length := by
                unfold index at hv
                by_contra hc
                rw [List.getElem?_eq_none (by omega)] at hv
                simp at hv
              rw [hv] at h
              simp only at h
              split at h
              · simp at h
              · split at h
                · simp at h
                · split at h
                  · simp at h
                  · have := dictLoop_ok_length T conv values keys (i + 1) _ out (by omega) h
                    simp only [List.length_cons]
                    omega

theorem lookup_map_set (k k' : String) (v : Val) :
    ∀ m : List (String × Val),
      List.lookup k' (m.map (fun e => if e.1 == k then (k, v) else e)) =
        if k' == k then (if m.any (fun e => e.1 == k) then some v else none) else List.lookup k' m
  | [] => by simp
  | (a, b) :: m => by
      simp only [List.map_cons, List.any_cons]
      by_cases hak : a = k
      · subst hak
        simp only [beq_self_eq_true, if_true, Bool.true_or]
        by_cases hk : k' = a
        · subst hk; simp [List.lookup]
        · have h1 : (k' == a) = false := by simpa using hk
          simp only [List.lookup, h1]
          rw [lookup_map_set a k' v m]
          simp [h1]
      · have h1 : (a == k) = false := by simpa using hak
        simp only [h1, Bool.false_or]
        by_cases hk : k' = a
        · subst hk
          have h2 : (k' == k) = false := by simpa using hak
          simp [List.lookup, h2]
        · have h2 : (k' == a) = false := by simpa using hk
          simp only [List.lookup, h2, Bool.false_eq_true, if_false]
          rw [lookup_map_set k k' v m]

theorem lookup_append_single (k k' : String) (v : Val) :
    ∀ m : List (String × Val),
      List.lookup k' (m ++ [(k, v)]) =
        match List.lookup k' m with
        | some w => some w
        | none => if k' == k then some v else none
  | [] => by simp [List.lookup]; split <;> simp_all
  | (a, b) :: m => by
      by_cases hk : k' = a
      · subst hk; simp [List.lookup]
      · have h2 : (k' == a) = false := by simpa using hk
        simp only [List.cons_append, List.lookup, h2]
        exact lookup_append_single k k' v m

theorem lookup_none_of_not_any (k : String) :
    ∀ m : List (String × Val), m.any (fun e => e.1 == k) = false → List.lookup k m = none
  | [], _ => rfl
  | (a, b) :: m, h => by
      simp only [List.any_cons, Bool.or_eq_false_iff] at h
      have h2 : (k == a) = false := by
        have := h.1
        simp only [beq_eq_false_iff_ne, ne_eq] at this ⊢
        exact fun hc => this hc.symm
      simp only [List.lookup, h2]
      exact lookup_none_of_not_any k m h.2

theorem mapIndex_dictSet_same (m : List (String × Val)) (k : String) (v : Val) :
    mapIndex (dictSet m k v) k = v := by
  unfold mapIndex dictSet
  by_cases h : m.any (fun e => e.1 == k) = true
  · simp only [h, if_true]
    rw [lookup_map_set]
    simp [h]
  · simp only [h, Bool.false_eq_true, if_false]
    rw [lookup_append_single, lookup_none_of_not_any k m (Bool.eq_false_iff.mpr h)]
    simp

theorem mapIndex_dictSet_other (m : List (String × Val)) (k k' : String) (v : Val) (h : k' ≠ k) :
    mapIndex (dictSet m k v) k' = mapIndex m k' := by
  have h1 : (k' == k) = false := by simpa using h
  unfold mapIndex dictSet
  by_cases ha : m.any (fun e => e.1 == k) = true
  · simp only [ha, if_true]
    rw [lookup_map_set]
    simp [h1]
  · simp only [ha, Bool.false_eq_true, if_false]
    rw [lookup_append_single]
    cases List.lookup k' m <;> simp [h1]

/-- C9, amended.  A dictionary node whose `NS.keys` and `NS.objects` differ in
length raises no type-mismatch error.  With more values than keys the values
beyond the last key are never read: decoding gives what it gives for the node
with `NS.objects` cut to the length of `NS.keys`.  With more keys than values
decoding returns no mapping. -/
theorem dictionary_length_mismatch (T : List Val) (m classMap : List (String × Val))
    (classRef : Nat) (keys values : List Val)
    (hclass : mapIndex m "$class" = .uid classRef) (hobj : T[classRef]? = some (.dict classMap))
    (hname : isDictionaryClass classMap) (hkeys : mapIndex m "NS.keys" = .slice keys)
    (hvals : mapIndex m "NS.objects" = .slice values) :
    (keys.length < values.length → ∀ fuel : Nat,
      convertValue T fuel (.dict m) =
        convertValue T fuel (.dict (dictSet m "NS.objects" (.slice (values.take keys.length))))) ∧
    (values.length < keys.length → ∀ (fuel : Nat) (v : Val),
      convertValue T fuel (.dict m) ≠ .ok v) := by
  refine ⟨fun _ fuel => ?_, fun hlt fuel v => ?_⟩
  · cases fuel with
    | zero => simp [convertValue]
    | succ f =>
      rw [convertValue_dictionary T m classMap classRef f keys values hclass hobj hname hkeys hvals,
        convertValue_dictionary T _ classMap classRef f keys (values.take keys.length)
          (by rw [mapIndex_dictSet_other _ _ _ _ (by decide), hclass]) hobj hname
          (by rw [mapIndex_dictSet_other _ _ _ _ (by decide), hkeys])
          (mapIndex_dictSet_same _ _ _),
        dictLoop_take T _ values keys.length keys 0 [] (by omega)]
  · cases fuel with
    | zero => simp [convertValue]
    | succ f =>
      rw [convertValue_dictionary T m classMap classRef f keys values hclass hobj hname hkeys hvals]
      cases hl : dictLoop T (convertValue T f) values keys 0 [] with
      | error e => simp
      | ok out =>
        have := dictLoop_ok_length T _ values keys 0 [] out (by omega) hl
        omega

/-- Witness of the amended C9: the node with one key and two values. -/
theorem dictionary_length_mismatch_witness :
    convertValue moreValuesArchive.Objects 2
        (.dict [("$class", .uid 1), ("NS.keys", .slice [.uid 2]),
                ("NS.objects", .slice [.uid 4, .uid 5])]) =
      convertValue moreValuesArchive.Objects 2
        (.dict [("$class", .uid 1), ("NS.keys", .slice [.uid 2]),
                ("NS.objects", .slice [.uid 4])]) :=
  (dictionary_length_mismatch moreValuesArchive.Objects
    [("$class", .uid 1), ("NS.keys", .slice [.uid 2]), ("NS.objects", .slice [.uid 4, .uid 5])]
    [("$classes", .slice [.str "NSDictionary", .str "NSObject"]),
     ("$classname", .str "NSDictionary")]
    1 [.uid 2] [.uid 4, .uid 5] rfl rfl (Or.inl rfl) rfl rfl).1 (by decide) 2

/-! ## C10: dates at whole seconds -/

theorem truncFinite_isInt (m e n : Int) (h : (F64.finite m e).isInt n) : truncFinite m e = n := by
  unfold F64.isInt at h
  unfold truncFinite
  by_cases he : 0 ≤ e
  · simp only [he, if_true] at h ⊢
    exact h
  · simp only [he, if_false] at h ⊢
    rw [h]
    exact Int.mul_tdiv_cancel n (by positivity)

theorem wrapInt64_of_range (x : Int) (h1 : -(2 ^ 63) ≤ x) (h2 : x < 2 ^ 63) : wrapInt64 x = x := by
  unfold wrapInt64
  rw [Int.emod_eq_of_lt (by omega) (by omega)]
  omega

/-- C10 (date decoding at whole seconds).  A date node whose `NS.time` is a
whole number `n` of seconds with `|n| ≤ 9223372036` decodes to exactly the
instant 2001-01-01T00:00:00 UTC plus `n` seconds. -/
theorem date_at_whole_seconds (T : List Val) (m classMap : List (String × Val))
    (classRef fuel : Nat) (x : F64) (n : Int)
    (hclass : mapIndex m "$class" = .uid classRef) (hobj : T[classRef]? = some (.dict classMap))
    (hname : mapIndex classMap "$classname" = .str "NSDate")
    (htime : mapIndex m "NS.time" = .float64 x) (hx : x.isInt n)
    (hlo : -9223372036 ≤ n) (hhi : n ≤ 9223372036) :
    convertValue T (fuel + 1) (.dict m) = .ok (.time (referenceDate + n * Second)) := by
  rw [convertValue_date T m classMap classRef fuel x hclass hobj hname htime]
  cases x with
  | nan => exact absurd hx (by simp [F64.isInt])
  | inf s => exact absurd hx (by simp [F64.isInt])
  | finite mant e =>
    have ht := truncFinite_isInt mant e n hx
    have hd : durationOfFloat64 (.finite mant e) = n := by
      have : -(2 ^ 63 : Int) ≤ n ∧ n < 2 ^ 63 := by constructor <;> omega
      simp only [durationOfFloat64, ht, this, and_self, if_true]
    rw [hd, wrapInt64_of_range (n * Second) (by unfold Second; omega) (by unfold Second; omega)]

/-- Witness of C10: `NS.time = -86400.0` (`-675 * 2 ^ 7`) gives one day before
the reference date, 2000-12-31T00:00:00 UTC. -/
theorem date_at_whole_seconds_witness :
    convertValue
      [.str "$null",
       .dict [("$classes", .slice [.str "NSDate", .str "NSObject"]), ("$classname", .str "NSDate")],
       .dict [("$class", .uid 1), ("NS.time", .float64 (.finite (-675) 7))]]
      1 (.dict [("$class", .uid 1), ("NS.time", .float64 (.finite (-675) 7))])
      = .ok (.time (referenceDate + (-86400) * Second)) ∧
    referenceDate + (-86400) * Second = 11322 * 86400 * 1000000000 :=
  ⟨date_at_whole_seconds _ [("$class", .uid 1), ("NS.time", .float64 (.finite (-675) 7))]
    [("$classes", .slice [.str "NSDate", .str "NSObject"]), ("$classname", .str "NSDate")]
    1 0 (.finite (-675) 7) (-86400) rfl rfl rfl rfl (by simp [F64.isInt]) (by decide) (by decide),
   by decide⟩

/-! ## The decoder on a larger table and with a larger budget -/

theorem bind_eq_ok {α β : Type} (x : Except Stop α) (g : α → Except Stop β) (v : β) :
    (x >>= g) = .ok v ↔ ∃ a, x = .ok a ∧ g a = .ok v := by
  cases x with
  | error e => simp [bind, Except.bind]
  | ok a => simp [bind, Except.bind]

theorem ok_bind {α β : Type} (a : α) (g : α → Except Stop β) :
    ((Except.ok a : Except Stop α) >>= g) = g a := rfl

theorem index_sub {T T' : List Val} (h : SubTable T T') {i : Nat} {w : Val}
    (hi : index T i = .ok w) : index T' i = .ok w := by
  unfold index at hi ⊢
  cases hg : T[i]? with
  | none => rw [hg] at hi; simp at hi
  | some x =>
    rw [hg] at hi
    simp only [Except.ok.injEq] at hi
    subst hi
    rw [h i x hg]

theorem arrayLoop_mono (conv conv' : Val → Except Stop Val)
    (hc : ∀ x v, conv x = .ok v → conv' x = .ok v) :
    ∀ (values ret out : List Val), arrayLoop conv values ret = .ok out →
      arrayLoop conv' values ret = .ok out
  | [], ret, out, h => by rw [arrayLoop] at h ⊢; exact h
  | x :: values, ret, out, h => by
      rw [arrayLoop] at h ⊢
      obtain ⟨val, h1, h⟩ := (bind_eq_ok _ _ _).mp h
      rw [hc x val h1]
      exact arrayLoop_mono conv conv' hc values _ out h

theorem setLoop_mono (T T' : List Val) (conv conv' : Val → Except Stop Val)
    (hT : SubTable T T') (hc : ∀ x v, conv x = .ok v → conv' x = .ok v) :
    ∀ (values : List Val) (ret out : List (Val × Val)), setLoop T conv values ret = .ok out →
      setLoop T' conv' values ret = .ok out
  | [], ret, out, h => by rw [setLoop] at h ⊢; exact h
  | x :: values, ret, out, h => by
      rw [setLoop] at h ⊢
      obtain ⟨valRef, h1, h⟩ := (bind_eq_ok _ _ _).mp h
      obtain ⟨valObj, h2, h⟩ := (bind_eq_ok _ _ _).mp h
      obtain ⟨val, h3, h⟩ := (bind_eq_ok _ _ _).mp h
      obtain ⟨ret', h4, h⟩ := (bind_eq_ok _ _ _).mp h
      rw [h1]
      simp only [bind, Except.bind]
      rw [index_sub hT h2]
      simp only
      rw [hc _ _ h3]
      simp only
      rw [h4]
      exact setLoop_mono T T' conv conv' hT hc values _ out h

theorem dictLoop_mono (T T' : List Val) (conv conv' : Val → Except Stop Val)
    (hT : SubTable T T') (hc : ∀ x v, conv x = .ok v → conv' x = .ok v) (values : List Val) :
    ∀ (keys : List Val) (i : Nat) (ret out : List (String × Val)),
      dictLoop T conv values keys i ret = .ok out → dictLoop T' conv' values keys i ret = .ok out
  | [], i, ret, out, h => by rw [dictLoop] at h ⊢; exact h
  | k :: keys, i, ret, out, h => by
      rw [dictLoop] at h ⊢
      obtain ⟨keyRef, h1, h⟩ := (bind_eq_ok _ _ _).mp h
      obtain ⟨keyObj, h2, h⟩ := (bind_eq_ok _ _ _).mp h
      obtain ⟨key, h3, h⟩ := (bind_eq_ok _ _ _).mp h
      obtain ⟨v, h4, h⟩ := (bind_eq_ok _ _ _).mp h
      obtain ⟨valRef, h5, h⟩ := (bind_eq_ok _ _ _).mp h
      obtain ⟨valObj, h6, h⟩ := (bind_eq_ok _ _ _).mp h
      obtain ⟨val, h7, h⟩ := (bind_eq_ok _ _ _).mp h
      rw [h1]
      simp only [bind, Except.bind]
      rw [index_sub hT h2]
      simp only
      rw [h3]
      simp only
      rw [h4]
      simp only
      rw [h5]
      simp only
      rw [index_sub hT h6]
      simp only
      rw [hc _ _ h7]
      exact dictLoop_mono T T' conv conv' hT hc values keys _ _ out h

/-- A value the decoder returns is returned again over a table that extends
the first one and with a budget at least as large. -/
theorem convertValue_mono (T T' : List Val) (hT : SubTable T T') :
    ∀ (fuel fuel' : Nat) (x v : Val), fuel ≤ fuel' → convertValue T fuel x = .ok v →
      convertValue T' fuel' x = .ok v := by
  intro fuel
  induction fuel with
  | zero => intro fuel' x v _ h; simp [convertValue] at h
  | succ f ih =>
    intro fuel' x v hle h
    obtain ⟨g, rfl⟩ : ∃ g, fuel' = g + 1 := ⟨fuel' - 1, by omega⟩
    have hc : ∀ x v, convertValue T f x = .ok v → convertValue T' g x = .ok v :=
      fun x v hx => ih g x v (by omega) hx
    cases x with
    | dict m =>
      rw [convertValue] at h ⊢
      obtain ⟨classRef, h1, h⟩ := (bind_eq_ok _ _ _).mp h
      obtain ⟨classObj, h2, h⟩ := (bind_eq_ok _ _ _).mp h
      obtain ⟨classMap, h3, h⟩ := (bind_eq_ok _ _ _).mp h
      rw [h1, ok_bind, index_sub hT h2, ok_bind, h3, ok_bind]
      dsimp only at h ⊢
      split_ifs at h ⊢
      · obtain ⟨keys, hk, h⟩ := (bind_eq_ok _ _ _).mp h
        obtain ⟨values, hv, h⟩ := (bind_eq_ok _ _ _).mp h
        obtain ⟨ret, hl, h⟩ := (bind_eq_ok _ _ _).mp h
        rw [hk, ok_bind, hv, ok_bind, dictLoop_mono T T' _ _ hT hc values keys 0 [] ret hl, ok_bind]
        exact h
      · obtain ⟨values, hv, h⟩ := (bind_eq_ok _ _ _).mp h
        obtain ⟨ret, hl, h⟩ := (bind_eq_ok _ _ _).mp h
        rw [hv, ok_bind, setLoop_mono T T' _ _ hT hc values [] ret hl, ok_bind]
        exact h
      · obtain ⟨values, hv, h⟩ := (bind_eq_ok _ _ _).mp h
        obtain ⟨ret, hl, h⟩ := (bind_eq_ok _ _ _).mp h
        rw [hv, ok_bind, arrayLoop_mono _ _ hc values [] ret hl, ok_bind]
        exact h
      · exact h
      · exact h
      · obtain ⟨code, h4, h⟩ := (bind_eq_ok _ _ _).mp h
        obtain ⟨domainRef, h5, h⟩ := (bind_eq_ok _ _ _).mp h
        obtain ⟨domainObj, h6, h⟩ := (bind_eq_ok _ _ _).mp h
        obtain ⟨domain, h7, h⟩ := (bind_eq_ok _ _ _).mp h
        obtain ⟨infoRef, h8, h⟩ := (bind_eq_ok _ _ _).mp h
        obtain ⟨infoObj, h9, h⟩ := (bind_eq_ok _ _ _).mp h
        obtain ⟨info, h10, h⟩ := (bind_eq_ok _ _ _).mp h
        rw [h4, ok_bind, h5, ok_bind, index_sub hT h6, ok_bind, h7, ok_bind, h8, ok_bind,
          index_sub hT h9, ok_bind, hc _ _ h10, ok_bind]
        exact h
      · obtain ⟨payload, h4, h⟩ := (bind_eq_ok _ _ _).mp h
        rw [hc _ _ h4, ok_bind]
        exact h
      · exact h
    | uid r =>
      rw [convertValue] at h ⊢
      obtain ⟨obj, h1, h⟩ := (bind_eq_ok _ _ _).mp h
      rw [index_sub hT h1]
      exact hc _ _ h
    | _ => 
      simp only [convertValue] at h ⊢ 
      exact h

/-! ## Round trip -/

theorem SubTable_append (T E : List Val) : SubTable T (T ++ E) :=
  fun i w h => getElem?_append_some T E i w h

theorem SubTable_wire (l l' : List Val) (h : ∃ ext, l' = l ++ ext) :
    SubTable (wireTable l) (wireTable l') := by
  obtain ⟨ext, rfl⟩ := h
  unfold wireTable
  rw [List.map_append]
  exact SubTable_append _ _

theorem DecodesTo_mono {T T' : List Val} (hT : SubTable T T') {f f' r : Nat} {v : Val}
    (hf : f ≤ f') (h : DecodesTo T f r v) : DecodesTo T' f' r v := by
  obtain ⟨w, hw, hc⟩ := h
  exact ⟨w, hT r w hw, convertValue_mono T T' hT f f' w v hf hc⟩

theorem DictRel_mono {T T' : List Val} (hT : SubTable T T') {f f' : Nat} (hf : f ≤ f')
    {ks rs : List Nat} {kvs : List (String × Val)} (h : DictRel T f ks rs kvs) :
    DictRel T' f' ks rs kvs := by
  induction h with
  | nil => exact DictRel.nil
  | cons k r key v ks rs kvs hk hd _ ih =>
    exact DictRel.cons k r key v ks rs kvs (hT k _ hk) (DecodesTo_mono hT hf hd) ih

theorem wireTable_get (l : List Val) (r : Nat) (w : Val) (h : l[r]? = some w) :
    (wireTable l)[r]? = some (plistValue (flushValue w)) := by
  unfold wireTable
  rw [List.getElem?_map, h]
  rfl

theorem index_of_get {T : List Val} {i : Nat} {w : Val} (h : T[i]? = some w) :
    index T i = .ok w := by
  unfold index
  rw [h]

theorem asUID_uid (n : Nat) : asUID (.uid n) = .ok n := rfl

theorem asString_str (s : String) : asString (.str s) = .ok s := rfl

/-- The array loop over references that are decoded to `xs` appends `xs`. -/
theorem arrayLoop_decodes (T : List Val) (f : Nat) :
    ∀ (rs : List Nat) (xs ret : List Val), List.Forall₂ (DecodesTo T f) rs xs →
      arrayLoop (convertValue T (f + 1)) (rs.map Val.uid) ret = .ok (ret ++ xs)
  | [], xs, ret, h => by
      cases h
      simp [arrayLoop]
  | r :: rs, xs, ret, h => by
      cases h with
      | cons hd htl =>
        rename_i x xs'
        obtain ⟨w, hw, hc⟩ := hd
        rw [List.map_cons, arrayLoop, convertValue_uid T f r w hw, hc, ok_bind,
          arrayLoop_decodes T f rs xs' _ htl]
        simp

theorem dictSet_new (ret : List (String × Val)) (key : String) (v : Val)
    (h : key ∉ ret.map Prod.fst) : dictSet ret key v = ret ++ [(key, v)] := by
  unfold dictSet
  have : ret.any (fun e => e.1 == key) = false := by
    rw [Bool.eq_false_iff]
    intro hc
    rw [List.any_eq_true] at hc
    obtain ⟨e, he, hk⟩ := hc
    simp only [beq_iff_eq] at hk
    exact h (List.mem_map.mpr ⟨e, he, hk⟩)
  simp [this]

/-- The dictionary loop over references that are decoded to the entries `kvs`,
whose keys are new and distinct, appends `kvs`. -/
theorem dictLoop_decodes (T : List Val) (f : Nat) :
    ∀ (ks rs : List Nat) (kvs : List (String × Val)), DictRel T f ks rs kvs →
      ∀ (pre : List Val) (ret : List (String × Val)),
        (ret.map Prod.fst ++ kvs.map Prod.fst).Nodup →
        dictLoop T (convertValue T f) (pre ++ rs.map Val.uid) (ks.map Val.uid) pre.length ret =
          .ok (ret ++ kvs) := by
  intro ks rs kvs h
  induction h with
  | nil => intro pre ret _; simp [dictLoop]
  | cons k r key v ks rs kvs hk hd _ ih =>
    intro pre ret hn
    obtain ⟨w, hw, hc⟩ := hd
    have hkey : key ∉ ret.map Prod.fst := by
      intro hmem
      rw [List.nodup_append] at hn
      exact hn.2.2 hmem (by simp)
    have hidx : index (pre ++ (Val.uid r :: rs.map Val.uid)) pre.length = .ok (.uid r) := by
      apply index_of_get
      rw [List.getElem?_append_right (Nat.le_refl _)]
      simp
    rw [List.map_cons, List.map_cons, dictLoop]
    simp only [asUID_uid, ok_bind, index_of_get hk, asString_str, hidx, index_of_get hw, hc]
    rw [dictSet_new ret key v hkey]
    have hpre : pre ++ Val.uid r :: List.map Val.uid rs = (pre ++ [Val.uid r]) ++ List.map Val.uid rs := by
      simp
    have := ih (pre ++ [Val.uid r]) (ret ++ [(key, v)]) (by
      simpa [List.map_append, List.append_assoc] using hn)
    rw [hpre]
    simp only [List.length_append, List.length_singleton] at this
    rw [this]
    simp

theorem SubTable_refl (T : List Val) : SubTable T T := fun _ _ h => h

theorem convertValue_scalar (T : List Val) (v : Val) (h : isScalar v = true) :
    convertValue T 1 v = .ok v := by
  cases v <;> simp [isScalar] at h <;> simp [convertValue, pure, Except.pure]

theorem plistValue_scalar (v : Val) (h : isScalar v = true) : plistValue (flushValue v) = v := by
  cases v <;> simp [isScalar] at h <;> rfl

theorem roundtrip_scalar (v : Val) (hs : isScalar v = true) (st : NSKeyedArchiver) (hinv : Inv st) :
    ∃ r st', idAny st v = .ok (r, st') ∧ ∃ f, DecodesTo (wireTable st'.objRefVal) f r v := by
  refine ⟨(st.id v).1, (st.id v).2, idAny_scalar st v hs, 1, v, ?_, convertValue_scalar _ v hs⟩
  have hg := id_get st v hinv (fun w hw => goEq_exact_scalar w v hs hw)
  rw [wireTable_get _ _ _ hg, plistValue_scalar v hs]

theorem getElem?_length_append (l : List Val) (x : Val) : (l ++ [x])[l.length]? = some x := by
  rw [List.getElem?_append_right (Nat.le_refl _)]
  simp

/-- An array node is decoded to the values its references are decoded to, over
a table that holds the array descriptor at the node's class reference. -/
theorem decode_array_node (T : List Val) (cls f : Nat) (rs : List Nat) (xs : List Val)
    (hobj : T[cls]? = some (plistValue (.classes NSArrayClass)))
    (hF : List.Forall₂ (DecodesTo T f) rs xs) :
    convertValue T (f + 2) (plistValue (.node (.NSArray cls rs))) = .ok (.slice xs) := by
  rw [show plistValue (.node (.NSArray cls rs)) =
      .dict [("$class", .uid cls), ("NS.objects", .slice (rs.map Val.uid))] from rfl,
    convertValue_array T [("$class", .uid cls), ("NS.objects", .slice (rs.map Val.uid))]
      [("$classes", .slice (NSArrayClass.Classes.map .str)), ("$classname", .str "NSArray")]
      cls (f + 1) (rs.map Val.uid) rfl hobj (Or.inl rfl) rfl,
    arrayLoop_decodes T f rs xs [] hF]
  simp

/-- A dictionary node is decoded to the entries its references are decoded to,
over a table that holds the dictionary descriptor at the node's class
reference. -/
theorem decode_dictionary_node (T : List Val) (cls f : Nat) (ks rs : List Nat)
    (kvs : List (String × Val))
    (hobj : T[cls]? = some (plistValue (.classes NSDictionaryClass)))
    (hD : DictRel T f ks rs kvs) (hnodup : (kvs.map Prod.fst).Nodup) :
    convertValue T (f + 1) (plistValue (.node (.NSDictionary cls rs ks))) = .ok (.dict kvs) := by
  have hloop := dictLoop_decodes T f ks rs kvs hD [] [] (by simpa using hnodup)
  simp only [List.nil_append, List.length_nil] at hloop
  rw [show plistValue (.node (.NSDictionary cls rs ks)) =
      .dict [("$class", .uid cls), ("NS.objects", .slice (rs.map Val.uid)),
             ("NS.keys", .slice (ks.map Val.uid))] from rfl,
    convertValue_dictionary T
      [("$class", .uid cls), ("NS.objects", .slice (rs.map Val.uid)),
       ("NS.keys", .slice (ks.map Val.uid))]
      [("$classes", .slice (NSDictionaryClass.Classes.map .str)),
       ("$classname", .str "NSDictionary")]
      cls f (ks.map Val.uid) (rs.map Val.uid) rfl hobj (Or.inl rfl) rfl rfl, hloop]

mutual
/-- Encoding an encodable value gives a reference that is decoded to it. -/
theorem roundtrip_any :
    ∀ (v : Val) (st : NSKeyedArchiver), Inv st → Encodable v →
      ∃ r st', idAny st v = .ok (r, st') ∧ ∃ f, DecodesTo (wireTable st'.objRefVal) f r v
  | .str s, st, hinv, _ => roundtrip_scalar (.str s) rfl st hinv
  | .int k n, st, hinv, _ => roundtrip_scalar (.int k n) rfl st hinv
  | .bool b, st, hinv, _ => roundtrip_scalar (.bool b) rfl st hinv
  | .slice xs, st, hinv, he => by
      have hxs : ∀ x ∈ xs, Encodable x := by cases he; assumption
      have hinv1 : Inv (st.id (.classPtr .NSArray)).2 := id_Inv st _ hinv
      have hcls := id_get st (.classPtr .NSArray) hinv (fun w hw => goEq_exact_classPtr w _ hw)
      obtain ⟨rs, s2, hl, f, hF⟩ := roundtrip_values xs _ hinv1 hxs
      have hinv2 : Inv s2 :=
        idArrayValues_preserves Inv (fun st v hq => id_Inv st v hq) xs _ rs s2 hl hinv1
      obtain ⟨ext, hext⟩ := idArrayValues_extends xs _ rs s2 hl
      refine ⟨s2.objRef.length, _, by rw [idAny, hl]; simp only; rw [id_nodePtr], f + 2, ?_⟩
      simp only
      have hsub : SubTable (wireTable s2.objRefVal)
          (wireTable (s2.objRefVal ++ [.nodePtr (.NSArray (st.id (.classPtr .NSArray)).1 rs)])) :=
        SubTable_wire _ _ ⟨_, rfl⟩
      refine ⟨_, wireTable_get _ _ _ (by rw [Inv_length s2 hinv2]; exact getElem?_length_append _ _), ?_⟩
      have hobj : (wireTable (s2.objRefVal ++
          [.nodePtr (.NSArray (st.id (.classPtr .NSArray)).1 rs)]))[(st.id (.classPtr .NSArray)).1]?
          = some (plistValue (flushValue (.classPtr .NSArray))) := by
        apply wireTable_get
        apply getElem?_append_some
        rw [hext]
        exact getElem?_append_some _ _ _ _ hcls
      exact decode_array_node _ _ f rs xs hobj
        (hF.imp (fun _ _ h => DecodesTo_mono hsub (Nat.le_refl _) h))
  | .dict kvs, st, hinv, he => by
      have hkvs : ∀ e ∈ kvs, Encodable e.2 := by cases he; assumption
      have hnodup : (kvs.map Prod.fst).Nodup := by cases he; assumption
      have hinv1 : Inv (st.id (.classPtr .NSDictionary)).2 := id_Inv st _ hinv
      have hcls := id_get st (.classPtr .NSDictionary) hinv (fun w hw => goEq_exact_classPtr w _ hw)
      obtain ⟨ks, rs, s2, hl, f, hD⟩ := roundtrip_entries kvs _ hinv1 hkvs
      have hinv2 : Inv s2 :=
        idDictionaryEntries_preserves Inv (fun st v hq => id_Inv st v hq) kvs _ ks rs s2 hl hinv1
      obtain ⟨ext, hext⟩ := idDictionaryEntries_extends kvs _ ks rs s2 hl
      refine ⟨s2.objRef.length, _, by rw [idAny, hl]; simp only; rw [id_nodePtr], f + 1, ?_⟩
      simp only
      have hsub : SubTable (wireTable s2.objRefVal)
          (wireTable (s2.objRefVal ++
            [.nodePtr (.NSDictionary (st.id (.classPtr .NSDictionary)).1 rs ks)])) :=
        SubTable_wire _ _ ⟨_, rfl⟩
      refine ⟨_, wireTable_get _ _ _ (by rw [Inv_length s2 hinv2]; exact getElem?_length_append _ _), ?_⟩
      have hobj : (wireTable (s2.objRefVal ++
          [.nodePtr (.NSDictionary (st.id (.classPtr .NSDictionary)).1 rs ks)]))[
            (st.id (.classPtr .NSDictionary)).1]?
          = some (plistValue (flushValue (.classPtr .NSDictionary))) := by
        apply wireTable_get
        apply getElem?_append_some
        rw [hext]
        exact getElem?_append_some _ _ _ _ hcls
      exact decode_dictionary_node _ _ f ks rs kvs hobj (DictRel_mono hsub (Nat.le_refl _) hD)
        hnodup
  | .nil, _, _, he => nomatch he
  | .float64 _, _, _, he => nomatch he
  | .uid _, _, _, he => nomatch he
  | .bytes _, _, _, he => nomatch he
  | .anyMap _, _, _, he => nomatch he
  | .time _, _, _, he => nomatch he
  | .struct _, _, _, he => nomatch he
  | .classPtr _, _, _, he => nomatch he
  | .nodePtr _, _, _, he => nomatch he
  | .classes _, _, _, he => nomatch he
  | .node _, _, _, he => nomatch he
  | .goNSError _ _ _, _, _, he => nomatch he
  | .tapMessage _, _, _, he => nomatch he
theorem roundtrip_values :
    ∀ (xs : List Val) (st : NSKeyedArchiver), Inv st → (∀ x ∈ xs, Encodable x) →
      ∃ rs st', idArrayValues st xs = .ok (rs, st') ∧
        ∃ f, List.Forall₂ (DecodesTo (wireTable st'.objRefVal) f) rs xs
  | [], st, _, _ => ⟨[], st, by rw [idArrayValues], 0, List.Forall₂.nil⟩
  | x :: xs, st, hinv, hxs => by
      obtain ⟨r, s, hx, f1, hd⟩ := roundtrip_any x st hinv (hxs x (List.mem_cons_self _ _))
      have hinvs := idAny_Inv x st r s hx hinv
      obtain ⟨rs, s', hl, f2, hF⟩ :=
        roundtrip_values xs s hinvs (fun y hy => hxs y (List.mem_cons_of_mem _ hy))
      refine ⟨r :: rs, s', by rw [idArrayValues, hx]; simp only; rw [hl], max f1 f2, ?_⟩
      exact List.Forall₂.cons
        (DecodesTo_mono (SubTable_wire _ _ (idArrayValues_extends xs s rs s' hl))
          (Nat.le_max_left _ _) hd)
        (hF.imp (fun _ _ h => DecodesTo_mono (SubTable_refl _) (Nat.le_max_right _ _) h))
theorem roundtrip_entries :
    ∀ (kvs : List (String × Val)) (st : NSKeyedArchiver), Inv st → (∀ e ∈ kvs, Encodable e.2) →
      ∃ ks rs st', idDictionaryEntries st kvs = .ok (ks, rs, st') ∧
        ∃ f, DictRel (wireTable st'.objRefVal) f ks rs kvs
  | [], st, _, _ => ⟨[], [], st, by rw [idDictionaryEntries], 0, DictRel.nil⟩
  | (k, v) :: kvs, st, hinv, hkvs => by
      have hinv0 : Inv (st.id (.str k)).2 := id_Inv st _ hinv
      have hk0 := id_get st (.str k) hinv (fun w hw => goEq_exact_str w _ hw)
      obtain ⟨r, s, hv, f1, hd⟩ :=
        roundtrip_any v _ hinv0 (hkvs (k, v) (List.mem_cons_self _ _))
      have hinvs := idAny_Inv v _ r s hv hinv0
      obtain ⟨e1, he1⟩ := idAny_extends v _ r s hv
      obtain ⟨ks, rs, s', hl, f2, hD⟩ :=
        roundtrip_entries kvs s hinvs (fun e he => hkvs e (List.mem_cons_of_mem _ he))
      obtain ⟨e2, he2⟩ := idDictionaryEntries_extends kvs s ks rs s' hl
      refine ⟨(st.id (.str k)).1 :: ks, r :: rs, s',
        by rw [idDictionaryEntries, hv]; simp only; rw [hl], max f1 f2, ?_⟩
      refine DictRel.cons _ r k v ks rs kvs ?_
        (DecodesTo_mono (SubTable_wire _ _ ⟨e2, he2⟩) (Nat.le_max_left _ _) hd)
        (DictRel_mono (SubTable_refl _) (Nat.le_max_right _ _) hD)
      have := wireTable_get s'.objRefVal (st.id (.str k)).1 (.str k) (by
        rw [he2]
        apply getElem?_append_some
        rw [he1]
        exact getElem?_append_some _ _ _ _ hk0)
      rw [this]
      rfl
end

theorem foldl_snoc_self (l acc : List Val) : l.foldl (fun l v => l ++ [v]) acc = acc ++ l := by
  induction l generalizing acc with
  | nil => simp
  | cons a l ih => simp [ih]

theorem plistTransport_flush (s : NSKeyedArchiver) (uid : Nat) :
    (plistTransport (s.flushToStruct { NewKeyedArchiver with Top := { Root := uid } })).Objects
      = wireTable s.objRefVal := by
  simp [plistTransport, flushToStruct_Objects, NewKeyedArchiver, wireTable, List.map_map,
    Function.comp_def]

/-- When `idAny` returns a reference that is decoded to `v`, `Unmarshal` over
the transported archive root of `Marshal` returns `v`. -/
theorem roundtrip_of_decodes (v : Val) (r : Nat) (s : NSKeyedArchiver) (f : Nat)
    (hid : idAny (NewNSKeyedArchiver.id (.str NSNull)).2 v = .ok (r, s))
    (hd : DecodesTo (wireTable s.objRefVal) f r v) :
    ∃ root, Marshal NewNSKeyedArchiver v = .ok (root, { objRefVal := [], objRef := [] }) ∧
      ∀ fuel, f ≤ fuel →
        Unmarshal fuel NewNSKeyedArchiver (.ok (plistTransport root)) =
          .ok (.ok v, { objRefVal := [], objRef := [] }) := by
  refine ⟨s.flushToStruct { NewKeyedArchiver with Top := { Root := r } }, ?_, ?_⟩
  · unfold Marshal
    rw [hid]
    rfl
  · intro fuel hf
    obtain ⟨w, hw, hc⟩ := hd
    unfold Unmarshal
    simp only [foldl_snoc_self, plistTransport_flush]
    rw [show NewNSKeyedArchiver.objRefVal = [] from rfl, List.nil_append,
      show (plistTransport (s.flushToStruct { NewKeyedArchiver with Top := { Root := r } })).Top.Root
        = r from rfl, index_of_get hw]
    simp only
    rw [convertValue_mono _ _ (SubTable_refl _) f fuel w v hf hc]
    rfl

theorem lookup_map_int (k : IntKind) (key : String) :
    ∀ m : List (String × Int),
      List.lookup key (m.map (fun e => (e.1, Val.int k e.2))) = (List.lookup key m).map (Val.int k)
  | [] => rfl
  | (a, n) :: m => by
      simp only [List.map_cons, List.lookup]
      cases key == a
      · exact lookup_map_int k key m
      · rfl

/-! ## C1, C2, C3: round trips -/

/-- C1 (round trip of a flat mapping).  For a mapping `m` from strings to
integers without duplicate keys, `Marshal` on a fresh instance builds an
archive root, and `Unmarshal` over that root, transported by the leaf codec,
returns, for every recursion budget from some budget on, a mapping with the
keys of `m` and, at each key, the integer `m` has there. -/
theorem roundtrip_flat_mapping (k : IntKind) (m : List (String × Int))
    (hm : (m.map Prod.fst).Nodup) :
    ∃ root, Marshal NewNSKeyedArchiver (.dict (m.map (fun e => (e.1, Val.int k e.2)))) =
        .ok (root, { objRefVal := [], objRef := [] }) ∧
      ∃ f, ∀ fuel, f ≤ fuel →
        ∃ d, Unmarshal fuel NewNSKeyedArchiver (.ok (plistTransport root)) =
            .ok (.ok (.dict d), { objRefVal := [], objRef := [] }) ∧
          d.map Prod.fst = m.map Prod.fst ∧
          ∀ key : String, List.lookup key d = (List.lookup key m).map (Val.int k) := by
  have henc : Encodable (.dict (m.map (fun e => (e.1, Val.int k e.2)))) := by
    refine Encodable.dict _ (by simpa [List.map_map, Function.comp_def] using hm) ?_
    intro e he
    obtain ⟨a, _, rfl⟩ := List.mem_map.mp he
    exact Encodable.int k a.2
  obtain ⟨r, s, hid, f, hd⟩ :=
    roundtrip_any _ (NewNSKeyedArchiver.id (.str NSNull)).2 (id_Inv _ _ Inv_new) henc
  obtain ⟨root, hmar, hu⟩ := roundtrip_of_decodes _ r s f hid hd
  refine ⟨root, hmar, f, fun fuel hf => ⟨_, hu fuel hf, ?_, fun key => lookup_map_int k key m⟩⟩
  simp [List.map_map, Function.comp_def]

/-- Witness of C1: the mapping `{"a": 1, "b": 2}` of `int`. -/
theorem roundtrip_flat_mapping_witness :
    ([("a", (1 : Int)), ("b", 2)].map Prod.fst).Nodup ∧
    ∃ root, Marshal NewNSKeyedArchiver (.dict [("a", .int .int 1), ("b", .int .int 2)]) =
        .ok (root, { objRefVal := [], objRef := [] }) ∧
      ∃ f, ∀ fuel, f ≤ fuel →
        ∃ d, Unmarshal fuel NewNSKeyedArchiver (.ok (plistTransport root)) =
            .ok (.ok (.dict d), { objRefVal := [], objRef := [] }) ∧
          d.map Prod.fst = ["a", "b"] ∧
          ∀ key : String, List.lookup key d =
            (List.lookup key [("a", (1 : Int)), ("b", 2)]).map (Val.int .int) :=
  ⟨by decide, roundtrip_flat_mapping .int [("a", 1), ("b", 2)] (by decide)⟩

/-- C2 (round trip of nested values).  For a value built from strings, integers
and booleans by nesting sequences and string-keyed mappings without duplicate
keys, `Marshal` on a fresh instance builds an archive root, and `Unmarshal`
over that root, transported by the leaf codec, returns the value itself for
every recursion budget from some budget on. -/
theorem roundtrip_nested (v : Val) (hv : Encodable v) :
    ∃ root, Marshal NewNSKeyedArchiver v = .ok (root, { objRefVal := [], objRef := [] }) ∧
      ∃ f, ∀ fuel, f ≤ fuel →
        Unmarshal fuel NewNSKeyedArchiver (.ok (plistTransport root)) =
          .ok (.ok v, { objRefVal := [], objRef := [] }) := by
  have hinv : Inv (NewNSKeyedArchiver.id (.str NSNull)).2 := id_Inv _ _ Inv_new
  obtain ⟨r, s, hid, f, hd⟩ := roundtrip_any v (NewNSKeyedArchiver.id (.str NSNull)).2 hinv hv
  obtain ⟨root, hmar, hu⟩ := roundtrip_of_decodes v r s f hid hd
  exact ⟨root, hmar, f, hu⟩

/-- The value `{"code": 1, "domain": "com.example", "info": [1, 2, 3]}`. -/
theorem Encodable_example :
    Encodable (.dict [("code", .int .int 1), ("domain", .str "com.example"),
      ("info", .slice [.int .int 1, .int .int 2, .int .int 3])]) := by
  refine Encodable.dict _ (by decide) ?_
  intro e he
  simp only [List.mem_cons, List.mem_singleton, List.not_mem_nil, or_false] at he
  rcases he with rfl | rfl | rfl
  · exact Encodable.int _ _
  · exact Encodable.str _
  · refine Encodable.slice _ ?_
    intro x hx
    simp only [List.mem_cons, List.mem_singleton, List.not_mem_nil, or_false] at hx
    rcases hx with rfl | rfl | rfl <;> exact Encodable.int _ _

/-- Witness of C2: the value `{"code": 1, "domain": "com.example", "info": [1, 2, 3]}`. -/
theorem roundtrip_nested_witness :
    Encodable (.dict [("code", .int .int 1), ("domain", .str "com.example"),
      ("info", .slice [.int .int 1, .int .int 2, .int .int 3])]) ∧
    ∃ root, Marshal NewNSKeyedArchiver (.dict [("code", .int .int 1), ("domain", .str "com.example"),
        ("info", .slice [.int .int 1, .int .int 2, .int .int 3])]) =
        .ok (root, { objRefVal := [], objRef := [] }) ∧
      ∃ f, ∀ fuel, f ≤ fuel →
        Unmarshal fuel NewNSKeyedArchiver (.ok (plistTransport root)) =
          .ok (.ok (.dict [("code", .int .int 1), ("domain", .str "com.example"),
            ("info", .slice [.int .int 1, .int .int 2, .int .int 3])]),
            { objRefVal := [], objRef := [] }) :=
  ⟨Encodable_example, roundtrip_nested _ Encodable_example⟩

theorem copyBytes_eq (bs : List (Fin 256)) : copyBytes bs = bs := by
  unfold copyBytes
  have h : ∀ b : Fin 256, (Fin.ofNat b.val : Fin 256) = b := by
    intro b
    apply Fin.ext
    simp [Fin.ofNat, Nat.mod_eq_of_lt b.isLt]
  simp only [h]
  have := foldl_snoc (fun b : Fin 256 => b) bs []
  simpa using this

/-- C3 (byte-buffer fidelity).  For every byte sequence `b`, the empty one
included, `Marshal` on a fresh instance builds the table `$null`, the `NSData`
descriptor, and an `NSData` node whose class reference is the index of that
descriptor and whose `NS.data` is `b`; `Unmarshal` over that root, transported
by the leaf codec, returns exactly `b`. -/
theorem byte_buffer_fidelity (b : List (Fin 256)) :
    Marshal NewNSKeyedArchiver (.bytes b) =
      .ok (bytesArchive b, { objRefVal := [], objRef := [] }) ∧
    (bytesArchive b).Objects[(bytesArchive b).Top.Root]? = some (.node (.NSData 1 b)) ∧
    (bytesArchive b).Objects[1]? = some (.classes NSDataClass) ∧
    ∀ fuel, 1 ≤ fuel →
      Unmarshal fuel NewNSKeyedArchiver (.ok (plistTransport (bytesArchive b))) =
        .ok (.ok (.bytes b), { objRefVal := [], objRef := [] }) := by
  refine ⟨?_, rfl, rfl, ?_⟩
  · simp only [Marshal, idAny, copyBytes_eq]
    rfl
  · intro fuel hf
    obtain ⟨g, rfl⟩ : ∃ g, fuel = g + 1 := ⟨fuel - 1, by omega⟩
    unfold Unmarshal
    simp only [foldl_snoc_self]
    have hc := convertValue_data (plistTransport (bytesArchive b)).Objects
      [("$class", .uid 1), ("NS.data", .bytes b)]
      [("$classes", .slice (NSDataClass.Classes.map .str)), ("$classname", .str "NSData")]
      1 g b rfl rfl rfl rfl
    rw [show index (NewNSKeyedArchiver.objRefVal ++ (plistTransport (bytesArchive b)).Objects)
        (plistTransport (bytesArchive b)).Top.Root
        = .ok (.dict [("$class", .uid 1), ("NS.data", .bytes b)]) from rfl]
    simp only
    rw [show NewNSKeyedArchiver.objRefVal ++ (plistTransport (bytesArchive b)).Objects
        = (plistTransport (bytesArchive b)).Objects from rfl, hc]
    rfl

/-! ## C12: no state is kept between calls -/

/-- C12 (no state leaks between calls).  When a call of `Marshal` returns, the
map and the value list of the instance are both empty, and encoding any value
on that instance gives what encoding it on a fresh instance gives: the same
archive root, object table and `top.root` included. -/
theorem no_state_between_calls (this : NSKeyedArchiver) (u : Val) (root : KeyedArchiver)
    (st : NSKeyedArchiver) (h : Marshal this u = .ok (root, st)) :
    st.objRef = [] ∧ st.objRefVal = [] ∧
    ∀ v : Val, Marshal st v = Marshal NewNSKeyedArchiver v := by
  obtain ⟨_, _, _, _, _, hst⟩ := Marshal_ok this u root st h
  subst hst
  exact ⟨rfl, rfl, fun _ => rfl⟩

/-- Witness of C12: the instance that has encoded `[7]` encodes `"x"` as a
fresh instance does. -/
theorem no_state_between_calls_witness :
    Marshal NewNSKeyedArchiver (.slice [.int .int 7]) =
      .ok ({ Archiver := "NSKeyedArchiver",
             Objects := [.str "$null", .classes NSArrayClass, .int .int 7, .node (.NSArray 1 [2])],
             Top := { Root := 3 }, Version := 100000 }, { objRefVal := [], objRef := [] }) ∧
    Marshal { objRefVal := [], objRef := [] } (.str "x") = Marshal NewNSKeyedArchiver (.str "x") :=
  ⟨rfl, (no_state_between_calls NewNSKeyedArchiver (.slice [.int .int 7]) _ _ rfl).2.2 (.str "x")⟩

/-! ## C20: the string `$null` -/

theorem HasNull_id (st : NSKeyedArchiver) (v : Val) (hq : HasNull st) : HasNull (st.id v).2 := by
  refine ⟨id_Inv st v hq.1, ?_⟩
  obtain ⟨ext, hext⟩ := id_extends st v
  rw [hext]
  exact getElem?_append_some _ _ _ _ hq.2

theorem HasNull_start : HasNull (NewNSKeyedArchiver.id (.str NSNull)).2 :=
  ⟨id_Inv _ _ Inv_new, rfl⟩

/-- With the null sentinel at index 0, the string `$null` is found in the map
at reference 0. -/
theorem idAny_null_string (st : NSKeyedArchiver) (hq : HasNull st) :
    idAny st (.str "$null") = .ok (0, st) := by
  rw [idAny]
  have h0 := hq.1 0
  rw [hq.2] at h0
  simp only [Option.map_some'] at h0
  cases hl : st.objRef with
  | nil => rw [hl] at h0; simp at h0
  | cons e rest =>
    rw [hl] at h0
    simp only [List.getElem?_cons_zero, Option.some.injEq] at h0
    subst h0
    have hf : st.objRef.find? (fun e => goEq e.1 (.str "$null")) = some (.str "$null", 0) := by
      rw [hl]
      rfl
    rw [id_eq_of_found st _ _ hf]

theorem idArrayValues_null_string (v : Val) (hv : unsupportedKind v = true) (ys : List Val) :
    ∀ (xs : List Val) (st : NSKeyedArchiver), HasNull st →
      idArrayValues st (xs ++ .str "$null" :: ys) = idArrayValues st (xs ++ v :: ys)
  | [], st, hq => by
      simp only [List.nil_append]
      rw [idArrayValues, idArrayValues, idAny_null_string st hq, idAny_unsupported st v hv]
  | x :: xs, st, hq => by
      simp only [List.cons_append]
      rw [idArrayValues, idArrayValues]
      cases hx : idAny st x with
      | error e => rfl
      | ok res =>
        obtain ⟨r, s⟩ := res
        simp only
        rw [idArrayValues_null_string v hv ys xs s
          (idAny_preserves HasNull HasNull_id x st r s hx hq)]

theorem idDictionaryEntries_null_string (v : Val) (hv : unsupportedKind v = true) (k : String)
    (ys : List (String × Val)) :
    ∀ (xs : List (String × Val)) (st : NSKeyedArchiver), HasNull st →
      idDictionaryEntries st (xs ++ (k, .str "$null") :: ys) =
        idDictionaryEntries st (xs ++ (k, v) :: ys)
  | [], st, hq => by
      simp only [List.nil_append]
      rw [idDictionaryEntries, idDictionaryEntries, idAny_null_string _ (HasNull_id st _ hq),
        idAny_unsupported _ v hv]
  | (a, x) :: xs, st, hq => by
      simp only [List.cons_append]
      rw [idDictionaryEntries, idDictionaryEntries]
      cases hx : idAny (st.id (.str a)).2 x with
      | error e => rfl
      | ok res =>
        obtain ⟨r, s⟩ := res
        simp only
        rw [idDictionaryEntries_null_string v hv k ys xs s
          (idAny_preserves HasNull HasNull_id x _ r s hx (HasNull_id st _ hq))]

/-- C20 (the string `$null` is conflated with the null sentinel).  On an
interner that holds the null sentinel at index 0, as it does throughout
`Marshal` on a fresh instance, encoding the string `$null` adds no entry and
yields reference 0, which is what `idAny` yields for a value of a kind it has no
case for.  So the archive root built for the string `$null`, at the top level
or inside a sequence or a mapping, is the archive root built with a value of
an unsupported kind in its place, and decoding reference 0 returns the string
`$null`. -/
theorem null_string_is_the_sentinel (v : Val) (hv : unsupportedKind v = true) :
    (∀ st : NSKeyedArchiver, HasNull st →
      idAny st (.str "$null") = .ok (0, st) ∧ idAny st v = .ok (0, st)) ∧
    Marshal NewNSKeyedArchiver (.str "$null") =
      .ok ({ Archiver := "NSKeyedArchiver", Objects := [.str "$null"],
             Top := { Root := 0 }, Version := 100000 }, { objRefVal := [], objRef := [] }) ∧
    Marshal NewNSKeyedArchiver (.str "$null") = Marshal NewNSKeyedArchiver v ∧
    (∀ xs ys : List Val,
      Marshal NewNSKeyedArchiver (.slice (xs ++ .str "$null" :: ys)) =
        Marshal NewNSKeyedArchiver (.slice (xs ++ v :: ys))) ∧
    (∀ (xs ys : List (String × Val)) (k : String),
      Marshal NewNSKeyedArchiver (.dict (xs ++ (k, .str "$null") :: ys)) =
        Marshal NewNSKeyedArchiver (.dict (xs ++ (k, v) :: ys))) ∧
    (∀ (T : List Val) (fuel : Nat), T[0]? = some (.str "$null") →
      convertValue T (fuel + 2) (.uid 0) = .ok (.str "$null")) := by
  refine ⟨fun st hq => ⟨idAny_null_string st hq, idAny_unsupported st v hv⟩, rfl, ?_, ?_, ?_, ?_⟩
  · simp only [Marshal, idAny_unsupported _ v hv]
    rfl
  · intro xs ys
    simp only [Marshal, idAny]
    rw [idArrayValues_null_string v hv ys xs _ (HasNull_id _ _ HasNull_start)]
  · intro xs ys k
    simp only [Marshal, idAny]
    rw [idDictionaryEntries_null_string v hv k ys xs _ (HasNull_id _ _ HasNull_start)]
  · intro T fuel h0
    rw [convertValue_uid T (fuel + 1) 0 _ h0]
    simp [convertValue, pure, Except.pure]

/-- Witness of C20: the string `$null` and the `float64` 1.5 inside a sequence
give the same archive root, and decoding it returns `["$null"]`. -/
theorem null_string_is_the_sentinel_witness :
    unsupportedKind (.float64 (.finite 3 (-1))) = true ∧
    Marshal NewNSKeyedArchiver (.slice [.str "$null"]) =
      Marshal NewNSKeyedArchiver (.slice [.float64 (.finite 3 (-1))]) ∧
    Marshal NewNSKeyedArchiver (.slice [.float64 (.finite 3 (-1))]) =
      .ok ({ Archiver := "NSKeyedArchiver",
             Objects := [.str "$null", .classes NSArrayClass, .node (.NSArray 1 [0])],
             Top := { Root := 2 }, Version := 100000 }, { objRefVal := [], objRef := [] }) ∧
    Unmarshal 3 NewNSKeyedArchiver (.ok (plistTransport
        { Archiver := "NSKeyedArchiver",
          Objects := [.str "$null", .classes NSArrayClass, .node (.NSArray 1 [0])],
          Top := { Root := 2 }, Version := 100000 })) =
      .ok (.ok (.slice [.str "$null"]), { objRefVal := [], objRef := [] }) :=
  ⟨rfl, (null_string_is_the_sentinel (.float64 (.finite 3 (-1))) rfl).2.2.2.1 [] [], rfl, rfl⟩

/-! ## C13, C16: the registry entry of the mutable byte buffer -/

/-- C13, the code at the failing input.  The node written in the mutable form
`NSMutableData` is not decoded to its bytes: no case of the `switch` matches
its class name, and the node itself comes back.  The same node in the
immutable form `NSData` is decoded to its bytes.  The case of the byte buffers
lists `NSMutableDataClass.Classes[0]`, which is the string `NSMutableArray`. -/
theorem mutable_data_is_not_decoded :
    Unmarshal 3 NewNSKeyedArchiver (.ok mutableDataArchive) =
      .ok (.ok (.dict [("$class", .uid 1), ("NS.data", .bytes [1, 2, 3])]),
           { objRefVal := [], objRef := [] }) ∧
    Unmarshal 3 NewNSKeyedArchiver (.ok immutableDataArchive) =
      .ok (.ok (.bytes [1, 2, 3]), { objRefVal := [], objRef := [] }) ∧
    NSMutableDataClass.Classes0 = "NSMutableArray" :=
  ⟨rfl, rfl, rfl⟩

/-- C16, the code against the claim.  Two of the twelve registry entries carry
the same class name: the entry of the mutable byte buffer is declared with the
name and the ancestor chain of the mutable array. -/
theorem registry_names_repeat :
    ¬ (registry.map (fun p => p.deref.ClassName)).Nodup ∧
    registry.length = 12 ∧
    ClassPtr.NSMutableData ≠ ClassPtr.NSMutableArray ∧
    NSMutableDataClass.ClassName = NSMutableArrayClass.ClassName ∧
    NSMutableDataClass.Classes = NSMutableArrayClass.Classes ∧
    ((registry.erase .NSMutableData).map (fun p => p.deref.ClassName)).Nodup := by
  refine ⟨by decide, rfl, by decide, rfl, rfl, by decide⟩

/-! ## C19: the fraction of `NS.time` -/

/-- Counterexample to C19 as stated: `NS.time = 63113904000.0` is a whole
number of seconds, but the product with `time.Second` leaves `int64`.  The
decoded instant is the reference date plus 7773671778871345152 nanoseconds: it
is not the reference date plus 63113904000 seconds, and its sub-second part is
871345152 nanoseconds. -/
theorem distant_date_wraps :
    Unmarshal 3 NewNSKeyedArchiver (.ok distantFutureArchive) =
      .ok (.ok (.time (referenceDate + 7773671778871345152)),
           { objRefVal := [], objRef := [] }) ∧
    referenceDate + 7773671778871345152 ≠ referenceDate + 63113904000 * Second ∧
    (referenceDate + 7773671778871345152) % Second = 871345152 := by
  refine ⟨rfl, by decide, by decide⟩

theorem ediv_unique (a d q : Int) (hd : 0 < d) (h1 : q * d ≤ a) (h2 : a < (q + 1) * d) :
    a / d = q := by
  apply le_antisymm
  · have := (Int.ediv_lt_iff_lt_mul hd).mpr h2
    omega
  · exact (Int.le_ediv_iff_mul_le hd).mpr h1

/-- The conversion of the code cuts the fraction off as the spec words it. -/
theorem truncFinite_truncatesTo (m e n : Int) (h : (F64.finite m e).truncatesTo n) :
    truncFinite m e = n := by
  unfold F64.truncatesTo at h
  unfold truncFinite
  by_cases he : 0 ≤ e
  · simp only [he, if_true] at h ⊢
    exact h.symm
  · simp only [he, if_false] at h ⊢
    have hd : (0 : Int) < 2 ^ (-e).toNat := by positivity
    generalize (2 : Int) ^ (-e).toNat = d at h hd
    by_cases hm : 0 ≤ m
    · simp only [hm, if_true] at h
      rw [Int.tdiv_eq_ediv hm (le_of_lt hd)]
      exact ediv_unique m d n hd h.1 h.2
    · simp only [hm, if_false] at h
      have h1 : m = -(-m) := by omega
      rw [h1, Int.neg_tdiv, Int.tdiv_eq_ediv (by omega) (le_of_lt hd)]
      have := ediv_unique (-m) d (-n) hd (by nlinarith) (by nlinarith)
      omega

theorem absLtOne_truncatesTo (x : F64) (h : x.absLtOne) : x.truncatesTo 0 := by
  cases x with
  | nan => exact h
  | inf s => exact h
  | finite m e =>
    unfold F64.absLtOne at h
    unfold F64.truncatesTo
    by_cases he : 0 ≤ e
    · simp only [he, if_true] at h ⊢
      rw [h]; simp
    · simp only [he, if_false] at h ⊢
      by_cases hm : 0 ≤ m
      · simp only [hm, if_true]
        constructor <;> omega
      · simp only [hm, if_false]
        constructor <;> omega

/-- C19, amended.  For a date node whose `NS.time`, rounded toward zero, is a
whole number `n` of seconds with `|n| ≤ 9223372036`, the decoded instant is
the reference date plus `n` seconds: the fraction of `NS.time` is discarded,
the decoded instant has no sub-second part, and an `NS.time` strictly between
-1 and 1 decodes to the reference date itself. -/
theorem date_fraction_cut_off (T : List Val) (m classMap : List (String × Val))
    (classRef fuel : Nat) (x : F64) (n : Int)
    (hclass : mapIndex m "$class" = .uid classRef) (hobj : T[classRef]? = some (.dict classMap))
    (hname : mapIndex classMap "$classname" = .str "NSDate")
    (htime : mapIndex m "NS.time" = .float64 x) (hx : x.truncatesTo n)
    (hlo : -9223372036 ≤ n) (hhi : n ≤ 9223372036) :
    convertValue T (fuel + 1) (.dict m) = .ok (.time (referenceDate + n * Second)) ∧
    (referenceDate + n * Second) % Second = 0 ∧
    (x.absLtOne → convertValue T (fuel + 1) (.dict m) = .ok (.time referenceDate)) := by
  have hmain : ∀ k : Int, x.truncatesTo k → -9223372036 ≤ k → k ≤ 9223372036 →
      convertValue T (fuel + 1) (.dict m) = .ok (.time (referenceDate + k * Second)) := by
    intro k hk hklo hkhi
    rw [convertValue_date T m classMap classRef fuel x hclass hobj hname htime]
    cases x with
    | nan => exact absurd hk (by simp [F64.truncatesTo])
    | inf s => exact absurd hk (by simp [F64.truncatesTo])
    | finite mant e =>
      have ht := truncFinite_truncatesTo mant e k hk
      have hr : -(2 ^ 63 : Int) ≤ k ∧ k < 2 ^ 63 := by constructor <;> omega
      have hd : durationOfFloat64 (.finite mant e) = k := by
        simp only [durationOfFloat64, ht, hr, and_self, if_true]
      rw [hd, wrapInt64_of_range (k * Second) (by unfold Second; omega) (by unfold Second; omega)]
  refine ⟨hmain n hx hlo hhi, ?_, fun h1 => ?_⟩
  · rw [Int.add_mul_emod_self]
    decide
  · have := hmain 0 (absLtOne_truncatesTo x h1) (by omega) (by omega)
    simpa using this

/-- Witness of the amended C19: `NS.time = -0.5` (`-1 * 2 ^ -1`) decodes to the
reference date. -/
theorem date_fraction_cut_off_witness :
    convertValue
      [.str "$null",
       .dict [("$classes", .slice [.str "NSDate", .str "NSObject"]), ("$classname", .str "NSDate")],
       .dict [("$class", .uid 1), ("NS.time", .float64 (.finite (-1) (-1)))]]
      1 (.dict [("$class", .uid 1), ("NS.time", .float64 (.finite (-1) (-1)))])
      = .ok (.time referenceDate) :=
  (date_fraction_cut_off _ [("$class", .uid 1), ("NS.time", .float64 (.finite (-1) (-1)))]
    [("$classes", .slice [.str "NSDate", .str "NSObject"]), ("$classname", .str "NSDate")]
    1 0 (.finite (-1) (-1)) 0 rfl rfl rfl rfl (by simp [F64.truncatesTo]) (by decide)
    (by decide)).2.2 (by simp [F64.absLtOne])

/-! ## C11: sets -/

/-- The set case. -/
theorem convertValue_set (T : List Val) (m classMap : List (String × Val)) (classRef fuel : Nat)
    (values : List Val)
    (hclass : mapIndex m "$class" = .uid classRef) (hobj : T[classRef]? = some (.dict classMap))
    (hname : isSetClass classMap) (hvals : mapIndex m "NS.objects" = .slice values) :
    convertValue T (fuel + 1) (.dict m) =
      match setLoop T (convertValue T fuel) values [] with
      | .ok ret => .ok (.anyMap ret)
      | .error e => .error e := by
  rw [convertValue]
  rcases hname with hn | hn
  all_goals
    simp only [hclass, asUID, index, hobj, asDict, bind, Except.bind, pure, Except.pure,
      hn, hvals, asSlice]
    first
    | rw [show caseOf (.str "NSSet") NSMutableDictionaryClass NSDictionaryClass = false from rfl,
        show caseOf (.str "NSSet") NSMutableSetClass NSSetClass = true from rfl]
    | rw [show caseOf (.str "NSMutableSet") NSMutableDictionaryClass NSDictionaryClass = false
          from rfl,
        show caseOf (.str "NSMutableSet") NSMutableSetClass NSSetClass = true from rfl]
    simp only [Bool.false_eq_true, if_false, if_true]
    cases setLoop T (convertValue T fuel) values [] <;> rfl

theorem hashable_scalar (x : Val) (h : isScalar x = true) : hashable x = true := by
  cases x <;> simp [isScalar] at h <;> rfl

theorem any_goEq_scalar (ret : List (Val × Val)) (x : Val) (hx : isScalar x = true) :
    ret.any (fun e => goEq e.1 x) = true ↔ x ∈ ret.map Prod.fst := by
  rw [List.any_eq_true]
  constructor
  · rintro ⟨e, he, hg⟩
    have := goEq_exact_scalar e.1 x hx hg
    exact List.mem_map.mpr ⟨e, he, this⟩
  · intro h
    obtain ⟨e, he, rfl⟩ := List.mem_map.mp h
    exact ⟨e, he, goEq_refl_scalar e.1 hx⟩

/-- The set loop over references to scalars: the keys stay distinct, and a
value is a key afterwards iff it was one before or a reference points at it. -/
theorem setLoop_scalars (T : List Val) (f : Nat) :
    ∀ (refs : List Nat) (xs : List Val) (ret : List (Val × Val)),
      List.Forall₂ (fun r x => T[r]? = some x ∧ isScalar x = true) refs xs →
      (ret.map Prod.fst).Nodup →
      ∃ out, setLoop T (convertValue T (f + 1)) (refs.map Val.uid) ret = .ok out ∧
        (out.map Prod.fst).Nodup ∧
        (∀ y, y ∈ out.map Prod.fst ↔ y ∈ ret.map Prod.fst ∨ y ∈ xs) ∧
        (∀ e ∈ out, e ∈ ret ∨ e.2 = .struct "struct {}")
  | [], xs, ret, h, hn => by
      cases h
      exact ⟨ret, rfl, hn, by simp, fun e he => Or.inl he⟩
  | r :: refs, xs, ret, h, hn => by
      cases h with
      | cons hd htl =>
        rename_i x xs'
        obtain ⟨hr, hs⟩ := hd
        have hconv : convertValue T (f + 1) x = .ok x :=
          convertValue_mono T T (SubTable_refl T) 1 (f + 1) x x (by omega)
            (convertValue_scalar T x hs)
        rw [List.map_cons, setLoop]
        simp only [asUID_uid, ok_bind, index_of_get hr, hconv]
        unfold setInsert
        simp only [hashable_scalar x hs, if_true]
        by_cases hmem : x ∈ ret.map Prod.fst
        · rw [if_pos ((any_goEq_scalar ret x hs).mpr hmem)]
          simp only [ok_bind]
          obtain ⟨out, ho, hnd, hm, he⟩ := setLoop_scalars T f refs xs' ret htl hn
          refine ⟨out, ho, hnd, ?_, he⟩
          intro y
          rw [hm y]
          simp only [List.mem_cons]
          constructor
          · rintro (h1 | h1)
            · exact Or.inl h1
            · exact Or.inr (Or.inr h1)
          · rintro (h1 | h1 | h1)
            · exact Or.inl h1
            · exact Or.inl (h1 ▸ hmem)
            · exact Or.inr h1
        · rw [if_neg (fun hc => hmem ((any_goEq_scalar ret x hs).mp hc))]
          simp only [ok_bind]
          have hn' : ((ret ++ [(x, Val.struct "struct {}")]).map Prod.fst).Nodup := by
            rw [List.map_append, List.nodup_append]
            refine ⟨hn, by simp, ?_⟩
            intro a ha hb
            simp only [List.map_cons, List.map_nil, List.mem_singleton] at hb
            exact hmem (hb ▸ ha)
          obtain ⟨out, ho, hnd, hm, he⟩ := setLoop_scalars T f refs xs' _ htl hn'
          refine ⟨out, ho, hnd, ?_, ?_⟩
          · intro y
            rw [hm y]
            simp only [List.map_append, List.map_cons, List.map_nil, List.mem_append,
              List.mem_singleton, List.mem_cons, List.not_mem_nil, or_false]
            tauto
          · intro e hmem'
            rcases he e hmem' with h1 | h1
            · simp only [List.mem_append, List.mem_singleton] at h1
              rcases h1 with h1 | h1
              · exact Or.inl h1
              · exact Or.inr (by rw [h1])
            · exact Or.inr h1

theorem nodup_all_eq_length {α : Type} (l : List α) (x : α) (hn : l.Nodup) (hne : l ≠ [])
    (hall : ∀ y ∈ l, y = x) : l.length = 1 := by
  cases l with
  | nil => exact absurd rfl hne
  | cons a l =>
    cases l with
    | nil => rfl
    | cons b l =>
      exfalso
      have ha := hall a (by simp)
      have hb := hall b (by simp)
      rw [List.nodup_cons] at hn
      exact hn.1 (by rw [ha, ← hb]; simp)

/-- C11 (set semantics).  A node of class `NSSet` or `NSMutableSet` whose
references all point at scalars is decoded to the set of those scalars: a value
is a member iff some reference points at it, no member occurs twice, so the
size is the number of distinct values, and references that all point at one
scalar give a set of size 1. -/
theorem set_of_scalars (T : List Val) (m classMap : List (String × Val)) (classRef fuel : Nat)
    (refs : List Nat) (xs : List Val)
    (hclass : mapIndex m "$class" = .uid classRef) (hobj : T[classRef]? = some (.dict classMap))
    (hname : isSetClass classMap) (hvals : mapIndex m "NS.objects" = .slice (refs.map Val.uid))
    (hrefs : List.Forall₂ (fun r x => T[r]? = some x ∧ isScalar x = true) refs xs) :
    ∃ members : List (Val × Val),
      convertValue T (fuel + 2) (.dict m) = .ok (.anyMap members) ∧
      (∀ y, y ∈ members.map Prod.fst ↔ y ∈ xs) ∧
      (members.map Prod.fst).Nodup ∧
      (∀ e ∈ members, e.2 = .struct "struct {}") ∧
      (∀ x, xs ≠ [] → (∀ y ∈ xs, y = x) → members.length = 1) := by
  obtain ⟨out, ho, hnd, hm, he⟩ := setLoop_scalars T fuel refs xs [] hrefs (by simp)
  refine ⟨out, ?_, ?_, hnd, ?_, ?_⟩
  · rw [convertValue_set T m classMap classRef (fuel + 1) _ hclass hobj hname hvals, ho]
  · intro y
    rw [hm y]
    simp
  · intro e hmem
    rcases he e hmem with h1 | h1
    · simp at h1
    · exact h1
  · intro x hne hall
    have hlen := nodup_all_eq_length (out.map Prod.fst) x hnd (by
      intro hc
      obtain ⟨y, hy⟩ := List.exists_mem_of_ne_nil xs hne
      have := (hm y).mpr (Or.inr hy)
      rw [hc] at this
      simp at this) (by
      intro y hy
      rcases (hm y).mp hy with h1 | h1
      · simp at h1
      · exact hall y h1)
    simpa using hlen

/-- Witness of C11: a set node with two references to the string `a`. -/
theorem set_of_scalars_witness :
    ∃ members : List (Val × Val),
      convertValue
        [.str "$null",
         .dict [("$classes", .slice [.str "NSSet", .str "NSObject"]), ("$classname", .str "NSSet")],
         .str "a",
         .dict [("$class", .uid 1), ("NS.objects", .slice [.uid 2, .uid 2])]]
        2 (.dict [("$class", .uid 1), ("NS.objects", .slice [.uid 2, .uid 2])])
        = .ok (.anyMap members) ∧
      members.length = 1 := by
  obtain ⟨members, h1, _, _, _, h5⟩ := set_of_scalars
    [.str "$null",
     .dict [("$classes", .slice [.str "NSSet", .str "NSObject"]), ("$classname", .str "NSSet")],
     .str "a",
     .dict [("$class", .uid 1), ("NS.objects", .slice [.uid 2, .uid 2])]]
    [("$class", .uid 1), ("NS.objects", .slice [.uid 2, .uid 2])]
    [("$classes", .slice [.str "NSSet", .str "NSObject"]), ("$classname", .str "NSSet")]
    1 0 [2, 2] [.str "a", .str "a"] rfl rfl (Or.inl rfl) rfl
    (List.Forall₂.cons ⟨rfl, rfl⟩ (List.Forall₂.cons ⟨rfl, rfl⟩ List.Forall₂.nil))
  exact ⟨members, h1, h5 (.str "a") (by simp) (by simp)⟩

/-! ## C17: what the dispatch reads -/

/-- Counterexample to C17 as stated: two archives with the same `$classes`
list `[NSArray, NSObject]` that differ in `$classname` only are decoded
differently: to the empty sequence under the name `NSArray`, to the raw node
under the name `Foo`. -/
theorem dispatch_reads_classname :
    (arrayNamedArchive "NSArray").Objects[1]? =
      some (.dict [("$classes", .slice [.str "NSArray", .str "NSObject"]),
                   ("$classname", .str "NSArray")]) ∧
    (arrayNamedArchive "Foo").Objects[1]? =
      some (.dict [("$classes", .slice [.str "NSArray", .str "NSObject"]),
                   ("$classname", .str "Foo")]) ∧
    Unmarshal 3 NewNSKeyedArchiver (.ok (arrayNamedArchive "NSArray")) =
      .ok (.ok (.slice []), { objRefVal := [], objRef := [] }) ∧
    Unmarshal 3 NewNSKeyedArchiver (.ok (arrayNamedArchive "Foo")) =
      .ok (.ok (.dict [("$class", .uid 1), ("NS.objects", .slice [])]),
           { objRefVal := [], objRef := [] }) :=
  ⟨rfl, rfl, rfl, rfl⟩

theorem error_bind {α β : Type} (e : Stop) (g : α → Except Stop β) :
    ((Except.error e : Except Stop α) >>= g) = .error e := rfl

section
variable {T T' : List Val} {c : Nat} {cm cm' : List (String × Val)}

theorem DiffersInClasses.index_ne (h : DiffersInClasses T T' c cm cm') {i : Nat} (hi : i ≠ c) :
    index T' i = index T i := by
  unfold index
  rw [h.same i hi]

theorem DiffersInClasses.index_left (h : DiffersInClasses T T' c cm cm') :
    index T c = .ok (.dict cm) := index_of_get h.left

theorem DiffersInClasses.index_right (h : DiffersInClasses T T' c cm cm') :
    index T' c = .ok (.dict cm') := index_of_get h.right

theorem DiffersInClasses.asUID_class (h : DiffersInClasses T T' c cm cm') :
    asUID (mapIndex cm "$class") = .error (.panic .typeAssertion) := by
  have := h.descriptor
  cases hm : mapIndex cm "$class" <;> first | rfl | exact absurd hm (this _)

/-- Decoding a class descriptor as if it were a node stops at its missing
`$class` reference, whatever its `$classes`. -/
theorem DiffersInClasses.descriptor_as_node (h : DiffersInClasses T T' c cm cm') (S : List Val) :
    ∀ fuel : Nat, convertValue S fuel (.dict cm') = convertValue S fuel (.dict cm)
  | 0 => rfl
  | fuel + 1 => by
      rw [convertValue, convertValue, h.agree "$class" (by decide), h.asUID_class]
      rfl

theorem DiffersInClasses.index_bind (h : DiffersInClasses T T' c cm cm') {β : Type}
    (g g' : Val → Except Stop β) (hsame : ∀ o, g' o = g o) (hg : g (.dict cm') = g (.dict cm))
    (r : Nat) : (index T' r >>= g') = (index T r >>= g) := by
  have hfun : g' = g := funext hsame
  subst hfun
  by_cases hr : r = c
  · subst hr
    rw [h.index_left, h.index_right, ok_bind, ok_bind, hg]
  · rw [h.index_ne hr]

theorem DiffersInClasses.dictLoop_eq (h : DiffersInClasses T T' c cm cm')
    (conv : Val → Except Stop Val) (hconv : conv (.dict cm') = conv (.dict cm))
    (values : List Val) :
    ∀ (keys : List Val) (i : Nat) (ret : List (String × Val)),
      dictLoop T' conv values keys i ret = dictLoop T conv values keys i ret
  | [], _, _ => by rw [dictLoop, dictLoop]
  | k :: keys, i, ret => by
      rw [dictLoop, dictLoop]
      cases hk : asUID k with
      | error e => rfl
      | ok keyRef =>
        simp only [ok_bind]
        apply h.index_bind
        · intro o
          cases hs : asString o with
          | error e => rfl
          | ok key =>
            simp only [ok_bind]
            cases hv : index values i with
            | error e => rfl
            | ok v =>
              simp only [ok_bind]
              cases hr : asUID v with
              | error e => rfl
              | ok valRef =>
                simp only [ok_bind]
                apply h.index_bind
                · intro o2
                  cases hc : conv o2 with
                  | error e => rfl
                  | ok val =>
                    simp only [ok_bind]
                    exact h.dictLoop_eq conv hconv values keys (i + 1) _
                · rw [hconv]
        · rfl

theorem DiffersInClasses.setLoop_eq (h : DiffersInClasses T T' c cm cm')
    (conv : Val → Except Stop Val) (hconv : conv (.dict cm') = conv (.dict cm)) :
    ∀ (values : List Val) (ret : List (Val × Val)),
      setLoop T' conv values ret = setLoop T conv values ret
  | [], _ => by rw [setLoop, setLoop]
  | v :: values, ret => by
      rw [setLoop, setLoop]
      cases hr : asUID v with
      | error e => rfl
      | ok valRef =>
        simp only [ok_bind]
        apply h.index_bind
        · intro o
          cases hc : conv o with
          | error e => rfl
          | ok val =>
            simp only [ok_bind]
            cases hi : setInsert ret val with
            | error e => rfl
            | ok ret' =>
              simp only [ok_bind]
              exact h.setLoop_eq conv hconv values ret'
        · rw [hconv]

/-- Over two tables that differ in the `$classes` of one class descriptor only,
the decoder gives the same result on every value. -/
theorem DiffersInClasses.convertValue_eq (h : DiffersInClasses T T' c cm cm') :
    ∀ (fuel : Nat) (v : Val), convertValue T' fuel v = convertValue T fuel v := by
  intro fuel
  induction fuel with
  | zero => intro v; rfl
  | succ f ih =>
    have hfun : convertValue T' f = convertValue T f := funext ih
    have hpair := h.descriptor_as_node T f
    intro v
    cases v with
    | dict m =>
      rw [convertValue, convertValue, hfun]
      cases hu : asUID (mapIndex m "$class") with
      | error e => rfl
      | ok classRef =>
        simp only [ok_bind]
        apply h.index_bind
        · intro o
          cases hd : asDict o with
          | error e => rfl
          | ok classMap =>
            simp only [ok_bind, h.dictLoop_eq _ hpair, h.setLoop_eq _ hpair]
            split_ifs
            · rfl
            · rfl
            · rfl
            · rfl
            · rfl
            · cases hcode : asUint64 (mapIndex m "NSCode") with
              | error e => rfl
              | ok code =>
                simp only [ok_bind]
                cases hdr : asUID (mapIndex m "NSDomain") with
                | error e => rfl
                | ok domainRef =>
                  simp only [ok_bind]
                  apply h.index_bind
                  · intro o1
                    cases hs : asString o1 with
                    | error e => rfl
                    | ok domain =>
                      simp only [ok_bind]
                      cases hir : asUID (mapIndex m "NSUserInfo") with
                      | error e => rfl
                      | ok infoRef =>
                        simp only [ok_bind]
                        exact h.index_bind _ _ (fun _ => rfl) (by rw [hpair]) infoRef
                  · rfl
            · rfl
            · rfl
        · simp only [asDict, ok_bind, h.agree "$classname" (by decide)]
    | uid r =>
      rw [convertValue, convertValue, hfun]
      exact h.index_bind _ _ (fun _ => rfl) hpair r
    | _ => rfl

end

/-- C17, amended.  The dispatch of the decoder reads the `$classname` of the
class descriptor and never its `$classes`: for every two archives that differ
only in the `$classes` list of one class descriptor node, their `$classname`
being the same, decoding gives the same result in both, for every node and
every value, and so does `Unmarshal` from every root. -/
theorem dispatch_on_classname (T T' : List Val) (c : Nat) (cm cm' : List (String × Val))
    (h : DiffersInClasses T T' c cm cm') :
    (∀ (fuel : Nat) (v : Val), convertValue T' fuel v = convertValue T fuel v) ∧
    (∀ (fuel root : Nat) (version : Int) (archiver : String),
      Unmarshal fuel NewNSKeyedArchiver
          (.ok { Archiver := archiver, Objects := T', Top := { Root := root }, Version := version }) =
        Unmarshal fuel NewNSKeyedArchiver
          (.ok { Archiver := archiver, Objects := T, Top := { Root := root }, Version := version })) := by
  refine ⟨h.convertValue_eq, ?_⟩
  intro fuel root version archiver
  unfold Unmarshal
  simp only [foldl_snoc_self]
  rw [show NewNSKeyedArchiver.objRefVal = [] from rfl, List.nil_append, List.nil_append]
  by_cases hr : root = c
  · subst hr
    rw [h.index_left, h.index_right]
    simp only
    rw [h.convertValue_eq fuel, h.descriptor_as_node T fuel]
  · rw [h.index_ne hr]
    cases index T root with
    | error e => rfl
    | ok top =>
      simp only
      rw [h.convertValue_eq fuel]

/-- Witness of the amended C17: the descriptor named `NSArray` with the
`$classes` lists `[NSArray, NSObject]` and `[Foo]`. -/
theorem dispatch_on_classname_witness :
    convertValue
      [.str "$null",
       .dict [("$classes", .slice [.str "Foo"]), ("$classname", .str "NSArray")],
       .dict [("$class", .uid 1), ("NS.objects", .slice [])]]
      2 (.uid 2) =
    convertValue (arrayNamedArchive "NSArray").Objects 2 (.uid 2) :=
  (dispatch_on_classname (arrayNamedArchive "NSArray").Objects
    [.str "$null",
     .dict [("$classes", .slice [.str "Foo"]), ("$classname", .str "NSArray")],
     .dict [("$class", .uid 1), ("NS.objects", .slice [])]]
    1
    [("$classes", .slice [.str "NSArray", .str "NSObject"]), ("$classname", .str "NSArray")]
    [("$classes", .slice [.str "Foo"]), ("$classname", .str "NSArray")]
    { same := fun i hi => by
        match i, hi with
        | 0, _ => rfl
        | 1, hi => exact absurd rfl hi
        | 2, _ => rfl
        | n + 3, _ => rfl
      left := rfl
      right := rfl
      agree := fun k hk => by
        have hk' : (k == "$classes") = false := by simpa using hk
        simp [mapIndex, List.lookup, hk']
      descriptor := fun r hc => by
        have hnil : mapIndex
            [("$classes", Val.slice [.str "NSArray", .str "NSObject"]),
             ("$classname", Val.str "NSArray")] "$class" = .nil := rfl
        rw [hnil] at hc
        cases hc }).1 2 (.uid 2)

/-! ## The shape of the table the encoder builds -/

theorem idAnyMapEntries_extends (kvs : List (Val × Val)) (st : NSKeyedArchiver)
    (ks rs : List Nat) (st' : NSKeyedArchiver)
    (h : idAnyMapEntries st kvs = .ok (ks, rs, st')) :
    ∃ ext, st'.objRefVal = st.objRefVal ++ ext :=
  idAnyMapEntries_preserves (fun s => ∃ ext, s.objRefVal = st.objRefVal ++ ext)
    (fun s w hq => extends_id st.objRefVal s w hq) kvs st ks rs st' h ⟨[], by simp⟩

theorem length_le_of_extends {l l' : List Val} (h : ∃ ext, l' = l ++ ext) :
    l.length ≤ l'.length := by
  obtain ⟨ext, rfl⟩ := h
  simp

theorem getElem?_lt_length {l : List Val} {i : Nat} {w : Val} (h : l[i]? = some w) :
    i < l.length := by
  by_contra hc
  rw [List.getElem?_eq_none (by omega)] at h
  simp at h

/-- The reference `id` returns is an index of the value list. -/
theorem id_lt (st : NSKeyedArchiver) (v : Val) (hinv : Inv st) :
    (st.id v).1 < (st.id v).2.objRefVal.length := by
  cases h : st.objRef.find? (fun e => goEq e.1 v) with
  | some e =>
    rw [id_eq_of_found st v e h]
    obtain ⟨i, hi⟩ := List.getElem?_of_mem (List.mem_of_find?_eq_some h)
    have h1 := hinv i
    rw [hi] at h1
    cases hv : st.objRefVal[i]? with
    | none => rw [hv] at h1; simp at h1
    | some w =>
      rw [hv] at h1
      simp only [Option.map_some', Option.some.injEq] at h1
      subst h1
      exact getElem?_lt_length hv
  | none =>
    rw [id_eq_of_notFound st v h]
    simp [Inv_length st hinv]

theorem Tbl_append_leaf (G : Val → Prop) (l : List Val) (w : Val) (h : Tbl G l) (hw : G w)
    (hn : isNodePtr w = false) : Tbl G (l ++ [w]) := by
  intro i x hx
  rcases Nat.lt_trichotomy i l.length with hi | hi | hi
  · rw [List.getElem?_append_left hi] at hx
    obtain ⟨h1, h2⟩ := h i x hx
    exact ⟨fun n hxn => ⟨(h1 n hxn).1, getElem?_append_some _ _ _ _ (h1 n hxn).2⟩, h2⟩
  · subst hi
    rw [getElem?_length_append] at hx
    simp only [Option.some.injEq] at hx
    subst hx
    exact ⟨fun n hxn => by rw [hxn] at hn; simp [isNodePtr] at hn, fun _ => hw⟩
  · rw [List.getElem?_eq_none (by simp; omega)] at hx
    simp at hx

theorem Tbl_append_node (G : Val → Prop) (l : List Val) (n : Node) (h : Tbl G l)
    (hrefs : ∀ r ∈ n.refs, r < l.length)
    (hcls : l[n.classRef]? = some (.classPtr n.registryPtr)) : Tbl G (l ++ [.nodePtr n]) := by
  intro i x hx
  rcases Nat.lt_trichotomy i l.length with hi | hi | hi
  · rw [List.getElem?_append_left hi] at hx
    obtain ⟨h1, h2⟩ := h i x hx
    exact ⟨fun n hxn => ⟨(h1 n hxn).1, getElem?_append_some _ _ _ _ (h1 n hxn).2⟩, h2⟩
  · subst hi
    rw [getElem?_length_append] at hx
    simp only [Option.some.injEq] at hx
    subst hx
    refine ⟨fun n' hxn => ?_, fun hf => by simp [isNodePtr] at hf⟩
    injection hxn with hxn
    subst hxn
    exact ⟨hrefs, getElem?_append_some _ _ _ _ hcls⟩
  · rw [List.getElem?_eq_none (by simp; omega)] at hx
    simp at hx

/-- Interning a value that is no pointer to a node keeps the shape and the
number of nodes. -/
theorem id_leaf (G : Val → Prop) (st : NSKeyedArchiver) (v : Val)
    (ht : Tbl G st.objRefVal) (hv : G v) (hn : isNodePtr v = false) :
    Tbl G (st.id v).2.objRefVal ∧ nodeCount (st.id v).2.objRefVal = nodeCount st.objRefVal := by
  cases h : st.objRef.find? (fun e => goEq e.1 v) with
  | some e => rw [id_eq_of_found st v e h]; exact ⟨ht, rfl⟩
  | none =>
    rw [id_eq_of_notFound st v h]
    refine ⟨Tbl_append_leaf G _ v ht hv hn, ?_⟩
    simp [nodeCount, List.filter_append, List.filter_cons, hn]

/-- Interning a new node whose references are indices of the value list keeps
the shape and adds one node, at the end of the list. -/
theorem id_node (G : Val → Prop) (st : NSKeyedArchiver) (n : Node) (hinv : Inv st)
    (ht : Tbl G st.objRefVal) (hrefs : ∀ r ∈ n.refs, r < st.objRefVal.length)
    (hcls : st.objRefVal[n.classRef]? = some (.classPtr n.registryPtr)) :
    Tbl G (st.id (.nodePtr n)).2.objRefVal ∧
    (st.id (.nodePtr n)).1 < (st.id (.nodePtr n)).2.objRefVal.length ∧
    nodeCount (st.id (.nodePtr n)).2.objRefVal = nodeCount st.objRefVal + 1 := by
  rw [id_nodePtr]
  refine ⟨Tbl_append_node G _ n ht hrefs hcls, ?_, ?_⟩
  · simp [Inv_length st hinv]
  · simp [nodeCount, List.filter_append, List.filter_cons, isNodePtr]

theorem Shaped_id_leaf (G : Val → Prop) (st : NSKeyedArchiver) (v : Val) (hq : Shaped G st)
    (hv : G v) (hn : isNodePtr v = false) :
    Shaped G (st.id v).2 ∧ (st.id v).1 < (st.id v).2.objRefVal.length ∧
    nodeCount (st.id v).2.objRefVal = nodeCount st.objRefVal := by
  obtain ⟨hinv, hpos, ht⟩ := hq
  obtain ⟨h1, h2⟩ := id_leaf G st v ht hv hn
  have hle := length_le_of_extends (id_extends st v)
  exact ⟨⟨id_Inv st v hinv, by omega, h1⟩, id_lt st v hinv, h2⟩

theorem Shaped_id_node (G : Val → Prop) (st : NSKeyedArchiver) (n : Node) (hq : Shaped G st)
    (hrefs : ∀ r ∈ n.refs, r < st.objRefVal.length)
    (hcls : st.objRefVal[n.classRef]? = some (.classPtr n.registryPtr)) :
    Shaped G (st.id (.nodePtr n)).2 ∧
    (st.id (.nodePtr n)).1 < (st.id (.nodePtr n)).2.objRefVal.length ∧
    nodeCount (st.id (.nodePtr n)).2.objRefVal = nodeCount st.objRefVal + 1 := by
  obtain ⟨hinv, hpos, ht⟩ := hq
  obtain ⟨h1, h2, h3⟩ := id_node G st n hinv ht hrefs hcls
  have hle := length_le_of_extends (id_extends st (.nodePtr n))
  exact ⟨⟨id_Inv st _ hinv, by omega, h1⟩, h2, h3⟩

theorem id_classPtr_get (st : NSKeyedArchiver) (p : ClassPtr) (hinv : Inv st) :
    (st.id (.classPtr p)).2.objRefVal[(st.id (.classPtr p)).1]? = some (.classPtr p) :=
  id_get st (.classPtr p) hinv (fun w hw => goEq_exact_classPtr w p hw)

theorem split_id_eq {st s : NSKeyedArchiver} {v : Val} {r : Nat}
    (h : (Except.ok (st.id v) : Except Stop (Nat × NSKeyedArchiver)) = .ok (r, s)) :
    (st.id v).1 = r ∧ (st.id v).2 = s := by
  simp only [Except.ok.injEq] at h
  rw [h]
  exact ⟨rfl, rfl⟩

mutual
/-- Encoding a value keeps the shape of the value list, returns an index of
the list and adds one node for each composite value. -/
theorem encode_shape (G : Val → Prop) (okv : Val → Bool) (pol : LeafPolicy G okv) :
    ∀ (v : Val) (st : NSKeyedArchiver) (r : Nat) (st' : NSKeyedArchiver),
      idAny st v = .ok (r, st') → Shaped G st → internedOk okv v = true →
      Shaped G st' ∧ r < st'.objRefVal.length ∧
      nodeCount st'.objRefVal = nodeCount st.objRefVal + compositeCount v
  | .nil, st, r, st', h, _, _ => by simp [idAny] at h
  | .str s, st, r, st', h, hq, hv => by
      rw [idAny] at h
      obtain ⟨h1, h2⟩ := split_id_eq h
      subst h1 h2
      rw [internedOk] at hv
      simpa [compositeCount] using Shaped_id_leaf G st _ hq (pol.leaf _ hv).1 (pol.leaf _ hv).2
  | .int k n, st, r, st', h, hq, hv => by
      rw [idAny] at h
      obtain ⟨h1, h2⟩ := split_id_eq h
      subst h1 h2
      rw [internedOk] at hv
      simpa [compositeCount] using Shaped_id_leaf G st _ hq (pol.leaf _ hv).1 (pol.leaf _ hv).2
  | .bool b, st, r, st', h, hq, hv => by
      rw [idAny] at h
      obtain ⟨h1, h2⟩ := split_id_eq h
      subst h1 h2
      rw [internedOk] at hv
      simpa [compositeCount] using Shaped_id_leaf G st _ hq (pol.leaf _ hv).1 (pol.leaf _ hv).2
  | .uid n, st, r, st', h, hq, hv => by
      rw [idAny] at h
      obtain ⟨h1, h2⟩ := split_id_eq h
      subst h1 h2
      rw [internedOk] at hv
      simpa [compositeCount] using Shaped_id_leaf G st _ hq (pol.leaf _ hv).1 (pol.leaf _ hv).2
  | .bytes bs, st, r, st', h, hq, _ => by
      rw [idAny] at h
      obtain ⟨h1, h2⟩ := split_id_eq h
      subst h1 h2
      obtain ⟨hq1, hlt1, hc1⟩ :=
        Shaped_id_leaf G st (.classPtr .NSData) hq (pol.classes _ (Or.inr (Or.inr rfl))) rfl
      obtain ⟨hq2, hlt2, hc2⟩ := Shaped_id_node G _
        (.NSData (st.id (.classPtr .NSData)).1 (copyBytes bs)) hq1
        (by intro r hr; simp only [Node.refs, List.mem_singleton] at hr; rw [hr]; exact hlt1)
        (id_classPtr_get st .NSData hq.1)
      exact ⟨hq2, hlt2, by rw [hc2, hc1, compositeCount]⟩
  | .slice xs, st, r, st', h, hq, hv => by
      rw [idAny] at h
      cases hl : idArrayValues (st.id (.classPtr .NSArray)).2 xs with
      | error e => rw [hl] at h; simp at h
      | ok res =>
        obtain ⟨rs, s2⟩ := res
        rw [hl] at h
        obtain ⟨h1, h2⟩ := split_id_eq h
        subst h1 h2
        rw [internedOk] at hv
        obtain ⟨hq1, hlt1, hc1⟩ :=
          Shaped_id_leaf G st (.classPtr .NSArray) hq (pol.classes _ (Or.inr (Or.inl rfl))) rfl
        obtain ⟨hq2, hrs, hc2⟩ := encode_shape_values G okv pol xs _ rs s2 hl hq1 hv
        obtain ⟨ext, hext⟩ := idArrayValues_extends xs _ rs s2 hl
        have hle := length_le_of_extends ⟨ext, hext⟩
        obtain ⟨hq3, hlt3, hc3⟩ := Shaped_id_node G s2
          (.NSArray (st.id (.classPtr .NSArray)).1 rs) hq2
          (by
            intro r hr
            simp only [Node.refs, List.mem_cons] at hr
            rcases hr with hr | hr
            · rw [hr]; omega
            · exact hrs r hr)
          (by rw [hext]; exact getElem?_append_some _ _ _ _ (id_classPtr_get st .NSArray hq.1))
        exact ⟨hq3, hlt3, by rw [hc3, hc2, hc1, compositeCount]; omega⟩
  | .dict kvs, st, r, st', h, hq, hv => by
      rw [idAny] at h
      cases hl : idDictionaryEntries (st.id (.classPtr .NSDictionary)).2 kvs with
      | error e => rw [hl] at h; simp at h
      | ok res =>
        obtain ⟨ks, rs, s2⟩ := res
        rw [hl] at h
        obtain ⟨h1, h2⟩ := split_id_eq h
        subst h1 h2
        rw [internedOk] at hv
        obtain ⟨hq1, hlt1, hc1⟩ :=
          Shaped_id_leaf G st (.classPtr .NSDictionary) hq (pol.classes _ (Or.inl rfl)) rfl
        obtain ⟨hq2, hks, hrs, hc2⟩ := encode_shape_entries G okv pol kvs _ ks rs s2 hl hq1 hv
        obtain ⟨ext, hext⟩ := idDictionaryEntries_extends kvs _ ks rs s2 hl
        have hle := length_le_of_extends ⟨ext, hext⟩
        obtain ⟨hq3, hlt3, hc3⟩ := Shaped_id_node G s2
          (.NSDictionary (st.id (.classPtr .NSDictionary)).1 rs ks) hq2
          (by
            intro r hr
            simp only [Node.refs, List.mem_cons, List.mem_append] at hr
            rcases hr with hr | hr | hr
            · rw [hr]; omega
            · exact hks r hr
            · exact hrs r hr)
          (by rw [hext]; exact getElem?_append_some _ _ _ _ (id_classPtr_get st .NSDictionary hq.1))
        exact ⟨hq3, hlt3, by rw [hc3, hc2, hc1, compositeCount]; omega⟩
  | .anyMap kvs, st, r, st', h, hq, hv => by
      rw [idAny] at h
      cases hl : idAnyMapEntries (st.id (.classPtr .NSDictionary)).2 kvs with
      | error e => rw [hl] at h; simp at h
      | ok res =>
        obtain ⟨ks, rs, s2⟩ := res
        rw [hl] at h
        obtain ⟨h1, h2⟩ := split_id_eq h
        subst h1 h2
        rw [internedOk] at hv
        obtain ⟨hq1, hlt1, hc1⟩ :=
          Shaped_id_leaf G st (.classPtr .NSDictionary) hq (pol.classes _ (Or.inl rfl)) rfl
        obtain ⟨hq2, hks, hrs, hc2⟩ := encode_shape_anyMap G okv pol kvs _ ks rs s2 hl hq1 hv
        obtain ⟨ext, hext⟩ := idAnyMapEntries_extends kvs _ ks rs s2 hl
        have hle := length_le_of_extends ⟨ext, hext⟩
        obtain ⟨hq3, hlt3, hc3⟩ := Shaped_id_node G s2
          (.NSDictionary (st.id (.classPtr .NSDictionary)).1 rs ks) hq2
          (by
            intro r hr
            simp only [Node.refs, List.mem_cons, List.mem_append] at hr
            rcases hr with hr | hr | hr
            · rw [hr]; omega
            · exact hks r hr
            · exact hrs r hr)
          (by rw [hext]; exact getElem?_append_some _ _ _ _ (id_classPtr_get st .NSDictionary hq.1))
        exact ⟨hq3, hlt3, by rw [hc3, hc2, hc1, compositeCount]; omega⟩
  | .float64 _, st, r, st', h, hq, _ => by
      rw [idAny] at h; simp only [Except.ok.injEq, Prod.mk.injEq] at h
      obtain ⟨h1, h2⟩ := h; subst h1 h2; exact ⟨hq, hq.2.1, rfl⟩
  | .time _, st, r, st', h, hq, _ => by
      rw [idAny] at h; simp only [Except.ok.injEq, Prod.mk.injEq] at h
      obtain ⟨h1, h2⟩ := h; subst h1 h2; exact ⟨hq, hq.2.1, rfl⟩
  | .struct _, st, r, st', h, hq, _ => by
      rw [idAny] at h; simp only [Except.ok.injEq, Prod.mk.injEq] at h
      obtain ⟨h1, h2⟩ := h; subst h1 h2; exact ⟨hq, hq.2.1, rfl⟩
  | .classPtr _, st, r, st', h, hq, _ => by
      rw [idAny] at h; simp only [Except.ok.injEq, Prod.mk.injEq] at h
      obtain ⟨h1, h2⟩ := h; subst h1 h2; exact ⟨hq, hq.2.1, rfl⟩
  | .nodePtr _, st, r, st', h, hq, _ => by
      rw [idAny] at h; simp only [Except.ok.injEq, Prod.mk.injEq] at h
      obtain ⟨h1, h2⟩ := h; subst h1 h2; exact ⟨hq, hq.2.1, rfl⟩
  | .classes _, st, r, st', h, hq, _ => by
      rw [idAny] at h; simp only [Except.ok.injEq, Prod.mk.injEq] at h
      obtain ⟨h1, h2⟩ := h; subst h1 h2; exact ⟨hq, hq.2.1, rfl⟩
  | .node _, st, r, st', h, hq, _ => by
      rw [idAny] at h; simp only [Except.ok.injEq, Prod.mk.injEq] at h
      obtain ⟨h1, h2⟩ := h; subst h1 h2; exact ⟨hq, hq.2.1, rfl⟩
  | .goNSError _ _ _, st, r, st', h, hq, _ => by
      rw [idAny] at h; simp only [Except.ok.injEq, Prod.mk.injEq] at h
      obtain ⟨h1, h2⟩ := h; subst h1 h2; exact ⟨hq, hq.2.1, rfl⟩
  | .tapMessage _, st, r, st', h, hq, _ => by
      rw [idAny] at h; simp only [Except.ok.injEq, Prod.mk.injEq] at h
      obtain ⟨h1, h2⟩ := h; subst h1 h2; exact ⟨hq, hq.2.1, rfl⟩
theorem encode_shape_values (G : Val → Prop) (okv : Val → Bool) (pol : LeafPolicy G okv) :
    ∀ (xs : List Val) (st : NSKeyedArchiver) (rs : List Nat) (st' : NSKeyedArchiver),
      idArrayValues st xs = .ok (rs, st') → Shaped G st → internedOkValues okv xs = true →
      Shaped G st' ∧ (∀ r ∈ rs, r < st'.objRefVal.length) ∧
      nodeCount st'.objRefVal = nodeCount st.objRefVal + compositeCountValues xs
  | [], st, rs, st', h, hq, _ => by
      rw [idArrayValues] at h
      simp only [Except.ok.injEq, Prod.mk.injEq] at h
      obtain ⟨h1, h2⟩ := h
      subst h1 h2
      exact ⟨hq, by simp, rfl⟩
  | x :: xs, st, rs, st', h, hq, hv => by
      rw [idArrayValues] at h
      cases hx : idAny st x with
      | error e => rw [hx] at h; simp at h
      | ok res =>
        obtain ⟨r, s⟩ := res
        rw [hx] at h
        simp only at h
        cases hl : idArrayValues s xs with
        | error e => rw [hl] at h; simp at h
        | ok res2 =>
          obtain ⟨rs2, s2⟩ := res2
          rw [hl] at h
          simp only [Except.ok.injEq, Prod.mk.injEq] at h
          obtain ⟨h1, h2⟩ := h
          subst h1 h2
          rw [internedOkValues, Bool.and_eq_true] at hv
          obtain ⟨hqs, hr, hc⟩ := encode_shape G okv pol x st r s hx hq hv.1
          obtain ⟨hq2, hrs, hc2⟩ := encode_shape_values G okv pol xs s rs2 s2 hl hqs hv.2
          have hle := length_le_of_extends (idArrayValues_extends xs s rs2 s2 hl)
          refine ⟨hq2, ?_, by rw [hc2, hc, compositeCountValues]; omega⟩
          intro a ha
          rcases List.mem_cons.mp ha with ha | ha
          · rw [ha]; omega
          · exact hrs a ha
theorem encode_shape_entries (G : Val → Prop) (okv : Val → Bool) (pol : LeafPolicy G okv) :
    ∀ (kvs : List (String × Val)) (st : NSKeyedArchiver) (ks rs : List Nat)
      (st' : NSKeyedArchiver),
      idDictionaryEntries st kvs = .ok (ks, rs, st') → Shaped G st →
      internedOkEntries okv kvs = true →
      Shaped G st' ∧ (∀ r ∈ ks, r < st'.objRefVal.length) ∧
      (∀ r ∈ rs, r < st'.objRefVal.length) ∧
      nodeCount st'.objRefVal = nodeCount st.objRefVal + compositeCountEntries kvs
  | [], st, ks, rs, st', h, hq, _ => by
      rw [idDictionaryEntries] at h
      simp only [Except.ok.injEq, Prod.mk.injEq] at h
      obtain ⟨h1, h2, h3⟩ := h
      subst h1 h2 h3
      exact ⟨hq, by simp, by simp, rfl⟩
  | (k, v) :: kvs, st, ks, rs, st', h, hq, hv => by
      rw [idDictionaryEntries] at h
      cases hx : idAny (st.id (.str k)).2 v with
      | error e => rw [hx] at h; simp at h
      | ok res =>
        obtain ⟨r, s⟩ := res
        rw [hx] at h
        simp only at h
        cases hl : idDictionaryEntries s kvs with
        | error e => rw [hl] at h; simp at h
        | ok res2 =>
          obtain ⟨ks2, rs2, s2⟩ := res2
          rw [hl] at h
          simp only [Except.ok.injEq, Prod.mk.injEq] at h
          obtain ⟨h1, h2, h3⟩ := h
          subst h1 h2 h3
          rw [internedOkEntries, Bool.and_eq_true, Bool.and_eq_true] at hv
          obtain ⟨hq0, hk, hc0⟩ :=
            Shaped_id_leaf G st (.str k) hq (pol.leaf _ hv.1.1).1 (pol.leaf _ hv.1.1).2
          obtain ⟨hqs, hr, hc⟩ := encode_shape G okv pol v _ r s hx hq0 hv.1.2
          obtain ⟨hq2, hks, hrs, hc2⟩ := encode_shape_entries G okv pol kvs s ks2 rs2 s2 hl hqs hv.2
          have hle1 := length_le_of_extends (idAny_extends v _ r s hx)
          have hle2 := length_le_of_extends (idDictionaryEntries_extends kvs s ks2 rs2 s2 hl)
          refine ⟨hq2, ?_, ?_, by rw [hc2, hc, hc0, compositeCountEntries]; omega⟩
          · intro a ha
            rcases List.mem_cons.mp ha with ha | ha
            · rw [ha]; omega
            · exact hks a ha
          · intro a ha
            rcases List.mem_cons.mp ha with ha | ha
            · rw [ha]; omega
            · exact hrs a ha
theorem encode_shape_anyMap (G : Val → Prop) (okv : Val → Bool) (pol : LeafPolicy G okv) :
    ∀ (kvs : List (Val × Val)) (st : NSKeyedArchiver) (ks rs : List Nat)
      (st' : NSKeyedArchiver),
      idAnyMapEntries st kvs = .ok (ks, rs, st') → Shaped G st →
      internedOkAnyMap okv kvs = true →
      Shaped G st' ∧ (∀ r ∈ ks, r < st'.objRefVal.length) ∧
      (∀ r ∈ rs, r < st'.objRefVal.length) ∧
      nodeCount st'.objRefVal = nodeCount st.objRefVal + compositeCountAnyMap kvs
  | [], st, ks, rs, st', h, hq, _ => by
      rw [idAnyMapEntries] at h
      simp only [Except.ok.injEq, Prod.mk.injEq] at h
      obtain ⟨h1, h2, h3⟩ := h
      subst h1 h2 h3
      exact ⟨hq, by simp, by simp, rfl⟩
  | (k, v) :: kvs, st, ks, rs, st', h, hq, hv => by
      rw [idAnyMapEntries_cons _ _ _ _ (idAnyMapEntries_ok_notNaN _ _ _ _ _ h)] at h
      cases hx : idAny (st.id k).2 v with
      | error e => rw [hx] at h; simp at h
      | ok res =>
        obtain ⟨r, s⟩ := res
        rw [hx] at h
        simp only at h
        cases hl : idAnyMapEntries s kvs with
        | error e => rw [hl] at h; simp at h
        | ok res2 =>
          obtain ⟨ks2, rs2, s2⟩ := res2
          rw [hl] at h
          simp only [Except.ok.injEq, Prod.mk.injEq] at h
          obtain ⟨h1, h2, h3⟩ := h
          subst h1 h2 h3
          rw [internedOkAnyMap, Bool.and_eq_true, Bool.and_eq_true] at hv
          obtain ⟨hq0, hk, hc0⟩ :=
            Shaped_id_leaf G st k hq (pol.leaf _ hv.1.1).1 (pol.leaf _ hv.1.1).2
          obtain ⟨hqs, hr, hc⟩ := encode_shape G okv pol v _ r s hx hq0 hv.1.2
          obtain ⟨hq2, hks, hrs, hc2⟩ := encode_shape_anyMap G okv pol kvs s ks2 rs2 s2 hl hqs hv.2
          have hle1 := length_le_of_extends (idAny_extends v _ r s hx)
          have hle2 := length_le_of_extends (idAnyMapEntries_extends kvs s ks2 rs2 s2 hl)
          refine ⟨hq2, ?_, ?_, by rw [hc2, hc, hc0, compositeCountAnyMap]; omega⟩
          · intro a ha
            rcases List.mem_cons.mp ha with ha | ha
            · rw [ha]; omega
            · exact hks a ha
          · intro a ha
            rcases List.mem_cons.mp ha with ha | ha
            · rw [ha]; omega
            · exact hrs a ha
end

/-- The state `Marshal` hands to `idAny`: the value list holds the null
sentinel only. -/
theorem Shaped_start (G : Val → Prop) (hnull : G (.str NSNull)) :
    Shaped G (NewNSKeyedArchiver.id (.str NSNull)).2 := by
  refine ⟨id_Inv _ _ Inv_new, by decide, ?_⟩
  have hl : (NewNSKeyedArchiver.id (.str NSNull)).2.objRefVal = [.str NSNull] := rfl
  rw [hl]
  intro i w hw
  cases i with
  | zero =>
    simp only [List.getElem?_cons_zero, Option.some.injEq] at hw
    subst hw
    exact ⟨fun n hn => (by cases hn), fun _ => hnull⟩
  | succ j => simp at hw

/-- What `Marshal` on an instance between two calls builds, in terms of the
state `idAny` ends in. -/
theorem Marshal_shape (G : Val → Prop) (okv : Val → Bool) (pol : LeafPolicy G okv)
    (hnull : G (.str NSNull)) (this : NSKeyedArchiver) (hthis : Reachable this)
    (v : Val) (root : KeyedArchiver) (st : NSKeyedArchiver)
    (hv : internedOk okv v = true) (h : Marshal this v = .ok (root, st)) :
    ∃ s, Shaped G s ∧ root.Objects = s.objRefVal.map flushValue ∧
      root.Top.Root < s.objRefVal.length ∧ nodeCount s.objRefVal = compositeCount v := by
  obtain ⟨uid, s, hs, hobj, htop, _⟩ := Marshal_ok this v root st h
  have he : this = NewNSKeyedArchiver := Reachable_empty this hthis
  subst he
  obtain ⟨hq, hlt, hc⟩ := encode_shape G okv pol v _ uid s hs (Shaped_start G hnull) hv
  refine ⟨s, hq, hobj, by rw [htop]; exact hlt, ?_⟩
  rw [hc]
  have h0 : nodeCount (NewNSKeyedArchiver.id (.str NSNull)).2.objRefVal = 0 := rfl
  omega

/-- A node struct in the flushed list stands where the value list holds the
pointer to it, when no other entry of the value list is a node struct. -/
theorem flushed_node (G : Val → Prop) (hG : ∀ w, G w → isNode w = false) (l : List Val)
    (ht : Tbl G l) (i : Nat) (n : Node) (h : (l.map flushValue)[i]? = some (.node n)) :
    l[i]? = some (.nodePtr n) := by
  rw [List.getElem?_map] at h
  cases hw : l[i]? with
  | none => rw [hw] at h; simp at h
  | some w =>
    rw [hw] at h
    simp only [Option.map_some', Option.some.injEq] at h
    have hg := (ht i w hw).2
    cases w <;> simp only [flushValue, Val.node.injEq, reduceCtorEq] at h
    · subst h; rfl
    · have := hG _ (hg rfl)
      simp [isNode] at this

theorem notNode_policy : LeafPolicy (fun w => notNode w = true) notNode where
  leaf := by
    intro v hv
    refine ⟨hv, ?_⟩
    cases v <;> first | rfl | simp [notNode] at hv
  classes := by intro p _; rfl

theorem notNode_isNode (w : Val) (h : notNode w = true) : isNode w = false := by
  cases w <;> first | rfl | simp [notNode] at h

/-- After any sequence of `id` calls on an empty interner the invariant holds. -/
theorem idCalls_Inv (vs : List Val) : Inv (idCalls vs) := by
  unfold idCalls
  have key : ∀ (l : List Val) (st : NSKeyedArchiver), Inv st →
      Inv (l.foldl (fun st v => (st.id v).2) st) := by
    intro l
    induction l with
    | nil => intro st h; exact h
    | cons x xs ih => intro st h; exact ih _ (id_Inv st x h)
  exact key vs _ Inv_new

/-- Under the invariant the list holds, at the reference of a map entry, the
value of that entry. -/
theorem Inv_entry (st : NSKeyedArchiver) (hinv : Inv st) (e : Val × Nat) (he : e ∈ st.objRef) :
    st.objRefVal[e.2]? = some e.1 := by
  obtain ⟨i, hi⟩ := List.getElem?_of_mem he
  have h1 := hinv i
  rw [hi] at h1
  cases hv : st.objRefVal[i]? with
  | none => rw [hv] at h1; simp at h1
  | some w =>
    rw [hv] at h1
    simp only [Option.map_some', Option.some.injEq] at h1
    subst h1
    exact hv

/-! ## C15: references are in range -/

/-- Counterexample to C15 as stated: a map whose key is a pointer to a node
struct.  `idDictionary` hands the key to `id` as it is, `flushToStruct` puts the
struct it points to into the object table, and the references 7 and 99 that
struct stores are not below the length 5 of the table. -/
theorem node_key_reference_out_of_range :
    ∃ root st, Marshal NewNSKeyedArchiver nodeKeyMap = .ok (root, st) ∧
      root.Objects = [.str "$null", .classes NSDictionaryClass, .node (.NSArray 7 [99]),
        .int .int 1, .node (.NSDictionary 1 [3] [2])] ∧
      root.Top.Root = 4 ∧
      ¬ ∀ r ∈ (Node.NSArray 7 [99]).refs, r < root.Objects.length :=
  ⟨_, _, rfl, rfl, rfl, by
    intro h
    have := h 99 (by simp [Node.refs])
    revert this
    decide⟩

/-- C15, amended.  After any sequence of `id` calls on an empty interner the
value-to-reference map and the value list have the same length, and the list
holds at the reference of every map entry the value of that entry.  For every
input value none of whose map keys is an archive node (a pointer to an
`NSArray`, `NSDictionary` or `NSData` struct), the archive root `Marshal`
builds has `top.root` below the length of the object table, and every reference
stored in a node of the table (class reference, entries of `NS.keys` and of
`NS.objects`) is below that length. -/
theorem references_in_range (vs : List Val) (this : NSKeyedArchiver) (v : Val)
    (root : KeyedArchiver) (st : NSKeyedArchiver) (hthis : Reachable this)
    (hv : internedOk notNode v = true) (h : Marshal this v = .ok (root, st)) :
    ((idCalls vs).objRef.length = (idCalls vs).objRefVal.length ∧
      ∀ e ∈ (idCalls vs).objRef, (idCalls vs).objRefVal[e.2]? = some e.1) ∧
    root.Top.Root < root.Objects.length ∧
    ∀ (i : Nat) (n : Node), root.Objects[i]? = some (.node n) →
      ∀ r ∈ n.refs, r < root.Objects.length := by
  refine ⟨⟨Inv_length _ (idCalls_Inv vs), Inv_entry _ (idCalls_Inv vs)⟩, ?_⟩
  obtain ⟨s, hq, hobj, htop, _⟩ := Marshal_shape _ notNode notNode_policy rfl this hthis v root st hv h
  have hlen : root.Objects.length = s.objRefVal.length := by rw [hobj, List.length_map]
  refine ⟨by omega, ?_⟩
  intro i n hi r hr
  rw [hobj] at hi
  have hp := flushed_node _ notNode_isNode _ hq.2.2 i n hi
  have hlt := ((hq.2.2 i _ hp).1 n rfl).1 r hr
  have := getElem?_lt_length hp
  omega

/-- Witness of the amended C15: the sequence `[[1], [1]]` after the calls
`id("a")`, `id("a")`. -/
theorem references_in_range_witness :
    ((idCalls [.str "a", .str "a"]).objRef.length = (idCalls [.str "a", .str "a"]).objRefVal.length ∧
      ∀ e ∈ (idCalls [.str "a", .str "a"]).objRef,
        (idCalls [.str "a", .str "a"]).objRefVal[e.2]? = some e.1) ∧
    (5 : Nat) < 6 ∧
    ∀ (i : Nat) (n : Node),
      ([.str "$null", .classes NSArrayClass, .int .int 1, .node (.NSArray 1 [2]),
        .node (.NSArray 1 [2]), .node (.NSArray 1 [3, 4])] : List Val)[i]? = some (.node n) →
      ∀ r ∈ n.refs, r < 6 :=
  references_in_range [.str "a", .str "a"] NewNSKeyedArchiver
    (.slice [.slice [.int .int 1], .slice [.int .int 1]])
    { Archiver := "NSKeyedArchiver",
      Objects := [.str "$null", .classes NSArrayClass, .int .int 1, .node (.NSArray 1 [2]),
        .node (.NSArray 1 [2]), .node (.NSArray 1 [3, 4])],
      Top := { Root := 5 }, Version := 100000 }
    { objRefVal := [], objRef := [] } Reachable.fresh rfl rfl

/-! ## C18: the order of the object table -/

theorem plainLeaf_policy : LeafPolicy (fun w => plainLeaf w = true) plainLeaf where
  leaf := by
    intro v hv
    refine ⟨hv, ?_⟩
    cases v <;> first | rfl | simp [plainLeaf] at hv
  classes := by intro p _; rfl

theorem plainLeaf_isNode (w : Val) (h : plainLeaf w = true) : isNode w = false := by
  cases w <;> first | rfl | simp [plainLeaf] at h

/-- A class descriptor has no key `$class`: decoding it panics. -/
theorem convertValue_descriptor (T : List Val) (fuel : Nat) (c : ArchiverClasses) :
    convertValue T (fuel + 1) (plistValue (.classes c)) = .error (.panic .typeAssertion) := by
  rw [plistValue, convertValue]
  rfl

/-- An entry of the table that is neither a node nor a reference is decoded
without recursion. -/
theorem leaf_no_fuel (T : List Val) (fuel : Nat) (w : Val) (hw : plainLeaf w = true) :
    convertValue T (fuel + 1) (plistValue (flushValue w)) ≠ .error .fuel := by
  cases w <;> first
    | (simp [plainLeaf] at hw; done)
    | (change convertValue T (fuel + 1) (plistValue (.classes _)) ≠ _
       rw [convertValue_descriptor]; simp)
    | simp [flushValue, plistValue, convertValue, pure, Except.pure]

theorem arrayLoop_no_fuel (conv : Val → Except Stop Val) :
    ∀ (values ret : List Val), (∀ v ∈ values, conv v ≠ .error .fuel) →
      arrayLoop conv values ret ≠ .error .fuel
  | [], ret, _ => by simp [arrayLoop]
  | v :: values, ret, h => by
      rw [arrayLoop]
      cases hv : conv v with
      | error e =>
        have := h v (List.mem_cons_self _ _)
        rw [hv] at this
        simpa [bind, Except.bind] using this
      | ok val =>
        simp only [bind, Except.bind]
        exact arrayLoop_no_fuel conv values _ (fun x hx => h x (List.mem_cons_of_mem _ hx))

theorem asUID_no_fuel (v : Val) : asUID v ≠ .error .fuel := by
  cases v <;> simp [asUID]

theorem asString_no_fuel (v : Val) : asString v ≠ .error .fuel := by
  cases v <;> simp [asString]

theorem index_no_fuel (l : List Val) (i : Nat) : index l i ≠ .error .fuel := by
  unfold index
  cases l[i]? <;> simp

theorem bind_no_fuel {α β : Type} (x : Except Stop α) (f : α → Except Stop β)
    (hx : x ≠ .error .fuel) (hf : ∀ a, x = .ok a → f a ≠ .error .fuel) :
    (x >>= f) ≠ .error .fuel := by
  cases x with
  | error e => simpa [bind, Except.bind] using hx
  | ok a => simpa [bind, Except.bind] using hf a rfl

theorem dictLoop_no_fuel (T : List Val) (conv : Val → Except Stop Val) (values : List Val)
    (h : ∀ v ∈ values, ∀ r, v = .uid r → ∀ o, T[r]? = some o → conv o ≠ .error .fuel) :
    ∀ (keys : List Val) (i : Nat) (ret : List (String × Val)),
      dictLoop T conv values keys i ret ≠ .error .fuel
  | [], i, ret => by simp [dictLoop]
  | k :: keys, i, ret => by
      rw [dictLoop]
      refine bind_no_fuel _ _ (asUID_no_fuel _) (fun keyRef _ => ?_)
      refine bind_no_fuel _ _ (index_no_fuel _ _) (fun keyObj _ => ?_)
      refine bind_no_fuel _ _ (asString_no_fuel _) (fun key _ => ?_)
      refine bind_no_fuel _ _ (index_no_fuel _ _) (fun v hv => ?_)
      refine bind_no_fuel _ _ (asUID_no_fuel _) (fun valRef hr => ?_)
      refine bind_no_fuel _ _ (index_no_fuel _ _) (fun valObj ho => ?_)
      have hmem : v ∈ values := by
        unfold index at hv
        cases hg : values[i]? with
        | none => rw [hg] at hv; simp at hv
        | some x =>
          rw [hg] at hv
          simp only [Except.ok.injEq] at hv
          subst hv
          exact List.getElem?_mem hg
      have hv2 : v = .uid valRef := by
        cases v <;> simp [asUID] at hr
        rw [hr]
      have ho2 : T[valRef]? = some valObj := by
        unfold index at ho
        cases hg : T[valRef]? with
        | none => rw [hg] at ho; simp at ho
        | some x =>
          rw [hg] at ho
          simp only [Except.ok.injEq] at ho
          rw [ho]
      refine bind_no_fuel _ _ (h v hmem valRef hv2 valObj ho2) (fun val _ => ?_)
      exact dictLoop_no_fuel T conv values h keys (i + 1) _

/-- The wire form of a node whose class reference points at the registry
pointer of its type is decoded without running out of budget, when the entries
its references point at are. -/
theorem node_no_fuel (l : List Val) (n : Node) (fuel : Nat)
    (hcls : l[n.classRef]? = some (.classPtr n.registryPtr))
    (href : ∀ r ∈ n.refs, ∀ o, (wireTable l)[r]? = some o → ∀ f, fuel ≤ f →
      convertValue (wireTable l) f o ≠ .error .fuel) :
    convertValue (wireTable l) (fuel + 2) (plistValue (.node n)) ≠ .error .fuel := by
  have hdesc := wireTable_get l _ _ hcls
  cases n with
  | NSData cls data =>
    rw [show plistValue (.node (.NSData cls data)) =
        .dict [("$class", .uid cls), ("NS.data", .bytes data)] from rfl,
      convertValue_data _ [("$class", .uid cls), ("NS.data", .bytes data)]
        [("$classes", .slice (NSDataClass.Classes.map .str)), ("$classname", .str "NSData")]
        cls (fuel + 1) data rfl hdesc rfl rfl]
    simp
  | NSArray cls values =>
    rw [show plistValue (.node (.NSArray cls values)) =
        .dict [("$class", .uid cls), ("NS.objects", .slice (values.map Val.uid))] from rfl,
      convertValue_array _ [("$class", .uid cls), ("NS.objects", .slice (values.map Val.uid))]
        [("$classes", .slice (NSArrayClass.Classes.map .str)), ("$classname", .str "NSArray")]
        cls (fuel + 1) (values.map Val.uid) rfl hdesc (Or.inl rfl) rfl]
    have hl : arrayLoop (convertValue (wireTable l) (fuel + 1)) (values.map .uid) []
        ≠ .error .fuel := by
      apply arrayLoop_no_fuel
      intro v hv
      obtain ⟨r, hr, rfl⟩ := List.mem_map.mp hv
      rw [convertValue]
      refine bind_no_fuel _ _ (index_no_fuel _ _) (fun o ho => ?_)
      refine href r (by simp [Node.refs, hr]) o ?_ fuel (Nat.le_refl _)
      unfold index at ho
      cases hg : (wireTable l)[r]? with
      | none => rw [hg] at ho; simp at ho
      | some x =>
        rw [hg] at ho
        simp only [Except.ok.injEq] at ho
        rw [ho]
    cases hr : arrayLoop (convertValue (wireTable l) (fuel + 1)) (values.map .uid) [] with
    | error e => rw [hr] at hl; simpa using hl
    | ok ret => simp
  | NSDictionary cls values keys =>
    rw [show plistValue (.node (.NSDictionary cls values keys)) =
        .dict [("$class", .uid cls), ("NS.objects", .slice (values.map Val.uid)),
               ("NS.keys", .slice (keys.map Val.uid))] from rfl,
      convertValue_dictionary _
        [("$class", .uid cls), ("NS.objects", .slice (values.map Val.uid)),
         ("NS.keys", .slice (keys.map Val.uid))]
        [("$classes", .slice (NSDictionaryClass.Classes.map .str)),
         ("$classname", .str "NSDictionary")]
        cls (fuel + 1) (keys.map Val.uid) (values.map Val.uid) rfl hdesc (Or.inl rfl) rfl rfl]
    have hl := dictLoop_no_fuel (wireTable l) (convertValue (wireTable l) (fuel + 1))
      (values.map .uid) (by
        intro v hv r hvr o ho
        obtain ⟨r', hr', hrv⟩ := List.mem_map.mp hv
        rw [hvr] at hrv
        simp only [Val.uid.injEq] at hrv
        subst hrv
        exact href r' (by simp [Node.refs, hr']) o ho (fuel + 1) (by omega))
      (keys.map .uid) 0 []
    cases hr : dictLoop (wireTable l) (convertValue (wireTable l) (fuel + 1))
        (values.map .uid) (keys.map .uid) 0 [] with
    | error e => rw [hr] at hl; simpa using hl
    | ok ret => simp

/-- Over the wire form of a value list of the shape the encoder builds from
plain leaves, entry `i` is decoded within the budget `2 * i + 1`: the decoder
returns or panics. -/
theorem entry_no_fuel (l : List Val) (ht : Tbl (fun w => plainLeaf w = true) l) :
    ∀ (i : Nat) (w : Val), l[i]? = some w → ∀ fuel, 2 * i + 1 ≤ fuel →
      convertValue (wireTable l) fuel (plistValue (flushValue w)) ≠ .error .fuel := by
  intro i
  induction i using Nat.strong_induction_on with
  | _ i ih =>
    intro w hw fuel hfuel
    cases hn : isNodePtr w with
    | false =>
      obtain ⟨f, rfl⟩ : ∃ f, fuel = f + 1 := ⟨fuel - 1, by omega⟩
      exact leaf_no_fuel _ f w ((ht i w hw).2 hn)
    | true =>
      cases w <;> simp only [isNodePtr, reduceCtorEq] at hn
      rename_i n
      obtain ⟨hlt, hcls⟩ := (ht i _ hw).1 n rfl
      have hpos : 0 < i := by
        have := hlt n.classRef (by cases n <;> simp [Node.refs, Node.classRef])
        omega
      obtain ⟨f, rfl⟩ : ∃ f, fuel = f + 2 := ⟨fuel - 2, by omega⟩
      apply node_no_fuel l n f hcls
      intro r hr o ho g hg
      have hri := hlt r hr
      unfold wireTable at ho
      rw [List.getElem?_map] at ho
      cases hx : l[r]? with
      | none => rw [hx] at ho; simp at ho
      | some x =>
        rw [hx] at ho
        simp only [Option.map_some', Option.some.injEq] at ho
        subst ho
        exact ih r hri x hx g (by omega)

/-- An array node that lists a table entry which is itself a reference back to
the node uses up every recursion budget. -/
theorem reference_entry_exhausts (T : List Val) (a u ca : Nat) (ma cma : List (String × Val))
    (ra : List Val)
    (hA : T[a]? = some (.dict ma)) (hU : T[u]? = some (.uid a))
    (hAclass : mapIndex ma "$class" = .uid ca) (hAdesc : T[ca]? = some (.dict cma))
    (hAname : isArrayClass cma) (hAobjs : mapIndex ma "NS.objects" = .slice (.uid u :: ra)) :
    ∀ fuel : Nat,
      convertValue T fuel (.dict ma) = .error .fuel ∧ convertValue T fuel (.uid a) = .error .fuel ∧
      convertValue T fuel (.uid u) = .error .fuel := by
  intro fuel
  induction fuel with
  | zero => simp [convertValue]
  | succ f ih =>
    refine ⟨?_, ?_, ?_⟩
    · rw [convertValue_array T ma cma ca f _ hAclass hAdesc hAname hAobjs, arrayLoop, ih.2.2]
      rfl
    · rw [convertValue_uid T f a _ hA]; exact ih.1
    · rw [convertValue_uid T f u _ hU]; exact ih.2.1

/-- Counterexample to C18 as stated.  The sequence `[]plist.UID{3}` is encoded
to the table `$null`, the array descriptor, the `plist.UID` 3, the array node
`{1, [2]}`, with root 3: every reference stored in the node is below 3, but
entry 2 is a reference to the node, and no recursion budget lets `Unmarshal`
come back on this archive.  And in the archive of a map whose key is a pointer
to the node `{7, [99]}`, the node at index 2 stores references that are not
below 2. -/
theorem plist_uid_leaf_never_terminates :
    (∃ root st, Marshal NewNSKeyedArchiver (.slice [.uid 3]) = .ok (root, st) ∧
      root.Objects = [.str "$null", .classes NSArrayClass, .uid 3, .node (.NSArray 1 [2])] ∧
      root.Top.Root = 3 ∧
      ¬ ∃ fuel : Nat, Unmarshal fuel NewNSKeyedArchiver (.ok (plistTransport root)) ≠ .error .fuel) ∧
    (∃ root st, Marshal NewNSKeyedArchiver nodeKeyMap = .ok (root, st) ∧
      root.Objects[2]? = some (.node (.NSArray 7 [99])) ∧
      ¬ ∀ r ∈ (Node.NSArray 7 [99]).refs, r < 2) := by
  refine ⟨⟨_, _, rfl, rfl, rfl, ?_⟩, ⟨_, _, rfl, rfl, ?_⟩⟩
  · rintro ⟨fuel, h⟩
    apply h
    have hc := (reference_entry_exhausts
      [.str "$null", plistValue (.classes NSArrayClass), .uid 3,
        .dict [("$class", .uid 1), ("NS.objects", .slice [.uid 2])]] 3 2 1
      [("$class", .uid 1), ("NS.objects", .slice [.uid 2])]
      [("$classes", .slice [.str "NSArray", .str "NSObject"]), ("$classname", .str "NSArray")]
      [] rfl rfl rfl rfl (Or.inl rfl) rfl fuel).1
    have hU : ∀ (a : KeyedArchiver) (top : Val),
        index (a.Objects.foldl (fun l v => l ++ [v]) NewNSKeyedArchiver.objRefVal) a.Top.Root
          = .ok top →
        convertValue (a.Objects.foldl (fun l v => l ++ [v]) NewNSKeyedArchiver.objRefVal) fuel top
          = .error .fuel →
        Unmarshal fuel NewNSKeyedArchiver (.ok a) = .error .fuel := by
      intro a top h1 h2
      unfold Unmarshal
      simp only [h1, h2]
    exact hU _ _ rfl hc
  · intro h
    have := h 99 (by simp [Node.refs])
    revert this
    decide

/-- C18, amended.  For every input value none of whose map keys is an archive
node, every reference stored in the node at index `i` of the object table that
encoding builds (its class reference, each entry of `NS.keys` and of
`NS.objects`) is below `i`.  When moreover the value holds no `plist.UID`, the
decoder comes back on the transported archive, with a value or a panic, within
a recursion depth of twice the length of the table plus one. -/
theorem encoder_output_ordered (this that : NSKeyedArchiver) (v : Val) (root : KeyedArchiver)
    (st : NSKeyedArchiver) (hthis : Reachable this) (hthat : Reachable that)
    (hv : internedOk notNode v = true) (h : Marshal this v = .ok (root, st)) :
    (∀ (i : Nat) (n : Node), root.Objects[i]? = some (.node n) → ∀ r ∈ n.refs, r < i) ∧
    (internedOk plainLeaf v = true →
      ∀ fuel : Nat, 2 * root.Objects.length + 1 ≤ fuel →
        Unmarshal fuel that (.ok (plistTransport root)) ≠ .error .fuel) := by
  constructor
  · obtain ⟨s, hq, hobj, _, _⟩ :=
      Marshal_shape _ notNode notNode_policy rfl this hthis v root st hv h
    intro i n hi r hr
    rw [hobj] at hi
    have hp := flushed_node _ notNode_isNode _ hq.2.2 i n hi
    exact ((hq.2.2 i _ hp).1 n rfl).1 r hr
  · intro hp fuel hfuel
    obtain ⟨s, hq, hobj, htop, _⟩ :=
      Marshal_shape _ plainLeaf plainLeaf_policy rfl this hthis v root st hp h
    have he : that = NewNSKeyedArchiver := Reachable_empty that hthat
    subst he
    have hlen : root.Objects.length = s.objRefVal.length := by rw [hobj, List.length_map]
    have htbl : List.foldl (fun l v => l ++ [v]) NewNSKeyedArchiver.objRefVal
        (plistTransport root).Objects = wireTable s.objRefVal := by
      rw [foldl_snoc]
      simp [NewNSKeyedArchiver, plistTransport, hobj, wireTable, List.map_map, Function.comp_def]
    obtain ⟨w, hw⟩ : ∃ w, s.objRefVal[root.Top.Root]? = some w :=
      ⟨s.objRefVal[root.Top.Root], List.getElem?_eq_getElem htop⟩
    have hidx : index (wireTable s.objRefVal) (plistTransport root).Top.Root =
        .ok (plistValue (flushValue w)) := index_of_get (wireTable_get _ _ _ hw)
    have hno := entry_no_fuel s.objRefVal hq.2.2 root.Top.Root w hw fuel (by omega)
    unfold Unmarshal
    simp only [htbl, hidx]
    cases hc : convertValue (wireTable s.objRefVal) fuel (plistValue (flushValue w)) with
    | error e => rw [hc] at hno; simpa using hno
    | ok ret => simp

/-- Witness of the amended C18: the sequence `[[1], [1]]`. -/
theorem encoder_output_ordered_witness :
    (∀ (i : Nat) (n : Node),
      ([.str "$null", .classes NSArrayClass, .int .int 1, .node (.NSArray 1 [2]),
        .node (.NSArray 1 [2]), .node (.NSArray 1 [3, 4])] : List Val)[i]? = some (.node n) →
      ∀ r ∈ n.refs, r < i) ∧
    Unmarshal 13 NewNSKeyedArchiver (.ok (plistTransport
      { Archiver := "NSKeyedArchiver",
        Objects := [.str "$null", .classes NSArrayClass, .int .int 1, .node (.NSArray 1 [2]),
          .node (.NSArray 1 [2]), .node (.NSArray 1 [3, 4])],
        Top := { Root := 5 }, Version := 100000 })) ≠ .error .fuel :=
  have hw := encoder_output_ordered NewNSKeyedArchiver NewNSKeyedArchiver
    (.slice [.slice [.int .int 1], .slice [.int .int 1]])
    { Archiver := "NSKeyedArchiver",
      Objects := [.str "$null", .classes NSArrayClass, .int .int 1, .node (.NSArray 1 [2]),
        .node (.NSArray 1 [2]), .node (.NSArray 1 [3, 4])],
      Top := { Root := 5 }, Version := 100000 }
    { objRefVal := [], objRef := [] } Reachable.fresh Reachable.fresh rfl rfl
  ⟨hw.1, hw.2 rfl 13 (by decide)⟩

/-! ## C14: composite values are not deduplicated -/

theorem foreignLeaf_policy : LeafPolicy archiveEntry foreignLeaf where
  leaf := by
    intro v hv
    refine ⟨Or.inl hv, ?_⟩
    cases v <;> first | rfl | simp [foreignLeaf] at hv
  classes := by
    intro p hp
    rcases hp with h | h | h <;> subst h
    · exact Or.inr (Or.inl rfl)
    · exact Or.inr (Or.inr (Or.inl rfl))
    · exact Or.inr (Or.inr (Or.inr rfl))

theorem archiveEntry_isNode (w : Val) (h : archiveEntry w) : isNode w = false := by
  rcases h with h | h | h | h
  · cases w <;> first | rfl | simp [foreignLeaf] at h
  all_goals subst h; rfl

theorem archiveEntry_isClasses (w : Val) (h : archiveEntry w) : isClasses w = false := by
  rcases h with h | h | h | h
  · cases w <;> first | rfl | simp [foreignLeaf] at h
  all_goals subst h; rfl

theorem archiveEntry_classPtr (p : ClassPtr) (h : archiveEntry (.classPtr p)) :
    p = .NSDictionary ∨ p = .NSArray ∨ p = .NSData := by
  rcases h with h | h | h | h
  · simp [foreignLeaf] at h
  · exact Or.inl (by injection h)
  · exact Or.inr (Or.inl (by injection h))
  · exact Or.inr (Or.inr (by injection h))

/-- Every entry of a value list of the shape `Tbl archiveEntry` is a pointer to
a node or an `archiveEntry`. -/
theorem Tbl_entry (l : List Val) (ht : Tbl archiveEntry l) (w : Val) (hw : w ∈ l) :
    isNodePtr w = true ∨ archiveEntry w := by
  obtain ⟨i, hi⟩ := List.getElem?_of_mem hw
  cases hn : isNodePtr w with
  | true => exact Or.inl rfl
  | false => exact Or.inr ((ht i w hi).2 hn)

/-- The node structs of the flushed list are the node pointers of the value
list. -/
theorem filter_isNode_flush :
    ∀ (l : List Val), (∀ w ∈ l, isNode w = false) →
      ((l.map flushValue).filter isNode).length = nodeCount l
  | [], _ => rfl
  | w :: l, h => by
      have ih := filter_isNode_flush l (fun x hx => h x (List.mem_cons_of_mem _ hx))
      have hw := h w (List.mem_cons_self _ _)
      unfold nodeCount at ih ⊢
      cases w <;> simp_all [flushValue, isNode, isNodePtr, List.filter_cons]

/-- The class descriptors of the flushed list are the registry pointers of the
value list. -/
theorem filter_isClasses_flush :
    ∀ (l : List Val), (∀ w ∈ l, isClasses w = false) →
      (l.map flushValue).filter isClasses = (l.filter isClassPtr).map flushValue
  | [], _ => rfl
  | w :: l, h => by
      have ih := filter_isClasses_flush l (fun x hx => h x (List.mem_cons_of_mem _ hx))
      have hw := h w (List.mem_cons_self _ _)
      cases w <;> simp_all [flushValue, isClasses, isClassPtr, List.filter_cons]

theorem goEq_refl_classPtr (p : ClassPtr) : goEq (.classPtr p) (.classPtr p) = true := by
  simp [goEq]

theorem id_ClassPtrsOnce (st : NSKeyedArchiver) (v : Val) (hq : ClassPtrsOnce st) :
    ClassPtrsOnce (st.id v).2 := by
  refine ⟨id_Inv st v hq.1, ?_⟩
  cases h : st.objRef.find? (fun e => goEq e.1 v) with
  | some e => rw [id_eq_of_found st v e h]; exact hq.2
  | none =>
    rw [id_eq_of_notFound st v h]
    simp only [List.filter_append]
    cases hs : isClassPtr v with
    | false => simpa [List.filter_cons, hs] using hq.2
    | true =>
      have hnot : v ∉ st.objRefVal := by
        intro hmem
        obtain ⟨e, he, hev⟩ := Inv_mem st hq.1 v hmem
        rw [List.find?_eq_none] at h
        have := h e he
        rw [hev] at this
        cases v <;> simp only [isClassPtr, reduceCtorEq] at hs
        rw [goEq_refl_classPtr] at this
        simp at this
      simp only [List.filter_cons, hs, List.filter_nil, if_true]
      rw [List.nodup_append]
      refine ⟨hq.2, List.nodup_singleton v, ?_⟩
      intro a ha hb
      simp only [List.mem_singleton] at hb
      subst hb
      exact hnot (List.mem_of_mem_filter ha)

/-- The three registry pointers the encoder interns point to three different
records. -/
theorem deref_injective (p q : ClassPtr)
    (hp : p = .NSDictionary ∨ p = .NSArray ∨ p = .NSData)
    (hq : q = .NSDictionary ∨ q = .NSArray ∨ q = .NSData) (h : p.deref = q.deref) : p = q := by
  rcases hp with hp | hp | hp <;> rcases hq with hq | hq | hq <;> subst hp hq <;>
    first | rfl | (revert h; decide)

/-- Encoding a composite value returns a reference that was not in use before,
and that points at a node. -/
theorem idAny_composite (v : Val) (st : NSKeyedArchiver) (r : Nat) (st' : NSKeyedArchiver)
    (h : idAny st v = .ok (r, st')) (hinv : Inv st) (hc : isComposite v = true) :
    st.objRefVal.length ≤ r ∧ ∃ n, st'.objRefVal[r]? = some (.nodePtr n) := by
  have key : ∀ (s2 : NSKeyedArchiver) (n : Node), Inv s2 →
      (∃ ext, s2.objRefVal = st.objRefVal ++ ext) →
      (Except.ok (s2.id (.nodePtr n)) : Except Stop (Nat × NSKeyedArchiver)) = .ok (r, st') →
      st.objRefVal.length ≤ r ∧ ∃ n, st'.objRefVal[r]? = some (.nodePtr n) := by
    intro s2 n hinv2 hext h2
    rw [id_nodePtr] at h2
    simp only [Except.ok.injEq, Prod.mk.injEq] at h2
    obtain ⟨h3, h4⟩ := h2
    subst h3 h4
    have hle := length_le_of_extends hext
    rw [Inv_length s2 hinv2]
    refine ⟨hle, n, ?_⟩
    simp
  have h1 := id_extends st
  cases v <;> simp only [isComposite, reduceCtorEq] at hc
  · rename_i bs
    rw [idAny] at h
    exact key _ _ (id_Inv _ _ hinv) (h1 _) h
  · rename_i xs
    rw [idAny] at h
    cases hl : idArrayValues (st.id (.classPtr .NSArray)).2 xs with
    | error e => rw [hl] at h; simp at h
    | ok res =>
      obtain ⟨rs, s2⟩ := res
      rw [hl] at h
      refine key s2 _ (idArrayValues_preserves Inv id_Inv xs _ rs s2 hl (id_Inv _ _ hinv)) ?_ h
      obtain ⟨e1, he1⟩ := h1 (.classPtr .NSArray)
      obtain ⟨e2, he2⟩ := idArrayValues_extends xs _ rs s2 hl
      exact ⟨e1 ++ e2, by rw [he2, he1, List.append_assoc]⟩
  · rename_i kvs
    rw [idAny] at h
    cases hl : idDictionaryEntries (st.id (.classPtr .NSDictionary)).2 kvs with
    | error e => rw [hl] at h; simp at h
    | ok res =>
      obtain ⟨ks, rs, s2⟩ := res
      rw [hl] at h
      refine key s2 _
        (idDictionaryEntries_preserves Inv id_Inv kvs _ ks rs s2 hl (id_Inv _ _ hinv)) ?_ h
      obtain ⟨e1, he1⟩ := h1 (.classPtr .NSDictionary)
      obtain ⟨e2, he2⟩ := idDictionaryEntries_extends kvs _ ks rs s2 hl
      exact ⟨e1 ++ e2, by rw [he2, he1, List.append_assoc]⟩
  · rename_i kvs
    rw [idAny] at h
    cases hl : idAnyMapEntries (st.id (.classPtr .NSDictionary)).2 kvs with
    | error e => rw [hl] at h; simp at h
    | ok res =>
      obtain ⟨ks, rs, s2⟩ := res
      rw [hl] at h
      refine key s2 _
        (idAnyMapEntries_preserves Inv id_Inv kvs _ ks rs s2 hl (id_Inv _ _ hinv)) ?_ h
      obtain ⟨e1, he1⟩ := h1 (.classPtr .NSDictionary)
      obtain ⟨e2, he2⟩ := idAnyMapEntries_extends kvs _ ks rs s2 hl
      exact ⟨e1 ++ e2, by rw [he2, he1, List.append_assoc]⟩

/-- The references the loop of `idArray` stores for composite elements point at
nodes, were not in use before the loop, and increase with the position. -/
theorem idArrayValues_composite_refs :
    ∀ (xs : List Val) (st : NSKeyedArchiver) (rs : List Nat) (st' : NSKeyedArchiver),
      idArrayValues st xs = .ok (rs, st') → Inv st →
      ∀ (i : Nat) (x : Val), xs[i]? = some x → isComposite x = true →
        ∃ r n, rs[i]? = some r ∧ st.objRefVal.length ≤ r ∧
          st'.objRefVal[r]? = some (.nodePtr n) ∧
          ∀ (j : Nat) (y : Val), i < j → xs[j]? = some y → isComposite y = true →
            ∃ r', rs[j]? = some r' ∧ r < r'
  | [], st, rs, st', _, _ => by
      intro i x hx
      simp at hx
  | x :: xs, st, rs, st', h, hinv => by
      rw [idArrayValues] at h
      cases hx : idAny st x with
      | error e => rw [hx] at h; simp at h
      | ok res =>
        obtain ⟨r0, s⟩ := res
        rw [hx] at h
        simp only at h
        cases hl : idArrayValues s xs with
        | error e => rw [hl] at h; simp at h
        | ok res2 =>
          obtain ⟨rs2, s2⟩ := res2
          rw [hl] at h
          simp only [Except.ok.injEq, Prod.mk.injEq] at h
          obtain ⟨h1, h2⟩ := h
          subst h1 h2
          have hinvs := idAny_Inv x st r0 s hx hinv
          have ih := idArrayValues_composite_refs xs s rs2 s2 hl hinvs
          have hle := length_le_of_extends (idAny_extends x st r0 s hx)
          intro i y hy hcy
          cases i with
          | zero =>
            simp only [List.getElem?_cons_zero, Option.some.injEq] at hy
            subst hy
            obtain ⟨hr0, n, hn⟩ := idAny_composite x st r0 s hx hinv hcy
            obtain ⟨ext, hext⟩ := idArrayValues_extends xs s rs2 s2 hl
            refine ⟨r0, n, by simp, hr0, by rw [hext]; exact getElem?_append_some _ _ _ _ hn, ?_⟩
            intro j z hj hz hcz
            obtain ⟨j', rfl⟩ : ∃ j', j = j' + 1 := ⟨j - 1, by omega⟩
            simp only [List.getElem?_cons_succ] at hz ⊢
            obtain ⟨r', _, hr', hge, _, _⟩ := ih j' z hz hcz
            have := getElem?_lt_length hn
            exact ⟨r', hr', by omega⟩
          | succ i' =>
            simp only [List.getElem?_cons_succ] at hy ⊢
            obtain ⟨r, n, hr, hge, hn, hlater⟩ := ih i' y hy hcy
            refine ⟨r, n, hr, by omega, hn, ?_⟩
            intro j z hj hz hcz
            obtain ⟨j', rfl⟩ : ∃ j', j = j' + 1 := ⟨j - 1, by omega⟩
            simp only [List.getElem?_cons_succ] at hz ⊢
            exact hlater j' z (by omega) hz hcz

/-- C14 (composite values are not deduplicated).  For every value whose leaves
and map keys are not the package's own node or descriptor values, which covers
every encodable value, the object table `Marshal` builds holds one node for
each occurrence of a composite sub-value (sequence, mapping, byte buffer),
while no class descriptor and no scalar leaf occurs twice.  When the value is a
sequence, two positions that hold composite values, equal or not, carry two
different references, in increasing order, each pointing at a node of its
own. -/
theorem composites_not_deduplicated (this : NSKeyedArchiver) (v : Val) (root : KeyedArchiver)
    (st : NSKeyedArchiver) (hthis : Reachable this) (hv : internedOk foreignLeaf v = true)
    (h : Marshal this v = .ok (root, st)) :
    (root.Objects.filter isNode).length = compositeCount v ∧
    (root.Objects.filter isClasses).Nodup ∧
    (root.Objects.filter isScalar).Nodup ∧
    ∀ xs : List Val, v = .slice xs →
      ∃ cls values, root.Objects[root.Top.Root]? = some (.node (.NSArray cls values)) ∧
        values.length = xs.length ∧
        ∀ (i j : Nat) (x y : Val), i < j → xs[i]? = some x → xs[j]? = some y →
          isComposite x = true → isComposite y = true →
          ∃ ri rj ni nj, values[i]? = some ri ∧ values[j]? = some rj ∧ ri < rj ∧
            root.Objects[ri]? = some (.node ni) ∧ root.Objects[rj]? = some (.node nj) := by
  have he : this = NewNSKeyedArchiver := Reachable_empty this hthis
  subst he
  obtain ⟨uid, s, hid, hobj, htop, _⟩ := Marshal_ok _ _ _ _ h
  obtain ⟨hq, _, hcount⟩ := encode_shape archiveEntry foreignLeaf foreignLeaf_policy v _ uid s hid
    (Shaped_start archiveEntry (Or.inl rfl)) hv
  have hn0 : nodeCount (NewNSKeyedArchiver.id (.str NSNull)).2.objRefVal = 0 := rfl
  have hent := Tbl_entry s.objRefVal hq.2.2
  have h0c : ClassPtrsOnce (NewNSKeyedArchiver.id (.str NSNull)).2 :=
    id_ClassPtrsOnce _ _ ⟨Inv_new, by simp [NewNSKeyedArchiver]⟩
  have h0s : ScalarsOnce (NewNSKeyedArchiver.id (.str NSNull)).2 :=
    id_ScalarsOnce _ _ ⟨Inv_new, by simp [NewNSKeyedArchiver]⟩
  have hc : ClassPtrsOnce s := idAny_preserves ClassPtrsOnce id_ClassPtrsOnce v _ uid s hid h0c
  have hs : ScalarsOnce s := idAny_preserves ScalarsOnce id_ScalarsOnce v _ uid s hid h0s
  have hnode : ∀ w ∈ s.objRefVal, isNode w = false := by
    intro w hw
    rcases hent w hw with hn | hn
    · cases w <;> first | rfl | simp [isNodePtr] at hn
    · exact archiveEntry_isNode w hn
  have hcls : ∀ w ∈ s.objRefVal, isClasses w = false := by
    intro w hw
    rcases hent w hw with hn | hn
    · cases w <;> first | rfl | simp [isNodePtr] at hn
    · exact archiveEntry_isClasses w hn
  have hthree : ∀ p, Val.classPtr p ∈ s.objRefVal →
      p = .NSDictionary ∨ p = .NSArray ∨ p = .NSData := by
    intro p hp
    rcases hent _ hp with hn | hn
    · simp [isNodePtr] at hn
    · exact archiveEntry_classPtr p hn
  refine ⟨?_, ?_, ?_, ?_⟩
  · rw [hobj, filter_isNode_flush _ hnode, hcount, hn0, Nat.zero_add]
  · rw [hobj, filter_isClasses_flush _ hcls]
    refine List.Nodup.map_on ?_ hc.2
    intro x hx y hy hxy
    obtain ⟨hxl, hxc⟩ := List.mem_filter.mp hx
    obtain ⟨hyl, hyc⟩ := List.mem_filter.mp hy
    cases x <;> simp only [isClassPtr, reduceCtorEq] at hxc
    cases y <;> simp only [isClassPtr, reduceCtorEq] at hyc
    rename_i p q
    simp only [flushValue, Val.classes.injEq] at hxy
    rw [deref_injective p q (hthree p hxl) (hthree q hyl) hxy]
  · rw [hobj, map_flushValue_scalars]; exact hs.2
  · intro xs hvx
    subst hvx
    rw [idAny] at hid
    cases hl : idArrayValues ((NewNSKeyedArchiver.id (.str NSNull)).2.id (.classPtr .NSArray)).2 xs with
    | error e => rw [hl] at hid; simp at hid
    | ok res =>
      obtain ⟨values, s2⟩ := res
      rw [hl] at hid
      simp only [Except.ok.injEq] at hid
      rw [id_nodePtr] at hid
      simp only [Prod.mk.injEq] at hid
      obtain ⟨huid, hs2⟩ := hid
      have h1 : Inv ((NewNSKeyedArchiver.id (.str NSNull)).2.id (.classPtr .NSArray)).2 :=
        id_Inv _ _ (id_Inv _ _ Inv_new)
      have hinv2 : Inv s2 := idArrayValues_preserves Inv id_Inv xs _ values s2 hl h1
      obtain ⟨hlen, _⟩ := idArrayValues_scalar_refs xs _ values s2 hl h1
      have hrefs := idArrayValues_composite_refs xs _ values s2 hl h1
      have hsobj : s.objRefVal = s2.objRefVal ++ [.nodePtr (.NSArray
          ((NewNSKeyedArchiver.id (.str NSNull)).2.id (.classPtr .NSArray)).1 values)] := by
        rw [← hs2]
      refine ⟨((NewNSKeyedArchiver.id (.str NSNull)).2.id (.classPtr .NSArray)).1, values,
        ?_, hlen, ?_⟩
      · rw [hobj, htop, ← huid, hsobj, Inv_length s2 hinv2, List.getElem?_map,
          List.getElem?_append_right (Nat.le_refl _)]
        simp [flushValue]
      · intro i j x y hij hi hj hx hy
        obtain ⟨ri, ni, hri, _, hni, hlater⟩ := hrefs i x hi hx
        obtain ⟨rj, hrj, hlt⟩ := hlater j y hij hj hy
        obtain ⟨rj', nj, hrj', _, hnj, _⟩ := hrefs j y hj hy
        rw [hrj] at hrj'
        simp only [Option.some.injEq] at hrj'
        subst hrj'
        refine ⟨ri, rj, ni, nj, hri, hrj, hlt, ?_, ?_⟩
        · rw [hobj, hsobj, List.getElem?_map, getElem?_append_some _ _ _ _ hni]
          rfl
        · rw [hobj, hsobj, List.getElem?_map, getElem?_append_some _ _ _ _ hnj]
          rfl

/-- Witness of C14: the sequence `[[1], [1]]` gives the two nodes `{1, [2]}` at
the indices 3 and 4, one array descriptor and one leaf `1`. -/
theorem composites_not_deduplicated_witness :
    Marshal NewNSKeyedArchiver (.slice [.slice [.int .int 1], .slice [.int .int 1]]) =
      .ok ({ Archiver := "NSKeyedArchiver",
             Objects := [.str "$null", .classes NSArrayClass, .int .int 1, .node (.NSArray 1 [2]),
               .node (.NSArray 1 [2]), .node (.NSArray 1 [3, 4])],
             Top := { Root := 5 }, Version := 100000 }, { objRefVal := [], objRef := [] }) ∧
    (([.str "$null", .classes NSArrayClass, .int .int 1, .node (.NSArray 1 [2]),
        .node (.NSArray 1 [2]), .node (.NSArray 1 [3, 4])] : List Val).filter isNode).length = 3 ∧
    (([.str "$null", .classes NSArrayClass, .int .int 1, .node (.NSArray 1 [2]),
        .node (.NSArray 1 [2]), .node (.NSArray 1 [3, 4])] : List Val).filter isClasses).Nodup ∧
    (([.str "$null", .classes NSArrayClass, .int .int 1, .node (.NSArray 1 [2]),
        .node (.NSArray 1 [2]), .node (.NSArray 1 [3, 4])] : List Val).filter isScalar).Nodup :=
  have hw := composites_not_deduplicated NewNSKeyedArchiver
    (.slice [.slice [.int .int 1], .slice [.int .int 1]])
    { Archiver := "NSKeyedArchiver",
      Objects := [.str "$null", .classes NSArrayClass, .int .int 1, .node (.NSArray 1 [2]),
        .node (.NSArray 1 [2]), .node (.NSArray 1 [3, 4])],
      Top := { Root := 5 }, Version := 100000 }
    { objRefVal := [], objRef := [] } Reachable.fresh rfl rfl
  ⟨rfl, hw.1, hw.2.1, hw.2.2.1⟩

/-! ## C4: every reference of a structure stands for its value -/

theorem goEq_exact_uid (w : Val) (n : Nat) (h : goEq w (.uid n) = true) : w = .uid n := by
  cases w <;> simp_all [goEq]

/-- After `id`, the returned reference points at the argument, or at a value
that Go's `==` equates with it. -/
theorem id_get_eq (st : NSKeyedArchiver) (v : Val) (hinv : Inv st) :
    ∃ w, (st.id v).2.objRefVal[(st.id v).1]? = some w ∧ (w = v ∨ goEq w v = true) := by
  cases h : st.objRef.find? (fun e => goEq e.1 v) with
  | some e =>
    rw [id_eq_of_found st v e h]
    have hp := List.find?_some h
    exact ⟨e.1, Inv_entry st hinv e (List.mem_of_find?_eq_some h), Or.inr hp⟩
  | none =>
    rw [id_eq_of_notFound st v h]
    refine ⟨v, ?_, Or.inl rfl⟩
    simp only
    rw [Inv_length st hinv, List.getElem?_append_right (Nat.le_refl _)]
    simp

theorem SubTable_flush (l l' : List Val) (h : ∃ ext, l' = l ++ ext) :
    SubTable (l.map flushValue) (l'.map flushValue) := by
  obtain ⟨ext, rfl⟩ := h
  rw [List.map_append]
  exact SubTable_append _ _

theorem SubTable_trans {T T' T'' : List Val} (h1 : SubTable T T') (h2 : SubTable T' T'') :
    SubTable T T'' :=
  fun i w h => h2 i w (h1 i w h)

mutual
/-- A reference that stands for a value stands for it in every larger table. -/
theorem Represents_mono (T T' : List Val) (hT : SubTable T T') :
    ∀ (v : Val) (r : Nat), Represents T v r → Represents T' v r
  | .str s, r, h => by rw [Represents] at h ⊢; exact hT _ _ h
  | .int k n, r, h => by rw [Represents] at h ⊢; exact hT _ _ h
  | .bool b, r, h => by rw [Represents] at h ⊢; exact hT _ _ h
  | .uid n, r, h => by rw [Represents] at h ⊢; exact hT _ _ h
  | .bytes bs, r, h => by
      rw [Represents] at h ⊢
      obtain ⟨cls, h1, h2⟩ := h
      exact ⟨cls, hT _ _ h1, hT _ _ h2⟩
  | .slice xs, r, h => by
      rw [Represents] at h ⊢
      obtain ⟨cls, values, h1, h2, h3⟩ := h
      exact ⟨cls, values, hT _ _ h1, hT _ _ h2, RepresentsValues_mono T T' hT xs values h3⟩
  | .dict kvs, r, h => by
      rw [Represents] at h ⊢
      obtain ⟨cls, values, keys, h1, h2, h3⟩ := h
      exact ⟨cls, values, keys, hT _ _ h1, hT _ _ h2,
        RepresentsEntries_mono T T' hT kvs keys values h3⟩
  | .anyMap kvs, r, h => by
      rw [Represents] at h ⊢
      obtain ⟨cls, values, keys, h1, h2, h3⟩ := h
      exact ⟨cls, values, keys, hT _ _ h1, hT _ _ h2,
        RepresentsAnyMap_mono T T' hT kvs keys values h3⟩
  | .nil, r, h => by rw [Represents] at h; exact h.elim
  | .float64 _, r, h => by rw [Represents] at h ⊢; exact h
  | .time _, r, h => by rw [Represents] at h ⊢; exact h
  | .struct _, r, h => by rw [Represents] at h ⊢; exact h
  | .classPtr _, r, h => by rw [Represents] at h ⊢; exact h
  | .nodePtr _, r, h => by rw [Represents] at h ⊢; exact h
  | .classes _, r, h => by rw [Represents] at h ⊢; exact h
  | .node _, r, h => by rw [Represents] at h ⊢; exact h
  | .goNSError _ _ _, r, h => by rw [Represents] at h ⊢; exact h
  | .tapMessage _, r, h => by rw [Represents] at h ⊢; exact h
theorem RepresentsValues_mono (T T' : List Val) (hT : SubTable T T') :
    ∀ (xs : List Val) (rs : List Nat), RepresentsValues T xs rs → RepresentsValues T' xs rs
  | [], rs, h => by rw [RepresentsValues] at h ⊢; exact h
  | x :: xs, rs, h => by
      rw [RepresentsValues] at h ⊢
      obtain ⟨r, rest, h1, h2, h3⟩ := h
      exact ⟨r, rest, h1, Represents_mono T T' hT x r h2, RepresentsValues_mono T T' hT xs rest h3⟩
theorem RepresentsEntries_mono (T T' : List Val) (hT : SubTable T T') :
    ∀ (kvs : List (String × Val)) (ks rs : List Nat),
      RepresentsEntries T kvs ks rs → RepresentsEntries T' kvs ks rs
  | [], ks, rs, h => by rw [RepresentsEntries] at h ⊢; exact h
  | (k, v) :: kvs, ks, rs, h => by
      rw [RepresentsEntries] at h ⊢
      obtain ⟨kr, krest, r, rest, h1, h2, h3, h4, h5⟩ := h
      exact ⟨kr, krest, r, rest, h1, h2, hT _ _ h3, Represents_mono T T' hT v r h4,
        RepresentsEntries_mono T T' hT kvs krest rest h5⟩
theorem RepresentsAnyMap_mono (T T' : List Val) (hT : SubTable T T') :
    ∀ (kvs : List (Val × Val)) (ks rs : List Nat),
      RepresentsAnyMap T kvs ks rs → RepresentsAnyMap T' kvs ks rs
  | [], ks, rs, h => by rw [RepresentsAnyMap] at h ⊢; exact h
  | (k, v) :: kvs, ks, rs, h => by
      rw [RepresentsAnyMap] at h ⊢
      obtain ⟨kr, krest, r, rest, h1, h2, ⟨w, h3, h3'⟩, h4, h5⟩ := h
      exact ⟨kr, krest, r, rest, h1, h2, ⟨w, hT _ _ h3, h3'⟩, Represents_mono T T' hT v r h4,
        RepresentsAnyMap_mono T T' hT kvs krest rest h5⟩
end

theorem flush_get {l : List Val} {i : Nat} {w : Val} (h : l[i]? = some w) :
    (l.map flushValue)[i]? = some (flushValue w) := by
  rw [List.getElem?_map, h]
  rfl

/-- Interning the pointer to a new node appends the node to the flushed table,
at the reference returned. -/
theorem node_flush (s2 : NSKeyedArchiver) (n : Node) (r : Nat) (st' : NSKeyedArchiver)
    (hinv : Inv s2)
    (h : (Except.ok (s2.id (.nodePtr n)) : Except Stop (Nat × NSKeyedArchiver)) = .ok (r, st')) :
    (st'.objRefVal.map flushValue)[r]? = some (.node n) ∧
    SubTable (s2.objRefVal.map flushValue) (st'.objRefVal.map flushValue) := by
  rw [id_nodePtr] at h
  simp only [Except.ok.injEq, Prod.mk.injEq] at h
  obtain ⟨h1, h2⟩ := h
  subst h1 h2
  refine ⟨?_, SubTable_flush _ _ ⟨[.nodePtr n], rfl⟩⟩
  have hg : (s2.objRefVal ++ [.nodePtr n])[s2.objRef.length]? = some (.nodePtr n) := by
    rw [Inv_length s2 hinv, List.getElem?_append_right (Nat.le_refl _)]
    simp
  exact flush_get hg

mutual
/-- The reference `idAny` returns stands for the value, over the table flushed
from the state it ends in. -/
theorem represents_any :
    ∀ (v : Val) (st : NSKeyedArchiver) (r : Nat) (st' : NSKeyedArchiver),
      idAny st v = .ok (r, st') → Inv st → Represents (st'.objRefVal.map flushValue) v r
  | .nil, st, r, st', h, _ => by simp [idAny] at h
  | .str s, st, r, st', h, hinv => by
      rw [idAny] at h
      obtain ⟨h1, h2⟩ := split_id_eq h
      subst h1 h2
      rw [Represents]
      exact flush_get (id_get st _ hinv (fun w hw => goEq_exact_str w s hw))
  | .int k n, st, r, st', h, hinv => by
      rw [idAny] at h
      obtain ⟨h1, h2⟩ := split_id_eq h
      subst h1 h2
      rw [Represents]
      exact flush_get (id_get st _ hinv (fun w hw => goEq_exact_int w k n hw))
  | .bool b, st, r, st', h, hinv => by
      rw [idAny] at h
      obtain ⟨h1, h2⟩ := split_id_eq h
      subst h1 h2
      rw [Represents]
      exact flush_get (id_get st _ hinv (fun w hw => goEq_exact_bool w b hw))
  | .uid n, st, r, st', h, hinv => by
      rw [idAny] at h
      obtain ⟨h1, h2⟩ := split_id_eq h
      subst h1 h2
      rw [Represents]
      exact flush_get (id_get st _ hinv (fun w hw => goEq_exact_uid w n hw))
  | .bytes bs, st, r, st', h, hinv => by
      rw [idAny, copyBytes_eq] at h
      obtain ⟨hnode, hsub⟩ := node_flush _ _ r st' (id_Inv st _ hinv) h
      rw [Represents]
      exact ⟨_, hnode, hsub _ _ (flush_get (id_classPtr_get st .NSData hinv))⟩
  | .slice xs, st, r, st', h, hinv => by
      rw [idAny] at h
      cases hl : idArrayValues (st.id (.classPtr .NSArray)).2 xs with
      | error e => rw [hl] at h; simp at h
      | ok res =>
        obtain ⟨rs, s2⟩ := res
        rw [hl] at h
        have hinv1 := id_Inv st (.classPtr .NSArray) hinv
        have hinv2 : Inv s2 := idArrayValues_preserves Inv id_Inv xs _ rs s2 hl hinv1
        obtain ⟨hnode, hsub⟩ := node_flush s2 _ r st' hinv2 h
        have hvals := represents_values xs _ rs s2 hl hinv1
        have hsub12 := SubTable_flush _ _ (idArrayValues_extends xs _ rs s2 hl)
        rw [Represents]
        exact ⟨_, rs, hnode,
          hsub _ _ (hsub12 _ _ (flush_get (id_classPtr_get st .NSArray hinv))),
          RepresentsValues_mono _ _ hsub xs rs hvals⟩
  | .dict kvs, st, r, st', h, hinv => by
      rw [idAny] at h
      cases hl : idDictionaryEntries (st.id (.classPtr .NSDictionary)).2 kvs with
      | error e => rw [hl] at h; simp at h
      | ok res =>
        obtain ⟨ks, rs, s2⟩ := res
        rw [hl] at h
        have hinv1 := id_Inv st (.classPtr .NSDictionary) hinv
        have hinv2 : Inv s2 := idDictionaryEntries_preserves Inv id_Inv kvs _ ks rs s2 hl hinv1
        obtain ⟨hnode, hsub⟩ := node_flush s2 _ r st' hinv2 h
        have hvals := represents_entries kvs _ ks rs s2 hl hinv1
        have hsub12 := SubTable_flush _ _ (idDictionaryEntries_extends kvs _ ks rs s2 hl)
        rw [Represents]
        exact ⟨_, rs, ks, hnode,
          hsub _ _ (hsub12 _ _ (flush_get (id_classPtr_get st .NSDictionary hinv))),
          RepresentsEntries_mono _ _ hsub kvs ks rs hvals⟩
  | .anyMap kvs, st, r, st', h, hinv => by
      rw [idAny] at h
      cases hl : idAnyMapEntries (st.id (.classPtr .NSDictionary)).2 kvs with
      | error e => rw [hl] at h; simp at h
      | ok res =>
        obtain ⟨ks, rs, s2⟩ := res
        rw [hl] at h
        have hinv1 := id_Inv st (.classPtr .NSDictionary) hinv
        have hinv2 : Inv s2 := idAnyMapEntries_preserves Inv id_Inv kvs _ ks rs s2 hl hinv1
        obtain ⟨hnode, hsub⟩ := node_flush s2 _ r st' hinv2 h
        have hvals := represents_anyMap kvs _ ks rs s2 hl hinv1
        have hsub12 := SubTable_flush _ _ (idAnyMapEntries_extends kvs _ ks rs s2 hl)
        rw [Represents]
        exact ⟨_, rs, ks, hnode,
          hsub _ _ (hsub12 _ _ (flush_get (id_classPtr_get st .NSDictionary hinv))),
          RepresentsAnyMap_mono _ _ hsub kvs ks rs hvals⟩
  | .float64 _, st, r, st', h, _ => by
      rw [idAny] at h; simp only [Except.ok.injEq, Prod.mk.injEq] at h
      rw [Represents]; exact h.1.symm
  | .time _, st, r, st', h, _ => by
      rw [idAny] at h; simp only [Except.ok.injEq, Prod.mk.injEq] at h
      rw [Represents]; exact h.1.symm
  | .struct _, st, r, st', h, _ => by
      rw [idAny] at h; simp only [Except.ok.injEq, Prod.mk.injEq] at h
      rw [Represents]; exact h.1.symm
  | .classPtr _, st, r, st', h, _ => by
      rw [idAny] at h; simp only [Except.ok.injEq, Prod.mk.injEq] at h
      rw [Represents]; exact h.1.symm
  | .nodePtr _, st, r, st', h, _ => by
      rw [idAny] at h; simp only [Except.ok.injEq, Prod.mk.injEq] at h
      rw [Represents]; exact h.1.symm
  | .classes _, st, r, st', h, _ => by
      rw [idAny] at h; simp only [Except.ok.injEq, Prod.mk.injEq] at h
      rw [Represents]; exact h.1.symm
  | .node _, st, r, st', h, _ => by
      rw [idAny] at h; simp only [Except.ok.injEq, Prod.mk.injEq] at h
      rw [Represents]; exact h.1.symm
  | .goNSError _ _ _, st, r, st', h, _ => by
      rw [idAny] at h; simp only [Except.ok.injEq, Prod.mk.injEq] at h
      rw [Represents]; exact h.1.symm
  | .tapMessage _, st, r, st', h, _ => by
      rw [idAny] at h; simp only [Except.ok.injEq, Prod.mk.injEq] at h
      rw [Represents]; exact h.1.symm
theorem represents_values :
    ∀ (xs : List Val) (st : NSKeyedArchiver) (rs : List Nat) (st' : NSKeyedArchiver),
      idArrayValues st xs = .ok (rs, st') → Inv st →
      RepresentsValues (st'.objRefVal.map flushValue) xs rs
  | [], st, rs, st', h, _ => by
      rw [idArrayValues] at h
      simp only [Except.ok.injEq, Prod.mk.injEq] at h
      rw [RepresentsValues]
      exact h.1.symm
  | x :: xs, st, rs, st', h, hinv => by
      rw [idArrayValues] at h
      cases hx : idAny st x with
      | error e => rw [hx] at h; simp at h
      | ok res =>
        obtain ⟨r, s⟩ := res
        rw [hx] at h
        simp only at h
        cases hl : idArrayValues s xs with
        | error e => rw [hl] at h; simp at h
        | ok res2 =>
          obtain ⟨rs2, s2⟩ := res2
          rw [hl] at h
          simp only [Except.ok.injEq, Prod.mk.injEq] at h
          obtain ⟨h1, h2⟩ := h
          subst h1 h2
          have hinvs := idAny_Inv x st r s hx hinv
          have hsub := SubTable_flush _ _ (idArrayValues_extends xs s rs2 s2 hl)
          rw [RepresentsValues]
          exact ⟨r, rs2, rfl, Represents_mono _ _ hsub x r (represents_any x st r s hx hinv),
            represents_values xs s rs2 s2 hl hinvs⟩
theorem represents_entries :
    ∀ (kvs : List (String × Val)) (st : NSKeyedArchiver) (ks rs : List Nat)
      (st' : NSKeyedArchiver),
      idDictionaryEntries st kvs = .ok (ks, rs, st') → Inv st →
      RepresentsEntries (st'.objRefVal.map flushValue) kvs ks rs
  | [], st, ks, rs, st', h, _ => by
      rw [idDictionaryEntries] at h
      simp only [Except.ok.injEq, Prod.mk.injEq] at h
      rw [RepresentsEntries]
      exact ⟨h.1.symm, h.2.1.symm⟩
  | (k, v) :: kvs, st, ks, rs, st', h, hinv => by
      rw [idDictionaryEntries] at h
      cases hx : idAny (st.id (.str k)).2 v with
      | error e => rw [hx] at h; simp at h
      | ok res =>
        obtain ⟨r, s⟩ := res
        rw [hx] at h
        simp only at h
        cases hl : idDictionaryEntries s kvs with
        | error e => rw [hl] at h; simp at h
        | ok res2 =>
          obtain ⟨ks2, rs2, s2⟩ := res2
          rw [hl] at h
          simp only [Except.ok.injEq, Prod.mk.injEq] at h
          obtain ⟨h1, h2, h3⟩ := h
          subst h1 h2 h3
          have hinv0 := id_Inv st (.str k) hinv
          have hinvs := idAny_Inv v _ r s hx hinv0
          have hsub0 := SubTable_flush _ _ (idAny_extends v _ r s hx)
          have hsub := SubTable_flush _ _ (idDictionaryEntries_extends kvs s ks2 rs2 s2 hl)
          have hkey := flush_get (id_get st (.str k) hinv (fun w hw => goEq_exact_str w k hw))
          rw [RepresentsEntries]
          exact ⟨_, ks2, r, rs2, rfl, rfl, hsub _ _ (hsub0 _ _ hkey),
            Represents_mono _ _ hsub v r (represents_any v _ r s hx hinv0),
            represents_entries kvs s ks2 rs2 s2 hl hinvs⟩
theorem represents_anyMap :
    ∀ (kvs : List (Val × Val)) (st : NSKeyedArchiver) (ks rs : List Nat)
      (st' : NSKeyedArchiver),
      idAnyMapEntries st kvs = .ok (ks, rs, st') → Inv st →
      RepresentsAnyMap (st'.objRefVal.map flushValue) kvs ks rs
  | [], st, ks, rs, st', h, _ => by
      rw [idAnyMapEntries] at h
      simp only [Except.ok.injEq, Prod.mk.injEq] at h
      rw [RepresentsAnyMap]
      exact ⟨h.1.symm, h.2.1.symm⟩
  | (k, v) :: kvs, st, ks, rs, st', h, hinv => by
      rw [idAnyMapEntries_cons _ _ _ _ (idAnyMapEntries_ok_notNaN _ _ _ _ _ h)] at h
      cases hx : idAny (st.id k).2 v with
      | error e => rw [hx] at h; simp at h
      | ok res =>
        obtain ⟨r, s⟩ := res
        rw [hx] at h
        simp only at h
        cases hl : idAnyMapEntries s kvs with
        | error e => rw [hl] at h; simp at h
        | ok res2 =>
          obtain ⟨ks2, rs2, s2⟩ := res2
          rw [hl] at h
          simp only [Except.ok.injEq, Prod.mk.injEq] at h
          obtain ⟨h1, h2, h3⟩ := h
          subst h1 h2 h3
          have hinv0 := id_Inv st k hinv
          have hinvs := idAny_Inv v _ r s hx hinv0
          have hsub0 := SubTable_flush _ _ (idAny_extends v _ r s hx)
          have hsub := SubTable_flush _ _ (idAnyMapEntries_extends kvs s ks2 rs2 s2 hl)
          obtain ⟨w, hw, hwk⟩ := id_get_eq st k hinv
          rw [RepresentsAnyMap]
          exact ⟨_, ks2, r, rs2, rfl, rfl, ⟨w, hsub _ _ (hsub0 _ _ (flush_get hw)), hwk⟩,
            Represents_mono _ _ hsub v r (represents_any v _ r s hx hinv0),
            represents_anyMap kvs s ks2 rs2 s2 hl hinvs⟩
end

/-- C4 (scalar deduplication).  In the object table of the archive root that
`Marshal` builds on a fresh instance, no string, integer or boolean leaf occurs
twice: a scalar stands at one index only.  Every reference of the structure
stands for its value: the root reference for the value encoded, the references
of each sequence node for its elements, those of each mapping node for its keys
and values, at every depth; so wherever the structure holds a scalar, the
reference stored there is the one index of that scalar.  When the value is a
sequence, the root node is the array node of its references, and two positions
that hold the same scalar carry one and the same reference, which points at
that scalar. -/
theorem scalar_leaves_interned_once (v : Val) (root : KeyedArchiver) (st : NSKeyedArchiver)
    (h : Marshal NewNSKeyedArchiver v = .ok (root, st)) :
    (root.Objects.filter isScalar).Nodup ∧
    (∀ (i j : Nat) (x : Val), isScalar x = true →
      root.Objects[i]? = some x → root.Objects[j]? = some x → i = j) ∧
    Represents root.Objects v root.Top.Root ∧
    ∀ xs : List Val, v = .slice xs →
      ∃ cls values, root.Objects[root.Top.Root]? = some (.node (.NSArray cls values)) ∧
        values.length = xs.length ∧
        ∀ (i j : Nat) (x : Val), xs[i]? = some x → xs[j]? = some x → isScalar x = true →
          ∃ r, values[i]? = some r ∧ values[j]? = some r ∧ root.Objects[r]? = some x := by
  obtain ⟨uid, s, hid, hobj, htop, _⟩ := Marshal_ok _ _ _ _ h
  have h0 : ScalarsOnce (NewNSKeyedArchiver.id (.str NSNull)).2 :=
    id_ScalarsOnce _ _ ⟨Inv_new, by simp [NewNSKeyedArchiver]⟩
  have hs : ScalarsOnce s := idAny_preserves ScalarsOnce id_ScalarsOnce v _ uid s hid h0
  have hnodup : (root.Objects.filter isScalar).Nodup := by
    rw [hobj, map_flushValue_scalars]; exact hs.2
  have hrep : Represents root.Objects v root.Top.Root := by
    rw [hobj, htop]
    exact represents_any v _ uid s hid (id_Inv _ _ Inv_new)
  refine ⟨hnodup,
    fun i j x hx hi hj => filter_nodup_index_unique isScalar _ i j x hnodup hi hj hx, hrep, ?_⟩
  intro xs hv
  subst hv
  rw [idAny] at hid
  cases hl : idArrayValues ((NewNSKeyedArchiver.id (.str NSNull)).2.id (.classPtr .NSArray)).2 xs with
  | error e => rw [hl] at hid; simp at hid
  | ok res =>
    obtain ⟨values, s2⟩ := res
    rw [hl] at hid
    simp only [Except.ok.injEq] at hid
    rw [id_nodePtr] at hid
    simp only [Prod.mk.injEq] at hid
    obtain ⟨huid, hs2⟩ := hid
    have h1 : ScalarsOnce ((NewNSKeyedArchiver.id (.str NSNull)).2.id (.classPtr .NSArray)).2 :=
      id_ScalarsOnce _ _ h0
    have hq2 : ScalarsOnce s2 :=
      idArrayValues_preserves ScalarsOnce id_ScalarsOnce xs _ values s2 hl h1
    obtain ⟨hlen, hrefs⟩ := idArrayValues_scalar_refs xs _ values s2 hl h1.1
    have hsobj : s.objRefVal = s2.objRefVal ++ [.nodePtr (.NSArray
        ((NewNSKeyedArchiver.id (.str NSNull)).2.id (.classPtr .NSArray)).1 values)] := by
      rw [← hs2]
    refine ⟨((NewNSKeyedArchiver.id (.str NSNull)).2.id (.classPtr .NSArray)).1, values, ?_, hlen, ?_⟩
    · rw [hobj, htop, ← huid, hsobj, Inv_length s2 hq2.1, List.getElem?_map,
        List.getElem?_append_right (Nat.le_refl _)]
      simp [flushValue]
    · intro i j x hi hj hx
      obtain ⟨ri, hri, hvi⟩ := hrefs i x hi hx
      obtain ⟨rj, hrj, hvj⟩ := hrefs j x hj hx
      have hij : ri = rj := filter_nodup_index_unique isScalar _ ri rj x hq2.2 hvi hvj hx
      subst hij
      refine ⟨ri, hri, hrj, ?_⟩
      rw [hobj, hsobj, List.getElem?_map, getElem?_append_some _ _ _ _ hvi]
      simp [flushValue_of_scalar x hx]

/-- Witness of C4: the mapping `{"k": "a", "l": ["a", "k"]}` gives one leaf
`"k"`, at index 2, and one leaf `"a"`, at index 3; the mapping node refers to
them as its first key and first value, the array node as its elements. -/
theorem scalar_leaves_interned_once_witness :
    Marshal NewNSKeyedArchiver (.dict [("k", .str "a"), ("l", .slice [.str "a", .str "k"])]) =
      .ok ({ Archiver := "NSKeyedArchiver",
             Objects := [.str "$null", .classes NSDictionaryClass, .str "k", .str "a", .str "l",
               .classes NSArrayClass, .node (.NSArray 5 [3, 2]),
               .node (.NSDictionary 1 [3, 6] [2, 4])],
             Top := { Root := 7 }, Version := 100000 }, { objRefVal := [], objRef := [] }) ∧
    ([Val.str "$null", .classes NSDictionaryClass, .str "k", .str "a", .str "l",
      .classes NSArrayClass, .node (.NSArray 5 [3, 2]),
      .node (.NSDictionary 1 [3, 6] [2, 4])].filter isScalar).Nodup ∧
    Represents [.str "$null", .classes NSDictionaryClass, .str "k", .str "a", .str "l",
      .classes NSArrayClass, .node (.NSArray 5 [3, 2]), .node (.NSDictionary 1 [3, 6] [2, 4])]
      (.dict [("k", .str "a"), ("l", .slice [.str "a", .str "k"])]) 7 :=
  have hw := scalar_leaves_interned_once
    (.dict [("k", .str "a"), ("l", .slice [.str "a", .str "k"])])
    { Archiver := "NSKeyedArchiver",
      Objects := [.str "$null", .classes NSDictionaryClass, .str "k", .str "a", .str "l",
        .classes NSArrayClass, .node (.NSArray 5 [3, 2]),
        .node (.NSDictionary 1 [3, 6] [2, 4])],
      Top := { Root := 7 }, Version := 100000 }
    { objRefVal := [], objRef := [] } rfl
  ⟨rfl, hw.1, hw.2.2.1⟩

/-! ## C5: an instance reused after a panic -/

/-- Counterexample to C5 as stated.  On a fresh instance `Unmarshal` of an
archive whose root reference points past its one object `"x"` panics, whatever
the recursion budget, and leaves the object behind in `objRefVal`, with an
empty map.  `Marshal` of `"a"` on that instance interns `$null` at reference 0
of the map but at index 1 of the list: the object table is `"x"`, `$null`,
`"a"`, with root 1, and its entry at index 0 is not the null sentinel. -/
theorem sentinel_displaced_after_panic :
    (¬ ∃ fuel : Nat, Unmarshal fuel NewNSKeyedArchiver (.ok danglingRootArchive)
      ≠ .error (.panic .indexOutOfRange)) ∧
    abortedUnmarshal NewNSKeyedArchiver danglingRootArchive
      = { objRefVal := [.str "x"], objRef := [] } ∧
    Marshal (abortedUnmarshal NewNSKeyedArchiver danglingRootArchive) (.str "a") =
      .ok ({ Archiver := "NSKeyedArchiver", Objects := [.str "x", .str "$null", .str "a"],
             Top := { Root := 1 }, Version := 100000 }, { objRefVal := [], objRef := [] }) ∧
    ([.str "x", .str "$null", .str "a"] : List Val)[0]? ≠ some (.str "$null") := by
  refine ⟨?_, rfl, rfl, by simp⟩
  rintro ⟨fuel, h⟩
  exact h rfl

end NS
